import Mathlib

/-!
# mr-object: a path-addressed object registry

A shallow embedding of `mr_object.c` / `mr_object.h`.

* Memory is a field-split heap: one function per field of `struct mr_object`.
  An object is identified by its address (`Addr`), a link pointer
  (`struct mr_object_list *`) is `Option Link`, `none` being `NULL`.
* C strings are `List Char` followed by an implicit terminating NUL; the
  16-byte `name` array is a `List Char` holding its 16 bytes.
* Loops over linked lists and the recursion over the path take a `fuel`
  argument.  A result `none` means that the run did not produce a defined
  result: the fuel ran out, or the code dereferenced a pointer that is not
  the address of a link of an object.  Results are stable under more fuel
  (`find_mono`, `register_mono`), and on every reachable registry enough
  fuel gives a result.
* `Reachable` are the registries obtained from program start by calls of
  `mr_object_register` / `mr_object_unregister` on caller-owned objects (any
  object but the static root) that respect the asserted preconditions.
-/

namespace MrObject

/-! ## Data model -/

/-- Address of a `struct mr_object`. -/
abbrev Addr := Nat

/-- Address of a `struct mr_object_list`: the `list` or the `clist` member of an object. -/
inductive Link where
  | list (o : Addr)
  | clist (o : Addr)
deriving DecidableEq, Repr

/-- The memory of all objects, one component per field of `struct mr_object`. -/
structure Heap where
  magic : Addr → Nat
  name : Addr → List Char
  next : Link → Option Link
  prev : Link → Option Link
  parent : Addr → Option Addr

/-- The constant `MR_CFG_OBJECT_NAME_MAX_LEN`. -/
def MR_CFG_OBJECT_NAME_MAX_LEN : Nat := 16

/-- The constant `OBJECT_MAGIC` (`0xdeadbeef`). -/
def OBJECT_MAGIC : Nat := 0xdeadbeef

/-- Address of the static `root_object`. -/
def root_object : Addr := 0

/-! ## C string functions -/

/-- The C library `strchr`, returning the offset of the first occurrence. -/
def strchr : List Char → Char → Option Nat
  | [], c => if c = '\x00' then some 0 else none
  | x :: xs, c =>
    if x = c then some 0
    else if x = '\x00' then none
    else (strchr xs c).map (· + 1)

/-- The C library `strncpy`: the `n` bytes written to the destination. -/
def strncpy : List Char → Nat → List Char
  | _, 0 => []
  | [], n + 1 => '\x00' :: strncpy [] n
  | c :: cs, n + 1 => if c = '\x00' then '\x00' :: strncpy [] n else c :: strncpy cs n

/-- The byte a C string starts with: NUL when nothing is left of it. -/
def peek : List Char → Char
  | [] => '\x00'
  | c :: _ => c

/-- The C library `strncmp`; a position past the end of a list reads as NUL. -/
def strncmp : List Char → List Char → Nat → Int
  | _, _, 0 => 0
  | a, b, n + 1 =>
    if peek a = peek b then
      (if peek a = '\x00' then 0 else strncmp a.tail b.tail n)
    else ((peek a).toNat : Int) - ((peek b).toNat : Int)

/-- The macro `BOUND(_val, _min, _max)`. -/
def BOUND (val min max : Int) : Int :=
  if val < min then min else (if val > max then max else val)

/-! ## Intrusive list primitives -/

/-- The function `list_is_inited`. -/
def list_is_inited (s : Heap) (list : Link) : Bool :=
  (s.next list != none) && (s.prev list != none)

/-- The function `list_init`. -/
def list_init (s : Heap) (list : Link) : Heap :=
  let s1 := { s with next := Function.update s.next list (some list) }
  { s1 with prev := Function.update s1.prev list (some list) }

/-- The function `list_insert_before`; `none` when `list->prev` is `NULL`. -/
def list_insert_before (s : Heap) (list node : Link) : Option Heap :=
  match s.prev list with
  | none => none
  | some p =>
    -- list->prev->next = node;
    let s1 := { s with next := Function.update s.next p (some node) }
    -- node->prev = list->prev;
    let s2 := { s1 with prev := Function.update s1.prev node (s1.prev list) }
    -- list->prev = node;
    let s3 := { s2 with prev := Function.update s2.prev list (some node) }
    -- node->next = list;
    some { s3 with next := Function.update s3.next node (some list) }

/-- The function `list_remove`; `none` when `node->next` or `node->prev` is `NULL`. -/
def list_remove (s : Heap) (node : Link) : Option Heap :=
  match s.next node with
  | none => none
  | some n =>
    -- node->next->prev = node->prev;
    let s1 := { s with prev := Function.update s.prev n (s.prev node) }
    match s1.prev node with
    | none => none
    | some p =>
      -- node->prev->next = node->next;
      let s2 := { s1 with next := Function.update s1.next p (s1.next node) }
      -- node->next = node->prev = node;
      let s3 := { s2 with prev := Function.update s2.prev node (some node) }
      some { s3 with next := Function.update s3.next node (some node) }

/-! ## Registry operations -/

/-- The loop of `object_find_from_parent`, started at the link `cur`. -/
def object_find_from_parent_loop (s : Heap) (parent : Addr) (name : List Char) :
    Nat → Option Link → Option (Option Addr)
  | 0, _ => none
  | _ + 1, none => none
  | fuel + 1, some l =>
    if l = Link.clist parent then some none
    else
      match l with
      | Link.list object =>
        if strncmp name (s.name object) MR_CFG_OBJECT_NAME_MAX_LEN = 0 then some (some object)
        else object_find_from_parent_loop s parent name fuel (s.next l)
      | Link.clist _ => none

/-- The function `object_find_from_parent`: `some none` is the result `NULL`. -/
def object_find_from_parent (fuel : Nat) (s : Heap) (parent : Addr) (name : List Char) :
    Option (Option Addr) :=
  object_find_from_parent_loop s parent name fuel (s.next (Link.clist parent))

/-- The function `object_register_to_parent`: the return code and the memory afterwards. -/
def object_register_to_parent (fuel : Nat) (s : Heap) (object : Addr) (name : List Char)
    (parent : Addr) : Option (Int × Heap) :=
  match object_find_from_parent fuel s parent name with
  | none => none
  | some (some _) => some (-1, s)
  | some none =>
    let s1 := if !list_is_inited s (Link.list object) then list_init s (Link.list object) else s
    let s2 := if !list_is_inited s1 (Link.clist object) then list_init s1 (Link.clist object) else s1
    let s3 := { s2 with name := Function.update s2.name object (strncpy name MR_CFG_OBJECT_NAME_MAX_LEN) }
    match list_insert_before s3 (Link.clist parent) (Link.list object) with
    | none => none
    | some s4 =>
      let s5 := { s4 with parent := Function.update s4.parent object (some parent) }
      some (0, { s5 with magic := Function.update s5.magic object OBJECT_MAGIC })

/-- The function `next_parent_find_from_path`: the returned object (or `NULL`) and the
updated `*path`. -/
def next_parent_find_from_path (fuel : Nat) (s : Heap) (parent : Addr) (path : List Char) :
    Option (Option Addr × List Char) :=
  let path := if path.head? = some '/' then path.tail else path
  match strchr path '/' with
  | some next_path =>
    let len := (BOUND next_path 0 MR_CFG_OBJECT_NAME_MAX_LEN).toNat
    let name := strncpy path len
    let path := path.drop (next_path + 1)
    match object_find_from_parent fuel s parent name with
    | none => none
    | some r => some (r, path)
  | none => some (none, path)

/-- The function `object_register_by_path`; `depth` bounds the recursion. -/
def object_register_by_path (fuel : Nat) (s : Heap) (object : Addr) :
    Nat → Addr → List Char → Option (Int × Heap)
  | 0, _, _ => none
  | depth + 1, parent, path =>
    match next_parent_find_from_path fuel s parent path with
    | none => none
    | some (some next_parent, path) => object_register_by_path fuel s object depth next_parent path
    | some (none, path) => object_register_to_parent fuel s object path parent

/-- The function `object_find_by_path`; `depth` bounds the recursion. -/
def object_find_by_path (fuel : Nat) (s : Heap) :
    Nat → Addr → List Char → Option (Option Addr)
  | 0, _, _ => none
  | depth + 1, parent, path =>
    match next_parent_find_from_path fuel s parent path with
    | none => none
    | some (some next_parent, path) => object_find_by_path fuel s depth next_parent path
    | some (none, path) => object_find_from_parent fuel s parent path

/-- The function `mr_object_find`. -/
def mr_object_find (fuel : Nat) (s : Heap) (path : List Char) : Option (Option Addr) :=
  object_find_by_path fuel s fuel root_object path

/-- The function `mr_object_register` (the assertions are compiled out, as in `mr_object.h`). -/
def mr_object_register (fuel : Nat) (s : Heap) (object : Addr) (path : List Char) :
    Option (Int × Heap) :=
  object_register_by_path fuel s object fuel root_object path

/-- The function `mr_object_unregister`. -/
def mr_object_unregister (s : Heap) (object : Addr) : Option (Int × Heap) :=
  match list_remove s (Link.list object) with
  | none => none
  | some s1 =>
    let s2 := { s1 with magic := Function.update s1.magic object 0 }
    some (0, { s2 with parent := Function.update s2.parent object none })

/-- The function `mr_object_parent_get`. -/
def mr_object_parent_get (s : Heap) (object : Addr) : Option Addr :=
  s.parent object

/-- The memory at program start: the statically initialised `root_object`
(`OBJECT_INIT(root_object, "root")`), every other object zero-initialised. -/
def init : Heap where
  magic := fun _ => 0
  name := fun o => if o = root_object then strncpy "root".toList 16 else List.replicate 16 '\x00'
  next := fun l =>
    if l = Link.list root_object ∨ l = Link.clist root_object then some l else none
  prev := fun l =>
    if l = Link.list root_object ∨ l = Link.clist root_object then some l else none
  parent := fun _ => none

/-- The path with the optional leading `/` skipped (`if ((*path)[0] == '/') (*path)++`). -/
def skip_slash (path : List Char) : List Char :=
  if path.head? = some '/' then path.tail else path

/-- The split made by `next_parent_find_from_path` when a `/` follows: the directory
segment clamped to 16 bytes, and the path after that `/`. -/
def path_split (path : List Char) : Option (List Char × List Char) :=
  match strchr (skip_slash path) '/' with
  | some next_path =>
    some (strncpy (skip_slash path) (BOUND next_path 0 MR_CFG_OBJECT_NAME_MAX_LEN).toNat,
      (skip_slash path).drop (next_path + 1))
  | none => none

/-- Where the descent shared by `object_register_by_path` and `object_find_by_path` stops:
the object reached, the part of the path left over (used as the final segment), and the
directory segment that matched no child there when the descent stopped on one. -/
structure Stop where
  parent : Addr
  rest : List Char
  missing : Option (List Char)
deriving DecidableEq, Repr

/-- The descent of `object_register_by_path` / `object_find_by_path`: follow
`next_parent_find_from_path` until it returns `NULL`. -/
def path_walk (fuel : Nat) (s : Heap) : Nat → Addr → List Char → Option Stop
  | 0, _, _ => none
  | depth + 1, parent, path =>
    match next_parent_find_from_path fuel s parent path with
    | none => none
    | some (some next_parent, rest) => path_walk fuel s depth next_parent rest
    | some (none, rest) => some ⟨parent, rest, (path_split path).map Prod.fst⟩

/-- The registry states reachable through the API from program start, by calls on
caller-owned objects that respect the asserted preconditions. -/
inductive Reachable : Heap → Prop
  | init : Reachable init
  | register {s t : Heap} {n : Addr} {p : List Char} {fuel : Nat} {r : Int} :
      Reachable s → n ≠ root_object → s.magic n ≠ OBJECT_MAGIC →
      mr_object_register fuel s n p = some (r, t) → Reachable t
  | unregister {s t : Heap} {n : Addr} {r : Int} :
      Reachable s → n ≠ root_object → s.magic n = OBJECT_MAGIC →
      mr_object_unregister s n = some (r, t) → Reachable t

/-- The object denoted by the directory part of a path, as the specification reads it:
every directory component must name an existing child at its level of the walk from
`parent`.  The result `some none` reports a missing component, `some (some d)` the object
`d` reached when no `/` is left. -/
def directory_of (fuel : Nat) (s : Heap) : Nat → Addr → List Char → Option (Option Addr)
  | 0, _, _ => none
  | depth + 1, parent, path =>
    match path_split path with
    | none => some (some parent)
    | some (seg, rest) =>
      match object_find_from_parent fuel s parent seg with
      | none => none
      | some none => some none
      | some (some child) => directory_of fuel s depth child rest

/-- The memory after the call `mr_object_register(object, path)`. -/
def after_register (fuel : Nat) (s : Heap) (object : Addr) (path : String) : Heap :=
  match mr_object_register fuel s object path.toList with
  | some (_, t) => t
  | none => s

/-- The memory after the call `mr_object_unregister(object)`. -/
def after_unregister (s : Heap) (object : Addr) : Heap :=
  match mr_object_unregister s object with
  | some (_, t) => t
  | none => s

/-! ## Tree dump -/

/-- What `printf` reads for `%s` from a 16-byte `name` array: the bytes before the first
NUL.  An array that holds no NUL has no terminator and the read runs past its end: `none`. -/
def name_string (buf : List Char) : Option (List Char) :=
  if '\x00' ∈ buf then some (buf.takeWhile fun c => c != '\x00') else none

/-- The conversion `%-*s`: the string left-justified in a field of `width` characters. -/
def pad_right (width : Nat) (str : List Char) : List Char :=
  str ++ List.replicate (width - str.length) ' '

/-- The conversion `%*s`: the string right-justified in a field of `width` characters. -/
def pad_left (width : Nat) (str : List Char) : List Char :=
  List.replicate (width - str.length) ' ' ++ str

/-- What a printing call did: the text it passed to `MR_OBJECT_PRINTF`, or `overread`
when a `%s` conversion read past the end of a `name` array. -/
inductive Printed where
  | text (out : List Char)
  | overread
deriving DecidableEq, Repr

mutual
/-- The function `object_tree_print`. -/
def object_tree_print (s : Heap) : Nat → Addr → Nat → Option Printed
  | 0, _, _ => none
  | fuel + 1, parent, level =>
    match name_string (s.name parent) with
    | none => some Printed.overread
    | some name =>
      let line :=
        (if level = 0 then "|--- ".toList ++ pad_right MR_CFG_OBJECT_NAME_MAX_LEN name
         else pad_left level " ".toList ++ "|--- ".toList ++
           pad_right MR_CFG_OBJECT_NAME_MAX_LEN name) ++ "\r\n".toList
      match object_tree_print_children s fuel parent level (s.next (Link.clist parent)) with
      | none => none
      | some Printed.overread => some Printed.overread
      | some (Printed.text out) => some (Printed.text (line ++ out))
/-- The loop over the children in `object_tree_print`, started at the link `child`. -/
def object_tree_print_children (s : Heap) : Nat → Addr → Nat → Option Link → Option Printed
  | 0, _, _, _ => none
  | _ + 1, _, _, none => none
  | fuel + 1, parent, level, some child =>
    if child = Link.clist parent then some (Printed.text [])
    else
      match child with
      | Link.list object =>
        match object_tree_print s fuel object (level + 5) with
        | none => none
        | some Printed.overread => some Printed.overread
        | some (Printed.text out) =>
          match object_tree_print_children s fuel parent level (s.next child) with
          | none => none
          | some Printed.overread => some Printed.overread
          | some (Printed.text more) => some (Printed.text (out ++ more))
      | Link.clist _ => none
end

/-- The function `mr_object_tree_print`; `none` as argument is `NULL`. -/
def mr_object_tree_print (fuel : Nat) (s : Heap) (object : Option Addr) : Option Printed :=
  match object with
  | none => object_tree_print s fuel root_object 0
  | some object => object_tree_print s fuel object 0

/-- The line of the object `o` at depth `d` as the tree dump is specified: `5 * d`
spaces, `|--- `, the name left-justified in 16 characters, and the line end. -/
def dump_line (s : Heap) (d : Nat) (o : Addr) : List Char :=
  List.replicate (5 * d) ' ' ++ "|--- ".toList ++
    pad_right MR_CFG_OBJECT_NAME_MAX_LEN ((s.name o).takeWhile fun c => c != '\x00') ++
    "\r\n".toList

/-- The texts of the objects `cs`, one after the other. -/
def dump_children (f : Addr → List Char) : List Addr → List Char
  | [] => []
  | c :: cs => f c ++ dump_children f cs

/-- The tree dump as specified: one line per object of the subtree of `r`, in depth-first
pre-order, the children `ch o` of every object in list order; `h` bounds the height. -/
def dump (s : Heap) (ch : Addr → List Addr) : Nat → Addr → Nat → List Char
  | 0, r, d => dump_line s d r
  | h + 1, r, d => dump_line s d r ++ dump_children (fun c => dump s ch h c (d + 1)) (ch r)

/-- The subtree of `r` has height at most `h`. -/
def HeightLE (ch : Addr → List Addr) : Nat → Addr → Prop
  | 0, r => ch r = []
  | h + 1, r => ∀ c ∈ ch r, HeightLE ch h c

/-! ## Abstraction: child lists, the registry invariant, the descent -/

/-- The circular list with sentinel `head` runs, from `cur` on, through exactly the
links `ls` and then back to `head`, with `prev` the inverse of `next` along it. -/
def Chain (s : Heap) (head : Link) : Link → List Link → Prop
  | cur, [] => s.next cur = some head ∧ s.prev head = some cur
  | cur, l :: ls => s.next cur = some l ∧ s.prev l = some cur ∧ Chain s head l ls

/-- The child list of `o` (the circular list headed by `o.clist`) holds the `list`
links of exactly the objects `cs`, in this order. -/
def ChildList (s : Heap) (o : Addr) (cs : List Addr) : Prop :=
  Chain s (Link.clist o) (Link.clist o) (cs.map Link.list)

/-- The last link of the run `cur :: ls`. -/
def lastOf : Link → List Link → Link
  | cur, [] => cur
  | _, l :: ls => lastOf l ls

/-- The link that follows `node` in the run `node :: ls` closed by `head`. -/
def firstOf (head : Link) : List Link → Link
  | [] => head
  | l :: _ => l

/-- In the forest described by `ch`, `b` is `a` or lies below `a`. -/
inductive Desc (ch : Addr → List Addr) : Addr → Addr → Prop
  | refl (a : Addr) : Desc ch a a
  | step {a o c : Addr} : Desc ch a o → c ∈ ch o → Desc ch a c

/-- The registry invariant: `ch o` is the child list of every object `o`. -/
structure WF (s : Heap) (ch : Addr → List Addr) : Prop where
  clist : ∀ o, ChildList s o (ch o) ∨
    (s.next (Link.clist o) = none ∧ s.prev (Link.clist o) = none ∧ ch o = [])
  inited : ∀ o, (o = root_object ∨ ∃ p, o ∈ ch p) → s.next (Link.clist o) ≠ none
  unlinked : ∀ c, (∀ o, c ∉ ch o) →
    (s.next (Link.list c) = none ∧ s.prev (Link.list c) = none) ∨
    (s.next (Link.list c) = some (Link.list c) ∧ s.prev (Link.list c) = some (Link.list c))
  parent : ∀ o c, c ∈ ch o → s.parent c = some o
  live : ∀ c, c ≠ root_object → (s.magic c = OBJECT_MAGIC ↔ ∃ o, c ∈ ch o)
  root_free : ∀ o, root_object ∉ ch o
  root_magic : s.magic root_object = 0
  root_parent : s.parent root_object = none
  root_list : s.next (Link.list root_object) = some (Link.list root_object) ∧
    s.prev (Link.list root_object) = some (Link.list root_object)
  canon : ∀ o, strncpy (s.name o) MR_CFG_OBJECT_NAME_MAX_LEN = s.name o
  names : ∀ o c1 c2, c1 ∈ ch o → c2 ∈ ch o → s.name c1 = s.name c2 → c1 = c2
  rank : ∃ rk : Addr → Nat, ∀ o c, c ∈ ch o → rk o < rk c
  bound : ∃ B, ∀ o, (ch o).length ≤ B

/-- The memory after the two `list_is_inited` / `list_init` steps of `object_register_to_parent`. -/
def prepared (s : Heap) (object : Addr) : Heap :=
  let s1 := if !list_is_inited s (Link.list object) then list_init s (Link.list object) else s
  if !list_is_inited s1 (Link.clist object) then list_init s1 (Link.clist object) else s1

/-- The abstract lookup: the first child in `cs` whose stored name matches `name` on 16 bytes. -/
def lookup (s : Heap) (cs : List Addr) (name : List Char) : Option Addr :=
  cs.find? fun c => strncmp name (s.name c) MR_CFG_OBJECT_NAME_MAX_LEN = 0

/-- The memory after a successful `object_register_to_parent`, `last` being the link
before the sentinel of the parent. -/
def registered (s : Heap) (n : Addr) (name : List Char) (P : Addr) (last : Link) : Heap where
  magic := Function.update s.magic n OBJECT_MAGIC
  name := Function.update s.name n (strncpy name MR_CFG_OBJECT_NAME_MAX_LEN)
  next := Function.update (Function.update (prepared s n).next last (some (Link.list n)))
    (Link.list n) (some (Link.clist P))
  prev := Function.update (Function.update (prepared s n).prev (Link.list n) (some last))
    (Link.clist P) (some (Link.list n))
  parent := Function.update s.parent n (some P)

/-- The memory after `mr_object_unregister` of an object whose link has the
neighbours `nx` and `pv`. -/
def unregistered (s : Heap) (n : Addr) (nx pv : Link) : Heap where
  magic := Function.update s.magic n 0
  name := s.name
  next := Function.update (Function.update s.next pv (some nx)) (Link.list n) (some (Link.list n))
  prev := Function.update (Function.update s.prev nx (some pv)) (Link.list n) (some (Link.list n))
  parent := Function.update s.parent n none

/-- The descent, with the list searches replaced by lookups in the child lists `ch`. -/
inductive Walk (s : Heap) (ch : Addr → List Addr) : Addr → List Char → Stop → Prop
  | last {a : Addr} {p : List Char} : path_split p = none →
      Walk s ch a p ⟨a, skip_slash p, none⟩
  | miss {a : Addr} {p seg rest : List Char} : path_split p = some (seg, rest) →
      lookup s (ch a) seg = none → Walk s ch a p ⟨a, rest, some seg⟩
  | down {a b : Addr} {p seg rest : List Char} {st : Stop} :
      path_split p = some (seg, rest) → lookup s (ch a) seg = some b →
      Walk s ch b rest st → Walk s ch a p st

/-- The object is the root or a child of some object. -/
def Attached (ch : Addr → List Addr) (a : Addr) : Prop :=
  a = root_object ∨ ∃ p, a ∈ ch p

/-- The registry after `x` was registered at `"x"`. -/
def state_x : Heap := after_register 4 init 1 "x"

/-- The registry after `x`, `y` were registered at `"x"`, `"x/y"`. -/
def state_xy : Heap := after_register 4 state_x 2 "x/y"

/-- The registry after `x`, `y`, `z` were registered at `"x"`, `"x/y"`, `"x/y/z"`. -/
def state_xyz : Heap := after_register 4 state_xy 3 "x/y/z"

/-- The registry after `a`, `b`, `c` were registered under the root, in this order. -/
def state_abc : Heap :=
  after_register 4 (after_register 4 (after_register 4 init 1 "a") 2 "b") 3 "c"

/-- The registry after one object was registered under the root with a 16-byte name. -/
def state_long : Heap := after_register 4 init 1 "abcdefghijklmnop"

/-- The registry after `x`, `x/y`, `x/y/z` were registered and `y` was unregistered. -/
def state_xz : Heap := after_unregister state_xyz 2

/-- All list links are symmetric: wherever `x.next` is set, `x.next.prev == x`, and
wherever `x.prev` is set, `x.prev.next == x`. -/
def Symmetric (s : Heap) : Prop :=
  (∀ x y, s.next x = some y → s.prev y = some x) ∧
  (∀ x z, s.prev x = some z → s.next z = some x)

/-- The object reached from `n` by following the parent references upwards through live
objects for at most `k` steps; the climb stops at the root and at an object that is not
live. -/
def climb (s : Heap) : Nat → Addr → Addr
  | 0, n => n
  | k + 1, n =>
    if n = root_object ∨ s.magic n ≠ OBJECT_MAGIC then n
    else
      match s.parent n with
      | some P => climb s k P
      | none => n

/-- The object `c` is `a` or is reachable from `a` through child lists. -/
inductive Below (s : Heap) : Addr → Addr → Prop
  | refl (a : Addr) : Below s a a
  | step {a o c : Addr} {cs : List Addr} :
      Below s a o → ChildList s o cs → c ∈ cs → Below s a c

/-! ## Strings: comparison against a stored name -/

theorem char_sub_ne (a b : Char) (h : a ≠ b) : ((a.toNat : Int) - (b.toNat : Int)) ≠ 0 := by
  intro h0
  apply h
  have h1 : a.toNat = b.toNat := by omega
  have h2 : a.val.toNat = b.val.toNat := h1
  exact Char.ext (UInt32.ext h2)

theorem strncpy_nil_eq (a : List Char) (n : Nat) (h : peek a = '\x00') :
    strncpy a n = strncpy [] n := by
  cases n with
  | zero => simp [strncpy]
  | succ n =>
    cases a with
    | nil => rfl
    | cons c cs =>
      simp only [peek] at h
      simp [strncpy, h]

theorem strncpy_succ (a : List Char) (n : Nat) (h : peek a ≠ '\x00') :
    strncpy a (n + 1) = peek a :: strncpy a.tail n := by
  cases a with
  | nil => simp [peek] at h
  | cons c cs =>
    simp only [peek] at h
    simp [strncpy, h, peek]

theorem strncpy_zero_succ (a : List Char) (n : Nat) (h : peek a = '\x00') :
    strncpy a (n + 1) = '\x00' :: strncpy [] n := by
  rw [strncpy_nil_eq a _ h]; rfl

/-- Two strings compare equal on `n` bytes exactly when `strncpy` stores the same `n` bytes for them. -/
theorem strncmp_eq_zero_iff (n : Nat) : ∀ a b : List Char,
    strncmp a b n = 0 ↔ strncpy a n = strncpy b n := by
  induction n with
  | zero => intro a b; simp [strncmp, strncpy]
  | succ n ih =>
    intro a b
    unfold strncmp
    by_cases hab : peek a = peek b
    · by_cases ha : peek a = '\x00'
      · have hb : peek b = '\x00' := hab ▸ ha
        simp [ha, hb, strncpy_zero_succ a n ha, strncpy_zero_succ b n hb]
      · have hb : peek b ≠ '\x00' := hab ▸ ha
        rw [if_pos hab, if_neg ha, strncpy_succ a n ha, strncpy_succ b n hb, ih]
        simp [hab]
    · rw [if_neg hab]
      constructor
      · intro h; exact absurd h (char_sub_ne _ _ hab)
      · intro h
        exfalso
        by_cases ha : peek a = '\x00'
        · by_cases hb : peek b = '\x00'
          · exact hab (ha.trans hb.symm)
          · rw [strncpy_zero_succ a n ha, strncpy_succ b n hb] at h
            simp at h
            exact hb h.1.symm
        · by_cases hb : peek b = '\x00'
          · rw [strncpy_succ a n ha, strncpy_zero_succ b n hb] at h
            simp at h
            exact ha h.1
          · rw [strncpy_succ a n ha, strncpy_succ b n hb] at h
            simp at h
            exact hab h.1

theorem strncpy_idem (n : Nat) : ∀ a : List Char, strncpy (strncpy a n) n = strncpy a n := by
  induction n with
  | zero => intro a; simp [strncpy]
  | succ n ih =>
    intro a
    by_cases ha : peek a = '\x00'
    · rw [strncpy_zero_succ a n ha]
      simp [strncpy]
    · rw [strncpy_succ a n ha]
      simp [strncpy, ha, ih]

theorem strncpy_length (n : Nat) : ∀ a : List Char, (strncpy a n).length = n := by
  induction n with
  | zero => intro a; simp [strncpy]
  | succ n ih =>
    intro a
    cases a with
    | nil => simp [strncpy, ih]
    | cons c cs =>
      simp only [strncpy]; split <;> simp [ih]

theorem strncpy_take (n : Nat) : ∀ a : List Char, '\x00' ∉ a → n ≤ a.length →
    strncpy a n = a.take n := by
  induction n with
  | zero => intro a _ _; simp [strncpy]
  | succ n ih =>
    intro a h0 hl
    cases a with
    | nil => simp at hl
    | cons c cs =>
      simp at h0 hl
      have hc : c ≠ '\x00' := fun h => h0.1 h.symm
      simp [strncpy, hc, ih cs h0.2 hl]

/-! ## Circular lists in the heap -/

theorem lastOf_mem (cur : Link) (ls : List Link) : lastOf cur ls ∈ cur :: ls := by
  induction ls generalizing cur with
  | nil => simp [lastOf]
  | cons l ls ih =>
    have := ih l
    simp only [lastOf]
    exact List.mem_cons_of_mem _ this

theorem lastOf_append (cur node : Link) (ls : List Link) : lastOf cur (ls ++ [node]) = node := by
  induction ls generalizing cur with
  | nil => simp [lastOf]
  | cons l ls ih => simpa [lastOf] using ih l

theorem chain_prev_head {s : Heap} {head cur : Link} {ls : List Link}
    (h : Chain s head cur ls) : s.prev head = some (lastOf cur ls) := by
  induction ls generalizing cur with
  | nil => exact h.2
  | cons l ls ih => exact ih h.2.2

theorem chain_next {s : Heap} {head cur : Link} {ls : List Link}
    (h : Chain s head cur ls) : s.next cur = some (firstOf head ls) := by
  cases ls with
  | nil => exact h.1
  | cons l ls => exact h.1

/-- Frame rule: a chain only depends on the `next` of its links and the `prev` of their successors. -/
theorem chain_congr {s t : Heap} {head cur : Link} {ls : List Link}
    (hn : ∀ l ∈ cur :: ls, t.next l = s.next l)
    (hp : ∀ l ∈ ls ++ [head], t.prev l = s.prev l)
    (h : Chain s head cur ls) : Chain t head cur ls := by
  induction ls generalizing cur with
  | nil =>
    refine ⟨?_, ?_⟩
    · rw [hn cur (by simp)]; exact h.1
    · rw [hp head (by simp)]; exact h.2
  | cons l ls ih =>
    refine ⟨?_, ?_, ?_⟩
    · rw [hn cur (by simp)]; exact h.1
    · rw [hp l (by simp)]; exact h.2.1
    · apply ih
      · intro x hx; exact hn x (List.mem_cons_of_mem _ hx)
      · intro x hx; exact hp x (by simp at hx ⊢; tauto)
      · exact h.2.2

theorem chain_unique {s : Heap} {head cur : Link} {l1 l2 : List Link}
    (h1 : Chain s head cur l1) (h2 : Chain s head cur l2)
    (n1 : head ∉ l1) (n2 : head ∉ l2) : l1 = l2 := by
  induction l1 generalizing cur l2 with
  | nil =>
    cases l2 with
    | nil => rfl
    | cons b bs =>
      have := h1.1.symm.trans h2.1
      simp at this
      simp [this] at n2
  | cons a as ih =>
    cases l2 with
    | nil =>
      have := h1.1.symm.trans h2.1
      simp at this
      simp [this] at n1
    | cons b bs =>
      have hab := h1.1.symm.trans h2.1
      simp at hab
      subst hab
      simp at n1 n2
      rw [ih h1.2.2 h2.2.2 n1.2 n2.2]

theorem chain_suffix {s : Heap} {head cur x : Link} {A B : List Link}
    (h : Chain s head cur (A ++ x :: B)) : Chain s head x B := by
  induction A generalizing cur with
  | nil => exact h.2.2
  | cons a A ih => exact ih h.2.2

theorem chain_cur_not_mem {s : Heap} {head cur : Link} {ls : List Link}
    (h : Chain s head cur ls) (nh : head ∉ ls) : cur ∉ ls := by
  intro hm
  obtain ⟨A, B, rfl⟩ := List.append_of_mem hm
  have h2 := chain_suffix h
  have := chain_unique h h2 nh (fun hb => nh (by simp [hb]))
  have hl := congrArg List.length this
  simp at hl
  omega

theorem chain_nodup {s : Heap} {head cur : Link} {ls : List Link}
    (h : Chain s head cur ls) (nh : head ∉ ls) : (cur :: ls).Nodup := by
  induction ls generalizing cur with
  | nil => simp
  | cons l ls ih =>
    rw [List.nodup_cons]
    refine ⟨chain_cur_not_mem h nh, ?_⟩
    exact ih h.2.2 (fun hm => nh (List.mem_cons_of_mem _ hm))

theorem clist_not_mem_map (o : Addr) (cs : List Addr) : Link.clist o ∉ cs.map Link.list := by
  simp

theorem childList_unique {s : Heap} {o : Addr} {c1 c2 : List Addr}
    (h1 : ChildList s o c1) (h2 : ChildList s o c2) : c1 = c2 := by
  have := chain_unique h1 h2 (clist_not_mem_map _ _) (clist_not_mem_map _ _)
  exact List.map_injective_iff.mpr (fun a b hab => by injection hab) this

theorem childList_nodup {s : Heap} {o : Addr} {cs : List Addr}
    (h : ChildList s o cs) : cs.Nodup := by
  have := chain_nodup h (clist_not_mem_map _ _)
  rw [List.nodup_cons] at this
  exact List.Nodup.of_map _ this.2

/-! ## The list primitives on chains -/

theorem list_insert_before_eq (s : Heap) (list node p : Link) (hp : s.prev list = some p) :
    list_insert_before s list node = some
      { s with
        next := Function.update (Function.update s.next p (some node)) node (some list)
        prev := Function.update (Function.update s.prev node (some p)) list (some node) } := by
  simp [list_insert_before, hp]

theorem list_remove_eq (s : Heap) (node nx pv : Link) (hn : s.next node = some nx)
    (hp : s.prev node = some pv) :
    list_remove s node = some
      { s with
        next := Function.update (Function.update s.next pv (some nx)) node (some node)
        prev := Function.update (Function.update s.prev nx (some pv)) node (some node) } := by
  have h1 : Function.update s.prev nx (some pv) node = some pv := by
    by_cases h : node = nx
    · subst h; simp
    · simp [Function.update_noteq h, hp]
  simp only [list_remove, hn, hp, h1]

/-- Splicing `node` in before the sentinel appends it to the chain. -/
theorem chain_insert {s : Heap} {head cur node : Link} {ls : List Link}
    (h : Chain s head cur ls) (hnode : node ∉ cur :: ls) (hhn : node ≠ head)
    (hnd : (cur :: ls).Nodup) (hh : head ∉ ls) :
    Chain { s with
        next := Function.update (Function.update s.next (lastOf cur ls) (some node)) node (some head)
        prev := Function.update (Function.update s.prev node (some (lastOf cur ls))) head (some node) }
      head cur (ls ++ [node]) := by
  induction ls generalizing cur with
  | nil =>
    have hcn : cur ≠ node := fun e => hnode (by simp [e])
    refine ⟨?_, ?_, ?_, ?_⟩
    · simp [lastOf, Function.update_noteq hcn]
    · simp [lastOf, Function.update_noteq hhn]
    · simp
    · simp
  | cons l ls ih =>
    have hcn : cur ≠ node := fun e => hnode (by simp [e])
    have hln : l ≠ node := fun e => hnode (by simp [e])
    have hlh : l ≠ head := fun e => hh (by simp [e])
    have hcl : cur ≠ lastOf l ls := by
      intro e
      have := lastOf_mem l ls
      rw [← e] at this
      exact (List.nodup_cons.mp hnd).1 this
    refine ⟨?_, ?_, ?_⟩
    · simp only [lastOf, Function.update_noteq hcn, Function.update_noteq hcl]
      exact h.1
    · simp only [Function.update_noteq hlh, Function.update_noteq hln]
      exact h.2.1
    · exact ih h.2.2 (fun hm => hnode (List.mem_cons_of_mem _ hm)) (List.nodup_cons.mp hnd).2
        (fun hm => hh (List.mem_cons_of_mem _ hm))

/-- Unlinking `node` removes it from the chain and keeps the order of the other links. -/
theorem chain_remove {s : Heap} {head cur node nx pv : Link} {A B : List Link}
    (h : Chain s head cur (A ++ node :: B)) (hnd : (cur :: (A ++ node :: B)).Nodup)
    (hh : head ∉ A ++ node :: B)
    (hn : s.next node = some nx) (hp : s.prev node = some pv) :
    Chain { s with
        next := Function.update (Function.update s.next pv (some nx)) node (some node)
        prev := Function.update (Function.update s.prev nx (some pv)) node (some node) }
      head cur (A ++ B) := by
  induction A generalizing cur with
  | nil =>
    simp only [List.nil_append] at h hnd hh ⊢
    have hpv : pv = cur := by
      have := h.2.1.symm.trans hp
      simp at this; exact this.symm
    subst hpv
    have hcn : pv ≠ node := fun e => (List.nodup_cons.mp hnd).1 (by simp [e])
    have hhn : head ≠ node := fun e => hh (by simp [e])
    have hnx : nx = firstOf head B := by
      have := (chain_next h.2.2).symm.trans hn
      simp at this; exact this.symm
    cases B with
    | nil =>
      simp only [firstOf] at hnx
      subst hnx
      refine ⟨?_, ?_⟩
      · simp [Function.update_noteq hcn]
      · simp [Function.update_noteq hhn]
    | cons b B =>
      simp only [firstOf] at hnx
      subst hnx
      have hnd2 := (List.nodup_cons.mp hnd).2
      have hbn : nx ≠ node := fun e => (List.nodup_cons.mp hnd2).1 (by simp [e])
      refine ⟨?_, ?_, ?_⟩
      · simp [Function.update_noteq hcn]
      · simp [Function.update_noteq hbn]
      · apply chain_congr _ _ h.2.2.2.2
        · intro x hx
          have hx1 : x ≠ node := fun e => (List.nodup_cons.mp hnd2).1 (e ▸ hx)
          have hx2 : x ≠ pv := fun e =>
            (List.nodup_cons.mp hnd).1 (e ▸ List.mem_cons_of_mem _ hx)
          simp [Function.update_noteq hx1, Function.update_noteq hx2]
        · intro x hx
          have hnd3 := (List.nodup_cons.mp hnd2).2
          have hx1 : x ≠ node := by
            intro e
            subst e
            simp at hx
            rcases hx with hx | hx
            · exact (List.nodup_cons.mp hnd2).1 (List.mem_cons_of_mem _ hx)
            · exact hhn hx.symm
          have hx2 : x ≠ nx := by
            intro e
            subst e
            simp at hx
            rcases hx with hx | hx
            · exact (List.nodup_cons.mp hnd3).1 hx
            · exact hh (by simp [hx])
          simp [Function.update_noteq hx1, Function.update_noteq hx2]
  | cons a A ih =>
    simp only [List.cons_append] at h hnd hh ⊢
    have hnd2 := (List.nodup_cons.mp hnd).2
    have hcn : cur ≠ node := fun e => (List.nodup_cons.mp hnd).1 (by simp [e])
    have han : a ≠ node := fun e => (List.nodup_cons.mp hnd2).1 (by simp [e])
    have hpvm : pv ∈ a :: A := by
      have h3 : Chain s head a (A ++ node :: B) := h.2.2
      clear ih hnd hh hnd2 hcn han h
      induction A generalizing a with
      | nil =>
        have := h3.2.1.symm.trans hp
        simp at this; simp [this]
      | cons a2 A ih2 =>
        have := ih2 a2 h3.2.2
        exact List.mem_cons_of_mem _ this
    have hcp : cur ≠ pv := by
      intro e
      apply (List.nodup_cons.mp hnd).1
      rw [e]
      simp at hpvm ⊢
      rcases hpvm with h1 | h1
      · left; exact h1
      · right; left; exact h1
    have hnxm : nx = firstOf head B := by
      have := (chain_next (chain_suffix h.2.2)).symm.trans hn
      simp at this; exact this.symm
    have hax : a ≠ nx := by
      intro e
      rw [hnxm] at e
      cases B with
      | nil =>
        simp only [firstOf] at e
        exact hh (by simp [e])
      | cons b B =>
        simp only [firstOf] at e
        apply (List.nodup_cons.mp hnd2).1
        simp [e]
    refine ⟨?_, ?_, ?_⟩
    · simp only [Function.update_noteq hcn, Function.update_noteq hcp]
      exact h.1
    · simp only [Function.update_noteq han, Function.update_noteq hax]
      exact h.2.1
    · exact ih h.2.2 hnd2 (fun hm => hh (List.mem_cons_of_mem _ hm))

/-- The search loop returns the first object of the chain whose name matches. -/
theorem find_loop_chain {s : Heap} {parent : Addr} (name : List Char) {cs : List Addr} :
    ∀ {cur : Link} {fuel : Nat}, Chain s (Link.clist parent) cur (cs.map Link.list) →
      cs.length < fuel →
      object_find_from_parent_loop s parent name fuel (s.next cur) =
        some (cs.find? fun c => strncmp name (s.name c) MR_CFG_OBJECT_NAME_MAX_LEN = 0) := by
  induction cs with
  | nil =>
    intro cur fuel h hf
    cases fuel with
    | zero => simp at hf
    | succ f =>
      have : s.next cur = some (Link.clist parent) := h.1
      simp [this, object_find_from_parent_loop]
  | cons c cs ih =>
    intro cur fuel h hf
    cases fuel with
    | zero => simp at hf
    | succ f =>
      have h1 : s.next cur = some (Link.list c) := h.1
      rw [h1]
      simp only [object_find_from_parent_loop]
      by_cases hm : strncmp name (s.name c) MR_CFG_OBJECT_NAME_MAX_LEN = 0
      · simp [hm]
      · have := @ih (Link.list c) f h.2.2 (by simp at hf; omega)
        simp [hm, this]

/-! ## Well-formed registries -/

theorem WF.childList {s : Heap} {ch : Addr → List Addr} (w : WF s ch) {o : Addr}
    (h : o = root_object ∨ ∃ p, o ∈ ch p) : ChildList s o (ch o) := by
  rcases w.clist o with h1 | h1
  · exact h1
  · exact absurd h1.1 (w.inited o h)

theorem WF.nodup {s : Heap} {ch : Addr → List Addr} (w : WF s ch) (o : Addr) : (ch o).Nodup := by
  rcases w.clist o with h1 | h1
  · exact childList_nodup h1
  · rw [h1.2.2]; exact List.nodup_nil

theorem WF.parent_unique {s : Heap} {ch : Addr → List Addr} (w : WF s ch) {o1 o2 c : Addr}
    (h1 : c ∈ ch o1) (h2 : c ∈ ch o2) : o1 = o2 := by
  have := (w.parent o1 c h1).symm.trans (w.parent o2 c h2)
  simpa using this

theorem Desc.attached {ch : Addr → List Addr} {a b : Addr} (h : Desc ch a b) :
    b = a ∨ ∃ p, b ∈ ch p := by
  cases h with
  | refl => exact Or.inl rfl
  | step _ hm => exact Or.inr ⟨_, hm⟩

theorem Desc.trans {ch : Addr → List Addr} {a b c : Addr} (h1 : Desc ch a b) (h2 : Desc ch b c) :
    Desc ch a c := by
  induction h2 with
  | refl => exact h1
  | step _ hm ih => exact Desc.step ih hm

/-- Below an unlinked object `n`: a linked object lies below `n` exactly when its parent does. -/
theorem Desc.of_child {s : Heap} {ch : Addr → List Addr} (w : WF s ch) {n o c : Addr}
    (hn : ∀ p, n ∉ ch p) (hc : c ∈ ch o) (h : Desc ch n c) : Desc ch n o := by
  cases h with
  | refl => exact absurd hc (hn o)
  | step h1 hm =>
    have := w.parent_unique hm hc
    subst this
    exact h1

/-- Two distinct unlinked objects head disjoint trees. -/
theorem Desc.disjoint {s : Heap} {ch : Addr → List Addr} (w : WF s ch) {r n x : Addr}
    (hr : ∀ p, r ∉ ch p) (hn : ∀ p, n ∉ ch p) (hne : n ≠ r)
    (h1 : Desc ch r x) : ¬ Desc ch n x := by
  induction h1 with
  | refl =>
    intro h2
    cases h2 with
    | refl => exact hne rfl
    | step _ hm => exact hr _ hm
  | step _ hm ih =>
    intro h2
    exact ih (Desc.of_child w hn hm h2)

theorem Desc.rank_le {ch : Addr → List Addr} {rk : Addr → Nat}
    (hrk : ∀ o c, c ∈ ch o → rk o < rk c) {a b : Addr} (h : Desc ch a b) : rk a ≤ rk b := by
  induction h with
  | refl => exact le_refl _
  | step _ hm ih => exact le_trans ih (le_of_lt (hrk _ _ hm))

/-- The memory at program start is a well-formed registry without children. -/
theorem init_wf : WF init (fun _ => []) where
  clist := by
    intro o
    by_cases h : o = root_object
    · left
      subst h
      simp [ChildList, Chain, init]
    · right
      simp [init, h]
  inited := by
    intro o h
    rcases h with h | ⟨p, hp⟩
    · subst h; simp [init]
    · simp at hp
  unlinked := by
    intro c _
    by_cases h : c = root_object
    · right; subst h; simp [init]
    · left; simp [init, h]
  parent := by intro o c h; simp at h
  live := by intro c _; simp [init, OBJECT_MAGIC]
  root_free := by intro o; simp
  root_magic := rfl
  root_parent := rfl
  root_list := ⟨rfl, rfl⟩
  canon := by
    intro o
    by_cases h : o = root_object
    · subst h
      simp only [init, if_true]
      exact strncpy_idem _ _
    · simp only [init, if_neg h]
      decide
  names := by intro o c1 c2 h; simp at h
  rank := ⟨fun _ => 0, by intro o c h; simp at h⟩
  bound := ⟨0, by intro o; simp⟩

/-! ## Registration keeps the registry well-formed -/

theorem childList_congr {s t : Heap} {o : Addr} {cs : List Addr}
    (hn : ∀ l, (l = Link.clist o ∨ ∃ c ∈ cs, l = Link.list c) → t.next l = s.next l)
    (hp : ∀ l, (l = Link.clist o ∨ ∃ c ∈ cs, l = Link.list c) → t.prev l = s.prev l)
    (h : ChildList s o cs) : ChildList t o cs := by
  apply chain_congr _ _ h
  · intro l hl
    apply hn
    simp at hl
    rcases hl with hl | ⟨c, hc, rfl⟩
    · exact Or.inl hl
    · exact Or.inr ⟨c, hc, rfl⟩
  · intro l hl
    apply hp
    simp at hl
    rcases hl with ⟨c, hc, rfl⟩ | hl
    · exact Or.inr ⟨c, hc, rfl⟩
    · exact Or.inl hl

theorem childList_inited {s : Heap} {o : Addr} {cs : List Addr} (h : ChildList s o cs) :
    (∃ x, s.next (Link.clist o) = some x) ∧ (∃ y, s.prev (Link.clist o) = some y) :=
  ⟨⟨_, chain_next h⟩, ⟨_, chain_prev_head h⟩⟩

theorem prepared_spec {s : Heap} {ch : Addr → List Addr} (w : WF s ch) {n : Addr}
    (hun : ∀ o, n ∉ ch o) :
    (∀ l, l ≠ Link.list n → l ≠ Link.clist n →
      (prepared s n).next l = s.next l ∧ (prepared s n).prev l = s.prev l) ∧
    (∀ l, s.next l ≠ none → s.prev l ≠ none → l ≠ Link.list n →
      (prepared s n).next l = s.next l ∧ (prepared s n).prev l = s.prev l) ∧
    ChildList (prepared s n) n (ch n) ∧
    (prepared s n).magic = s.magic ∧ (prepared s n).name = s.name ∧
    (prepared s n).parent = s.parent := by
  have hne : Link.clist n ≠ Link.list n := by simp
  rcases w.unlinked n hun with ⟨h1, h2⟩ | ⟨h1, h2⟩ <;>
  rcases w.clist n with hc | ⟨c1, c2, c3⟩
  · obtain ⟨⟨x, hx⟩, ⟨y, hy⟩⟩ := childList_inited hc
    have e : prepared s n = list_init s (Link.list n) := by
      simp [prepared, list_is_inited, list_init, h1, h2, hx, hy, Function.update_noteq hne]
    rw [e]
    refine ⟨?_, ?_, ?_, rfl, rfl, rfl⟩
    · intro l hl _; simp [list_init, Function.update_noteq hl]
    · intro l _ _ hl; simp [list_init, Function.update_noteq hl]
    · apply childList_congr _ _ hc
      · intro l hl
        have : l ≠ Link.list n := by
          rcases hl with rfl | ⟨c, hc', rfl⟩
          · simp
          · intro e; injection e with e; subst e; exact hun _ hc'
        simp [list_init, Function.update_noteq this]
      · intro l hl
        have : l ≠ Link.list n := by
          rcases hl with rfl | ⟨c, hc', rfl⟩
          · simp
          · intro e; injection e with e; subst e; exact hun _ hc'
        simp [list_init, Function.update_noteq this]
  · have e : prepared s n = list_init (list_init s (Link.list n)) (Link.clist n) := by
      simp [prepared, list_is_inited, list_init, h1, h2, c1, c2, Function.update_noteq hne]
    rw [e]
    refine ⟨?_, ?_, ?_, rfl, rfl, rfl⟩
    · intro l hl hl2; simp [list_init, Function.update_noteq hl, Function.update_noteq hl2]
    · intro l hn1 _ hl
      have hl2 : l ≠ Link.clist n := fun e => hn1 (e ▸ c1)
      simp [list_init, Function.update_noteq hl, Function.update_noteq hl2]
    · rw [c3]; simp [ChildList, Chain, list_init]
  · obtain ⟨⟨x, hx⟩, ⟨y, hy⟩⟩ := childList_inited hc
    have e : prepared s n = s := by
      simp [prepared, list_is_inited, h1, h2, hx, hy]
    rw [e]
    exact ⟨fun _ _ _ => ⟨rfl, rfl⟩, fun _ _ _ _ => ⟨rfl, rfl⟩, hc, rfl, rfl, rfl⟩
  · have e : prepared s n = list_init s (Link.clist n) := by
      simp [prepared, list_is_inited, h1, h2, c1, c2]
    rw [e]
    refine ⟨?_, ?_, ?_, rfl, rfl, rfl⟩
    · intro l _ hl2; simp [list_init, Function.update_noteq hl2]
    · intro l hn1 _ _
      have hl2 : l ≠ Link.clist n := fun e => hn1 (e ▸ c1)
      simp [list_init, Function.update_noteq hl2]
    · rw [c3]; simp [ChildList, Chain, list_init]

/-- Whatever fuel it is given, the search loop can only return the first matching object of the chain. -/
theorem find_loop_chain_some {s : Heap} {parent : Addr} (name : List Char) {cs : List Addr} :
    ∀ {cur : Link} {fuel : Nat} {r : Option Addr},
      Chain s (Link.clist parent) cur (cs.map Link.list) →
      object_find_from_parent_loop s parent name fuel (s.next cur) = some r →
      r = cs.find? fun c => strncmp name (s.name c) MR_CFG_OBJECT_NAME_MAX_LEN = 0 := by
  induction cs with
  | nil =>
    intro cur fuel r h hr
    cases fuel with
    | zero => simp [object_find_from_parent_loop] at hr
    | succ f =>
      have : s.next cur = some (Link.clist parent) := h.1
      simp [this, object_find_from_parent_loop] at hr
      simp [← hr]
  | cons c cs ih =>
    intro cur fuel r h hr
    cases fuel with
    | zero => simp [object_find_from_parent_loop] at hr
    | succ f =>
      have h1 : s.next cur = some (Link.list c) := h.1
      rw [h1] at hr
      simp only [object_find_from_parent_loop] at hr
      by_cases hm : strncmp name (s.name c) MR_CFG_OBJECT_NAME_MAX_LEN = 0
      · simp [hm] at hr
        simp [hm, ← hr]
      · simp [hm] at hr
        have := @ih (Link.list c) f r h.2.2 hr
        simp [hm, this]

theorem find_from_parent_eq {s : Heap} {parent : Addr} {cs : List Addr} (name : List Char)
    {fuel : Nat} (h : ChildList s parent cs) (hf : cs.length < fuel) :
    object_find_from_parent fuel s parent name = some (lookup s cs name) :=
  find_loop_chain name h hf

theorem find_from_parent_some {s : Heap} {parent : Addr} {cs : List Addr} {name : List Char}
    {fuel : Nat} {r : Option Addr} (h : ChildList s parent cs)
    (hr : object_find_from_parent fuel s parent name = some r) : r = lookup s cs name :=
  find_loop_chain_some name h hr

theorem mem_update_append {ch : Addr → List Addr} {P n o c : Addr} :
    c ∈ Function.update ch P (ch P ++ [n]) o ↔ c ∈ ch o ∨ (o = P ∧ c = n) := by
  by_cases h : o = P
  · subst h; simp
  · simp [Function.update_noteq h, h]

theorem register_to_parent_unfold (fuel : Nat) (s : Heap) (n : Addr) (name : List Char) (P : Addr) :
    object_register_to_parent fuel s n name P =
      match object_find_from_parent fuel s P name with
      | none => none
      | some (some _) => some (-1, s)
      | some none =>
        match list_insert_before { prepared s n with
            name := Function.update (prepared s n).name n (strncpy name MR_CFG_OBJECT_NAME_MAX_LEN) }
            (Link.clist P) (Link.list n) with
        | none => none
        | some s4 =>
          some (0, { s4 with parent := Function.update s4.parent n (some P),
                             magic := Function.update s4.magic n OBJECT_MAGIC }) := rfl

theorem register_to_parent_eq {s : Heap} {n P : Addr} {name : List Char} {fuel : Nat} {last : Link}
    (hfind : object_find_from_parent fuel s P name = some none)
    (hlast : (prepared s n).prev (Link.clist P) = some last)
    (hm : (prepared s n).magic = s.magic) (hnm : (prepared s n).name = s.name)
    (hpar : (prepared s n).parent = s.parent) :
    object_register_to_parent fuel s n name P = some (0, registered s n name P last) := by
  rw [register_to_parent_unfold, hfind]
  simp only
  have h := list_insert_before_eq { prepared s n with
      name := Function.update (prepared s n).name n (strncpy name MR_CFG_OBJECT_NAME_MAX_LEN) }
      (Link.clist P) (Link.list n) last hlast
  simp only at h
  rw [h]
  simp [registered, hm, hnm, hpar]

theorem lookup_none_iff {s : Heap} {cs : List Addr} {name : List Char} :
    lookup s cs name = none ↔
      ∀ c ∈ cs, strncmp name (s.name c) MR_CFG_OBJECT_NAME_MAX_LEN ≠ 0 := by
  simp [lookup, List.find?_eq_none]

/-- Registering an unlinked object `n` under an object `P` of the tree of the root, with a
name matching no child of `P`, appends `n` to the children of `P` and keeps the invariant. -/
theorem registered_wf {s : Heap} {ch : Addr → List Addr} (w : WF s ch) {n P : Addr}
    {name : List Char} (hn0 : n ≠ root_object) (hun : ∀ o, n ∉ ch o)
    (hP : Desc ch root_object P) (hnomatch : lookup s (ch P) name = none) :
    (prepared s n).prev (Link.clist P) = some (lastOf (Link.clist P) ((ch P).map Link.list)) ∧
    WF (registered s n name P (lastOf (Link.clist P) ((ch P).map Link.list)))
      (Function.update ch P (ch P ++ [n])) ∧
    (∀ o, ChildList s o (ch o) →
      ChildList (registered s n name P (lastOf (Link.clist P) ((ch P).map Link.list))) o
        (Function.update ch P (ch P ++ [n]) o)) := by
  generalize hlastdef : lastOf (Link.clist P) ((ch P).map Link.list) = last
  have hPatt := hP.attached
  have hPc : ChildList s P (ch P) := w.childList hPatt
  have hnP : n ≠ P := by
    intro e; subst e
    rcases hPatt with h | ⟨p, hp⟩
    · exact hn0 h
    · exact hun p hp
  obtain ⟨pA, _, pC, pM, pN, pPar⟩ := prepared_spec w hun
  have hlink : ∀ o l, (l = Link.clist o ∨ ∃ c ∈ ch o, l = Link.list c) → l ≠ Link.list n := by
    intro o l hl
    rcases hl with rfl | ⟨c, hc, rfl⟩
    · simp
    · intro e; injection e with e; subst e; exact hun _ hc
  have H2 : ∀ o, ChildList s o (ch o) → ChildList (prepared s n) o (ch o) := by
    intro o ho
    by_cases hon : o = n
    · subst hon; exact pC
    · have h2 : ∀ l, (l = Link.clist o ∨ ∃ c ∈ ch o, l = Link.list c) → l ≠ Link.clist n := by
        intro l hl
        rcases hl with rfl | ⟨c, hc, rfl⟩
        · intro e; injection e with e; exact hon e
        · simp
      exact childList_congr (fun l hl => (pA l (hlink o l hl) (h2 l hl)).1)
        (fun l hl => (pA l (hlink o l hl) (h2 l hl)).2) ho
  have hPc2 := H2 P hPc
  have hlast : (prepared s n).prev (Link.clist P) = some last := by
    rw [← hlastdef]; exact chain_prev_head hPc2
  have hlastmem : last = Link.clist P ∨ ∃ c ∈ ch P, last = Link.list c := by
    have := lastOf_mem (Link.clist P) ((ch P).map Link.list)
    rw [hlastdef] at this
    simp at this
    rcases this with h | ⟨c, hc, h⟩
    · exact Or.inl h
    · exact Or.inr ⟨c, hc, h.symm⟩
  have hlast_n : last ≠ Link.list n := hlink P last hlastmem
  -- links outside the chain of `P` are not `last`
  have hnotlast : ∀ o l, o ≠ P → (l = Link.clist o ∨ ∃ c ∈ ch o, l = Link.list c) → l ≠ last := by
    intro o l hoP hl
    rcases hl with rfl | ⟨c, hc, rfl⟩
    · rcases hlastmem with e | ⟨c', _, e⟩
      · rw [e]; intro e2; injection e2 with e2; exact hoP e2
      · rw [e]; simp
    · rcases hlastmem with e | ⟨c', hc', e⟩
      · rw [e]; simp
      · rw [e]; intro e2; injection e2 with e2; subst e2
        exact hoP (w.parent_unique hc hc')
  have hnothead : ∀ o l, o ≠ P → (l = Link.clist o ∨ ∃ c ∈ ch o, l = Link.list c) →
      l ≠ Link.clist P := by
    intro o l hoP hl
    rcases hl with rfl | ⟨c, _, rfl⟩
    · intro e2; injection e2 with e2; exact hoP e2
    · simp
  have G : ∀ o, o ≠ P → ChildList (prepared s n) o (ch o) →
      ChildList (registered s n name P last) o (ch o) := by
    intro o hoP ho
    apply childList_congr _ _ ho
    · intro l hl
      simp [registered, Function.update_noteq (hlink o l hl),
        Function.update_noteq (hnotlast o l hoP hl)]
    · intro l hl
      simp [registered, Function.update_noteq (hlink o l hl),
        Function.update_noteq (hnothead o l hoP hl)]
  have GP : ChildList (registered s n name P last) P (ch P ++ [n]) := by
    have hnode : Link.list n ∉ Link.clist P :: (ch P).map Link.list := by
      simp; exact hun P
    have := chain_insert hPc2 hnode (by simp)
      (chain_nodup hPc2 (clist_not_mem_map _ _)) (clist_not_mem_map _ _)
    rw [hlastdef] at this
    unfold ChildList
    simp only [List.map_append, List.map_cons, List.map_nil]
    refine chain_congr ?_ ?_ this
    · intro _ _; rfl
    · intro _ _; rfl
  have key : ∀ o, (o = n ∨ ChildList s o (ch o)) →
      ChildList (registered s n name P last) o (Function.update ch P (ch P ++ [n]) o) := by
    intro o ho
    by_cases hoP : o = P
    · subst hoP; rw [Function.update_same]; exact GP
    · rw [Function.update_noteq hoP]
      rcases ho with rfl | ho
      · exact G _ hoP pC
      · exact G o hoP (H2 o ho)
  have hmem_old : ∀ {o c}, c ≠ n → c ∈ Function.update ch P (ch P ++ [n]) o → c ∈ ch o := by
    intro o c hcn hc
    rcases mem_update_append.mp hc with h | ⟨_, h⟩
    · exact h
    · exact absurd h hcn
  refine ⟨hlast, ?_, fun o ho => key o (Or.inr ho)⟩
  exact
  { clist := by
      intro o
      by_cases hon : o = n
      · exact Or.inl (key o (Or.inl hon))
      · rcases w.clist o with hc | ⟨c1, c2, c3⟩
        · exact Or.inl (key o (Or.inr hc))
        · right
          have hoP : o ≠ P := by
            intro e; subst e
            exact absurd c1 (w.inited _ hPatt)
          have h1 : Link.clist o ≠ Link.list n := by simp
          have h2 : Link.clist o ≠ Link.clist n := by
            intro e; injection e with e; exact hon e
          have h3 := hnotlast o (Link.clist o) hoP (Or.inl rfl)
          have h4 := hnothead o (Link.clist o) hoP (Or.inl rfl)
          refine ⟨?_, ?_, ?_⟩
          · simp only [registered, Function.update_noteq h1, Function.update_noteq h3]
            rw [(pA _ h1 h2).1]; exact c1
          · simp only [registered, Function.update_noteq h1, Function.update_noteq h4]
            rw [(pA _ h1 h2).2]; exact c2
          · rw [Function.update_noteq hoP]; exact c3
    inited := by
      intro o ho
      have : o = n ∨ ChildList s o (ch o) := by
        by_cases hon : o = n
        · exact Or.inl hon
        · right
          apply w.childList
          rcases ho with h | ⟨p, hp⟩
          · exact Or.inl h
          · exact Or.inr ⟨p, hmem_old hon hp⟩
      obtain ⟨⟨x, hx⟩, _⟩ := childList_inited (key o this)
      rw [hx]; simp
    unlinked := by
      intro c hc
      have hcn : c ≠ n := by
        intro e; subst e
        exact hc P (mem_update_append.mpr (Or.inr ⟨rfl, rfl⟩))
      have hc' : ∀ o, c ∉ ch o := fun o hm => hc o (mem_update_append.mpr (Or.inl hm))
      have h1 : Link.list c ≠ Link.list n := by
        intro e; injection e with e; exact hcn e
      have h2 : Link.list c ≠ Link.clist n := by simp
      have h3 : Link.list c ≠ last := by
        rcases hlastmem with e | ⟨c', hc2, e⟩
        · rw [e]; simp
        · rw [e]; intro e2; injection e2 with e2; subst e2; exact hc' _ hc2
      have h4 : Link.list c ≠ Link.clist P := by simp
      have e1 : (registered s n name P last).next (Link.list c) = s.next (Link.list c) := by
        simp only [registered, Function.update_noteq h1, Function.update_noteq h3]
        exact (pA _ h1 h2).1
      have e2 : (registered s n name P last).prev (Link.list c) = s.prev (Link.list c) := by
        simp only [registered, Function.update_noteq h1, Function.update_noteq h4]
        exact (pA _ h1 h2).2
      rw [e1, e2]
      exact w.unlinked c hc'
    parent := by
      intro o c hc
      rcases mem_update_append.mp hc with h | ⟨h1, h2⟩
      · have hcn : c ≠ n := fun e => hun o (e ▸ h)
        simp only [registered, Function.update_noteq hcn]
        exact w.parent o c h
      · subst h1; subst h2
        simp [registered]
    live := by
      intro c hc0
      by_cases hcn : c = n
      · subst hcn
        simp only [registered, Function.update_same, true_iff]
        exact ⟨P, mem_update_append.mpr (Or.inr ⟨rfl, rfl⟩)⟩
      · simp only [registered, Function.update_noteq hcn]
        rw [w.live c hc0]
        constructor
        · rintro ⟨o, ho⟩; exact ⟨o, mem_update_append.mpr (Or.inl ho)⟩
        · rintro ⟨o, ho⟩; exact ⟨o, hmem_old hcn ho⟩
    root_free := by
      intro o hm
      exact w.root_free o (hmem_old (Ne.symm hn0) hm)
    root_magic := by
      simp only [registered, Function.update_noteq (Ne.symm hn0)]
      exact w.root_magic
    root_parent := by
      simp only [registered, Function.update_noteq (Ne.symm hn0)]
      exact w.root_parent
    root_list := by
      have h1 : Link.list root_object ≠ Link.list n := by
        intro e; injection e with e; exact hn0 e.symm
      have h2 : Link.list root_object ≠ Link.clist n := by simp
      have h3 : Link.list root_object ≠ last := by
        rcases hlastmem with e | ⟨c', hc2, e⟩
        · rw [e]; simp
        · rw [e]; intro e2; injection e2 with e2
          rw [← e2] at hc2
          exact w.root_free _ hc2
      have h4 : Link.list root_object ≠ Link.clist P := by simp
      constructor
      · simp only [registered, Function.update_noteq h1, Function.update_noteq h3]
        rw [(pA _ h1 h2).1]
        exact w.root_list.1
      · simp only [registered, Function.update_noteq h1, Function.update_noteq h4]
        rw [(pA _ h1 h2).2]
        exact w.root_list.2
    canon := by
      intro o
      by_cases hon : o = n
      · subst hon
        simp only [registered, Function.update_same]
        exact strncpy_idem _ _
      · simp only [registered, Function.update_noteq hon]
        exact w.canon o
    names := by
      have hnew : ∀ c ∈ ch P, s.name c ≠ strncpy name MR_CFG_OBJECT_NAME_MAX_LEN := by
        intro c hc e
        apply lookup_none_iff.mp hnomatch c hc
        rw [strncmp_eq_zero_iff, w.canon c, e]
      intro o c1 c2 m1 m2 e
      rcases mem_update_append.mp m1 with h1 | ⟨h1o, h1n⟩ <;>
      rcases mem_update_append.mp m2 with h2 | ⟨h2o, h2n⟩
      · have n1 : c1 ≠ n := fun e => hun o (e ▸ h1)
        have n2 : c2 ≠ n := fun e => hun o (e ▸ h2)
        simp only [registered, Function.update_noteq n1, Function.update_noteq n2] at e
        exact w.names o c1 c2 h1 h2 e
      · have n1 : c1 ≠ n := fun e => hun o (e ▸ h1)
        rw [h2n] at e
        rw [h2o] at h1
        simp only [registered, Function.update_noteq n1, Function.update_same] at e
        exact absurd e (hnew c1 h1)
      · have n2 : c2 ≠ n := fun e => hun o (e ▸ h2)
        rw [h1n] at e
        rw [h1o] at h2
        simp only [registered, Function.update_noteq n2, Function.update_same] at e
        exact absurd e.symm (hnew c2 h2)
      · rw [h1n, h2n]
    rank := by
      obtain ⟨rk, hrk⟩ := w.rank
      classical
      refine ⟨fun x => if Desc ch n x then rk x + rk P + 1 else rk x, ?_⟩
      intro o c hc
      rcases mem_update_append.mp hc with h | ⟨h1, h2⟩
      · by_cases hd : Desc ch n o
        · have hdc : Desc ch n c := Desc.step hd h
          simp only [if_pos hd, if_pos hdc]
          have := hrk o c h
          omega
        · have hdc : ¬ Desc ch n c := fun hdc => hd (Desc.of_child w hun h hdc)
          simp only [if_neg hd, if_neg hdc]
          exact hrk o c h
      · subst h1; subst h2
        have hd : ¬ Desc ch c o := Desc.disjoint w w.root_free hun hn0 hP
        simp only [if_neg hd, if_pos (Desc.refl c)]
        omega
    bound := by
      obtain ⟨B, hB⟩ := w.bound
      refine ⟨B + 1, ?_⟩
      intro o
      by_cases hoP : o = P
      · subst hoP
        simp only [Function.update_same, List.length_append, List.length_singleton]
        have := hB o
        omega
      · rw [Function.update_noteq hoP]
        have := hB o
        omega }

/-! ## Unregistration keeps the registry well-formed -/

theorem unregister_eq {s : Heap} {n : Addr} {nx pv : Link}
    (hn : s.next (Link.list n) = some nx) (hp : s.prev (Link.list n) = some pv) :
    mr_object_unregister s n = some (0, unregistered s n nx pv) := by
  simp [mr_object_unregister, list_remove_eq s _ nx pv hn hp, unregistered]

theorem chain_mid {s : Heap} {head cur node : Link} {A B : List Link}
    (h : Chain s head cur (A ++ node :: B)) :
    s.next node = some (firstOf head B) ∧ s.prev node = some (lastOf cur A) := by
  refine ⟨chain_next (chain_suffix h), ?_⟩
  induction A generalizing cur with
  | nil => exact h.2.1
  | cons a A ih => exact ih h.2.2

theorem firstOf_mem (head : Link) (ls : List Link) : firstOf head ls = head ∨ firstOf head ls ∈ ls := by
  cases ls with
  | nil => exact Or.inl rfl
  | cons l ls => right; simp [firstOf]

theorem mem_update_erase {s : Heap} {ch : Addr → List Addr} (w : WF s ch) {P n o c : Addr}
    (hn : n ∈ ch P) :
    c ∈ Function.update ch P ((ch P).erase n) o ↔ c ∈ ch o ∧ c ≠ n := by
  by_cases h : o = P
  · subst h
    rw [Function.update_same, (w.nodup o).mem_erase_iff]
    tauto
  · rw [Function.update_noteq h]
    constructor
    · intro hc
      refine ⟨hc, ?_⟩
      intro e; subst e
      exact h (w.parent_unique hc hn)
    · exact fun hc => hc.1

/-- Unregistering a child `n` of `P` removes it from the children of `P` and keeps the invariant. -/
theorem unregistered_wf {s : Heap} {ch : Addr → List Addr} (w : WF s ch) {n P : Addr}
    (hn : n ∈ ch P) :
    ∃ nx pv, s.next (Link.list n) = some nx ∧ s.prev (Link.list n) = some pv ∧
      WF (unregistered s n nx pv) (Function.update ch P ((ch P).erase n)) ∧
      (∀ o, ChildList s o (ch o) →
        ChildList (unregistered s n nx pv) o (Function.update ch P ((ch P).erase n) o)) := by
  obtain ⟨A, B, hAB⟩ := List.append_of_mem hn
  have hnd := w.nodup P
  rw [hAB] at hnd
  have hnA : n ∉ A := by
    intro h
    have := List.nodup_append.mp hnd
    exact this.2.2 h (by simp)
  have herase : (ch P).erase n = A ++ B := by
    rw [hAB, List.erase_append_right _ hnA, List.erase_cons_head]
  have hPc : ChildList s P (ch P) := by
    rcases w.clist P with h | ⟨_, _, h⟩
    · exact h
    · rw [h] at hn; simp at hn
  have hchain : Chain s (Link.clist P) (Link.clist P)
      (A.map Link.list ++ Link.list n :: B.map Link.list) := by
    have := hPc
    unfold ChildList at this
    rw [hAB] at this
    simpa using this
  obtain ⟨hnx, hpv⟩ := chain_mid hchain
  generalize hnxdef : firstOf (Link.clist P) (B.map Link.list) = nx at hnx
  generalize hpvdef : lastOf (Link.clist P) (A.map Link.list) = pv at hpv
  have hn0 : n ≠ root_object := fun e => w.root_free P (e ▸ hn)
  have hnxmem : nx = Link.clist P ∨ ∃ c ∈ ch P, c ≠ n ∧ nx = Link.list c := by
    rcases firstOf_mem (Link.clist P) (B.map Link.list) with h | h
    · left; rw [← hnxdef]; exact h
    · right
      rw [hnxdef] at h
      simp at h
      obtain ⟨c, hc, e⟩ := h
      refine ⟨c, by rw [hAB]; simp [hc], ?_, e.symm⟩
      intro e2; subst e2
      have := List.nodup_append.mp hnd
      exact (List.nodup_cons.mp this.2.1).1 hc
  have hpvmem : pv = Link.clist P ∨ ∃ c ∈ ch P, c ≠ n ∧ pv = Link.list c := by
    have h := lastOf_mem (Link.clist P) (A.map Link.list)
    rw [hpvdef] at h
    simp at h
    rcases h with h | ⟨c, hc, e⟩
    · exact Or.inl h
    · right
      refine ⟨c, by rw [hAB]; simp [hc], ?_, e.symm⟩
      intro e2; subst e2
      exact hnA hc
  have hothers : ∀ x, (x = Link.clist P ∨ ∃ c ∈ ch P, c ≠ n ∧ x = Link.list c) →
      ∀ o l, o ≠ P → (l = Link.clist o ∨ ∃ c ∈ ch o, l = Link.list c) → l ≠ x := by
    intro x hx o l hoP hl
    rcases hl with rfl | ⟨c, hc, rfl⟩
    · rcases hx with e | ⟨c', _, _, e⟩
      · rw [e]; intro e2; injection e2 with e2; exact hoP e2
      · rw [e]; simp
    · rcases hx with e | ⟨c', hc', _, e⟩
      · rw [e]; simp
      · rw [e]; intro e2; injection e2 with e2; subst e2
        exact hoP (w.parent_unique hc hc')
  have hnotn : ∀ o l, o ≠ P → (l = Link.clist o ∨ ∃ c ∈ ch o, l = Link.list c) →
      l ≠ Link.list n := by
    intro o l hoP hl
    rcases hl with rfl | ⟨c, hc, rfl⟩
    · simp
    · intro e2; injection e2 with e2; subst e2
      exact hoP (w.parent_unique hc hn)
  have G : ∀ o, o ≠ P → ChildList s o (ch o) →
      ChildList (unregistered s n nx pv) o (ch o) := by
    intro o hoP ho
    apply childList_congr _ _ ho
    · intro l hl
      simp [unregistered, Function.update_noteq (hnotn o l hoP hl),
        Function.update_noteq (hothers pv hpvmem o l hoP hl)]
    · intro l hl
      simp [unregistered, Function.update_noteq (hnotn o l hoP hl),
        Function.update_noteq (hothers nx hnxmem o l hoP hl)]
  have GP : ChildList (unregistered s n nx pv) P (A ++ B) := by
    have hnd2 := chain_nodup hchain (by simp)
    have := chain_remove hchain hnd2 (by simp) hnx hpv
    unfold ChildList
    simp only [List.map_append]
    refine chain_congr ?_ ?_ this
    · intro _ _; rfl
    · intro _ _; rfl
  have key : ∀ o, ChildList s o (ch o) →
      ChildList (unregistered s n nx pv) o (Function.update ch P ((ch P).erase n) o) := by
    intro o ho
    by_cases hoP : o = P
    · subst hoP; rw [Function.update_same, herase]; exact GP
    · rw [Function.update_noteq hoP]; exact G o hoP ho
  refine ⟨nx, pv, hnx, hpv, ?_, key⟩
  exact
  { clist := by
      intro o
      rcases w.clist o with hc | ⟨c1, c2, c3⟩
      · exact Or.inl (key o hc)
      · right
        have hoP : o ≠ P := by
          intro e; subst e
          rw [c3] at hn; simp at hn
        have h1 := hnotn o (Link.clist o) hoP (Or.inl rfl)
        have h2 := hothers pv hpvmem o (Link.clist o) hoP (Or.inl rfl)
        have h3 := hothers nx hnxmem o (Link.clist o) hoP (Or.inl rfl)
        refine ⟨?_, ?_, ?_⟩
        · simp only [unregistered, Function.update_noteq h1, Function.update_noteq h2]
          exact c1
        · simp only [unregistered, Function.update_noteq h1, Function.update_noteq h3]
          exact c2
        · rw [Function.update_noteq hoP]; exact c3
    inited := by
      intro o ho
      have : ChildList s o (ch o) := by
        apply w.childList
        rcases ho with h | ⟨p, hp⟩
        · exact Or.inl h
        · exact Or.inr ⟨p, ((mem_update_erase w hn).mp hp).1⟩
      obtain ⟨⟨x, hx⟩, _⟩ := childList_inited (key o this)
      rw [hx]; simp
    unlinked := by
      intro c hc
      by_cases hcn : c = n
      · subst hcn
        right
        simp [unregistered]
      · have hc' : ∀ o, c ∉ ch o := fun o hm => hc o ((mem_update_erase w hn).mpr ⟨hm, hcn⟩)
        have h1 : Link.list c ≠ Link.list n := by
          intro e; injection e with e; exact hcn e
        have h2 : ∀ x, (x = Link.clist P ∨ ∃ c ∈ ch P, c ≠ n ∧ x = Link.list c) →
            Link.list c ≠ x := by
          intro x hx
          rcases hx with e | ⟨c', hc2, _, e⟩
          · rw [e]; simp
          · rw [e]; intro e2; injection e2 with e2; subst e2; exact hc' _ hc2
        have e1 : (unregistered s n nx pv).next (Link.list c) = s.next (Link.list c) := by
          simp only [unregistered, Function.update_noteq h1, Function.update_noteq (h2 pv hpvmem)]
        have e2 : (unregistered s n nx pv).prev (Link.list c) = s.prev (Link.list c) := by
          simp only [unregistered, Function.update_noteq h1, Function.update_noteq (h2 nx hnxmem)]
        rw [e1, e2]
        exact w.unlinked c hc'
    parent := by
      intro o c hc
      obtain ⟨h1, h2⟩ := (mem_update_erase w hn).mp hc
      simp only [unregistered, Function.update_noteq h2]
      exact w.parent o c h1
    live := by
      intro c hc0
      by_cases hcn : c = n
      · subst hcn
        simp only [unregistered, Function.update_same]
        constructor
        · intro h; simp [OBJECT_MAGIC] at h
        · rintro ⟨o, ho⟩
          exact absurd rfl ((mem_update_erase w hn).mp ho).2
      · simp only [unregistered, Function.update_noteq hcn]
        rw [w.live c hc0]
        constructor
        · rintro ⟨o, ho⟩; exact ⟨o, (mem_update_erase w hn).mpr ⟨ho, hcn⟩⟩
        · rintro ⟨o, ho⟩; exact ⟨o, ((mem_update_erase w hn).mp ho).1⟩
    root_free := by
      intro o hm
      exact w.root_free o ((mem_update_erase w hn).mp hm).1
    root_magic := by
      simp only [unregistered, Function.update_noteq (Ne.symm hn0)]
      exact w.root_magic
    root_parent := by
      simp only [unregistered, Function.update_noteq (Ne.symm hn0)]
      exact w.root_parent
    root_list := by
      have h1 : Link.list root_object ≠ Link.list n := by
        intro e; injection e with e; exact hn0 e.symm
      have h2 : ∀ x, (x = Link.clist P ∨ ∃ c ∈ ch P, c ≠ n ∧ x = Link.list c) →
          Link.list root_object ≠ x := by
        intro x hx
        rcases hx with e | ⟨c', hc2, _, e⟩
        · rw [e]; simp
        · rw [e]; intro e2; injection e2 with e2
          rw [← e2] at hc2
          exact w.root_free _ hc2
      constructor
      · simp only [unregistered, Function.update_noteq h1, Function.update_noteq (h2 pv hpvmem)]
        exact w.root_list.1
      · simp only [unregistered, Function.update_noteq h1, Function.update_noteq (h2 nx hnxmem)]
        exact w.root_list.2
    canon := w.canon
    names := by
      intro o c1 c2 h1 h2 e
      exact w.names o c1 c2 ((mem_update_erase w hn).mp h1).1 ((mem_update_erase w hn).mp h2).1 e
    rank := by
      obtain ⟨rk, hrk⟩ := w.rank
      exact ⟨rk, fun o c hc => hrk o c ((mem_update_erase w hn).mp hc).1⟩
    bound := by
      obtain ⟨B, hB⟩ := w.bound
      refine ⟨B, ?_⟩
      intro o
      by_cases hoP : o = P
      · subst hoP
        rw [Function.update_same]
        exact le_trans (List.length_erase_le _ _) (hB o)
      · rw [Function.update_noteq hoP]
        exact hB o }

/-! ## The descent along a path -/

theorem strchr_lt {c : Char} (hc : c ≠ '\x00') :
    ∀ (l : List Char) (off : Nat), strchr l c = some off → off < l.length := by
  intro l
  induction l with
  | nil => intro off h; simp [strchr, hc] at h
  | cons x xs ih =>
    intro off h
    simp only [strchr] at h
    by_cases h1 : x = c
    · simp [h1] at h; subst h; simp
    · by_cases h2 : x = '\x00'
      · simp [h1, h2] at h
        obtain ⟨_, rfl⟩ := h
        simp
      · simp only [if_neg h1, if_neg h2, Option.map_eq_some'] at h
        obtain ⟨k, hk, rfl⟩ := h
        have := ih k hk
        simp; omega

theorem skip_slash_length (p : List Char) : (skip_slash p).length ≤ p.length := by
  unfold skip_slash
  split <;> simp

theorem path_split_length {p seg rest : List Char} (h : path_split p = some (seg, rest)) :
    rest.length < p.length := by
  unfold path_split at h
  cases hs : strchr (skip_slash p) '/' with
  | none => simp [hs] at h
  | some off =>
    simp only [hs, Option.some.injEq, Prod.mk.injEq] at h
    have h1 := strchr_lt (by decide) _ _ hs
    have h2 := skip_slash_length p
    rw [← h.2]
    simp
    omega

theorem next_parent_eq (fuel : Nat) (s : Heap) (a : Addr) (p : List Char) :
    next_parent_find_from_path fuel s a p =
      match path_split p with
      | none => some (none, skip_slash p)
      | some (seg, rest) =>
        match object_find_from_parent fuel s a seg with
        | none => none
        | some r => some (r, rest) := by
  unfold next_parent_find_from_path path_split
  cases hs : strchr (skip_slash p) '/' with
  | none =>
    have : strchr (if p.head? = some '/' then p.tail else p) '/' = none := hs
    simp only [this]
    rfl
  | some off =>
    have : strchr (if p.head? = some '/' then p.tail else p) '/' = some off := hs
    simp only [this]
    rfl

theorem lookup_mem {s : Heap} {cs : List Addr} {name : List Char} {b : Addr}
    (h : lookup s cs name = some b) : b ∈ cs :=
  List.mem_of_find?_eq_some h

theorem lookup_match {s : Heap} {cs : List Addr} {name : List Char} {b : Addr}
    (h : lookup s cs name = some b) :
    strncmp name (s.name b) MR_CFG_OBJECT_NAME_MAX_LEN = 0 := by
  have := List.find?_some h
  simpa using this

theorem register_by_path_eq (fuel : Nat) (s : Heap) (n : Addr) :
    ∀ (d : Nat) (a : Addr) (p : List Char),
      object_register_by_path fuel s n d a p =
        (path_walk fuel s d a p).bind fun st =>
          object_register_to_parent fuel s n st.rest st.parent := by
  intro d
  induction d with
  | zero => intro a p; rfl
  | succ d ih =>
    intro a p
    simp only [object_register_by_path, path_walk]
    cases h : next_parent_find_from_path fuel s a p with
    | none => rfl
    | some x =>
      obtain ⟨r, rest⟩ := x
      cases r with
      | none => rfl
      | some b => simp only; exact ih b rest

theorem find_by_path_eq (fuel : Nat) (s : Heap) :
    ∀ (d : Nat) (a : Addr) (p : List Char),
      object_find_by_path fuel s d a p =
        (path_walk fuel s d a p).bind fun st =>
          object_find_from_parent fuel s st.parent st.rest := by
  intro d
  induction d with
  | zero => intro a p; rfl
  | succ d ih =>
    intro a p
    simp only [object_find_by_path, path_walk]
    cases h : next_parent_find_from_path fuel s a p with
    | none => rfl
    | some x =>
      obtain ⟨r, rest⟩ := x
      cases r with
      | none => rfl
      | some b => simp only; exact ih b rest

/-- Every run of the descent that returns follows the child lists. -/
theorem walk_of_path_walk {s : Heap} {ch : Addr → List Addr} (w : WF s ch) {fuel : Nat} :
    ∀ (d : Nat) (a : Addr) (p : List Char) (st : Stop), Attached ch a →
      path_walk fuel s d a p = some st → Walk s ch a p st := by
  intro d
  induction d with
  | zero => intro a p st _ h; simp [path_walk] at h
  | succ d ih =>
    intro a p st ha h
    simp only [path_walk, next_parent_eq] at h
    cases hs : path_split p with
    | none =>
      simp only [hs, Option.map_none', Option.some.injEq] at h
      rw [← h]
      exact Walk.last hs
    | some x =>
      obtain ⟨seg, rest⟩ := x
      simp only [hs] at h
      cases hf : object_find_from_parent fuel s a seg with
      | none => simp [hf] at h
      | some r =>
        have hr := find_from_parent_some (w.childList ha) hf
        simp only [hf] at h
        cases r with
        | none =>
          simp only [Option.map_some', Option.some.injEq] at h
          rw [← h]
          exact Walk.miss hs hr.symm
        | some b =>
          simp only at h
          have hb : b ∈ ch a := lookup_mem hr.symm
          exact Walk.down hs hr.symm (ih b rest st (Or.inr ⟨a, hb⟩) h)

/-- With enough fuel the descent returns what the child lists say. -/
theorem path_walk_of_walk {s : Heap} {ch : Addr → List Addr} (w : WF s ch) {fuel : Nat}
    (hB : ∀ o, (ch o).length < fuel) {a : Addr} {p : List Char} {st : Stop}
    (h : Walk s ch a p st) :
    Attached ch a → ∀ d, p.length < d → path_walk fuel s d a p = some st := by
  induction h with
  | last hs =>
    intro _ d hd
    cases d with
    | zero => simp at hd
    | succ d => simp [path_walk, next_parent_eq, hs]
  | @miss a p seg rest hs hl =>
    intro ha d hd
    cases d with
    | zero => simp at hd
    | succ d =>
      simp [path_walk, next_parent_eq, hs, find_from_parent_eq seg (w.childList ha) (hB a), hl]
  | @down a b p seg rest st hs hl _ ih =>
    intro ha d hd
    cases d with
    | zero => simp at hd
    | succ d =>
      have hlen := path_split_length hs
      have := ih (Or.inr ⟨a, lookup_mem hl⟩) d (by omega)
      simp [path_walk, next_parent_eq, hs, find_from_parent_eq seg (w.childList ha) (hB a), hl,
        this]

/-- The descent always stops. -/
theorem walk_total (s : Heap) (ch : Addr → List Addr) :
    ∀ (k : Nat) (a : Addr) (p : List Char), p.length < k → ∃ st, Walk s ch a p st := by
  intro k
  induction k with
  | zero => intro a p h; simp at h
  | succ k ih =>
    intro a p hp
    cases hs : path_split p with
    | none => exact ⟨_, Walk.last hs⟩
    | some x =>
      obtain ⟨seg, rest⟩ := x
      cases hl : lookup s (ch a) seg with
      | none => exact ⟨_, Walk.miss hs hl⟩
      | some b =>
        have hlen := path_split_length hs
        obtain ⟨st, hst⟩ := ih b rest (by omega)
        exact ⟨st, Walk.down hs hl hst⟩

theorem walk_desc {s : Heap} {ch : Addr → List Addr} {a : Addr} {p : List Char} {st : Stop}
    (h : Walk s ch a p st) : Desc ch a st.parent := by
  induction h with
  | last _ => exact Desc.refl _
  | miss _ _ => exact Desc.refl _
  | down _ hl _ ih => exact Desc.trans (Desc.step (Desc.refl _) (lookup_mem hl)) ih

theorem walk_unique {s : Heap} {ch : Addr → List Addr} {a : Addr} {p : List Char} {st1 st2 : Stop}
    (h1 : Walk s ch a p st1) (h2 : Walk s ch a p st2) : st1 = st2 := by
  induction h1 with
  | last hs =>
    cases h2 with
    | last _ => rfl
    | miss hs2 _ => rw [hs] at hs2; simp at hs2
    | down hs2 _ _ => rw [hs] at hs2; simp at hs2
  | miss hs hl =>
    cases h2 with
    | last hs2 => rw [hs] at hs2; simp at hs2
    | miss hs2 _ =>
      rw [hs] at hs2
      simp at hs2
      rw [hs2.1, hs2.2]
    | down hs2 hl2 _ =>
      rw [hs] at hs2
      simp at hs2
      rw [hs2.1] at hl
      rw [hl] at hl2; simp at hl2
  | down hs hl _ ih =>
    cases h2 with
    | last hs2 => rw [hs] at hs2; simp at hs2
    | miss hs2 hl2 =>
      rw [hs] at hs2
      simp at hs2
      rw [hs2.1] at hl
      rw [hl] at hl2; simp at hl2
    | down hs2 hl2 h3 =>
      rw [hs] at hs2
      simp at hs2
      rw [hs2.1] at hl
      rw [hl] at hl2
      simp at hl2
      rw [← hs2.2, ← hl2] at h3
      exact ih h3

/-! ## What a call of the API does to a well-formed registry -/

theorem WF.unlinked_of_magic {s : Heap} {ch : Addr → List Addr} (w : WF s ch) {n : Addr}
    (hn0 : n ≠ root_object) (hm : s.magic n ≠ OBJECT_MAGIC) : ∀ o, n ∉ ch o := by
  intro o ho
  exact hm ((w.live n hn0).mpr ⟨o, ho⟩)

/-- The two outcomes of `mr_object_register` on a well-formed registry. -/
theorem register_cases {s : Heap} {ch : Addr → List Addr} (w : WF s ch) {n : Addr}
    {p : List Char} {fuel : Nat} {r : Int} {t : Heap}
    (hn0 : n ≠ root_object) (hm : s.magic n ≠ OBJECT_MAGIC)
    (h : mr_object_register fuel s n p = some (r, t)) :
    ∃ st, path_walk fuel s fuel root_object p = some st ∧ Walk s ch root_object p st ∧
      ((r = -1 ∧ t = s ∧ ∃ b, lookup s (ch st.parent) st.rest = some b) ∨
       (r = 0 ∧ lookup s (ch st.parent) st.rest = none ∧
        t = registered s n st.rest st.parent
          (lastOf (Link.clist st.parent) ((ch st.parent).map Link.list)) ∧
        WF t (Function.update ch st.parent (ch st.parent ++ [n])) ∧
        ∀ o, ChildList s o (ch o) →
          ChildList t o (Function.update ch st.parent (ch st.parent ++ [n]) o))) := by
  unfold mr_object_register at h
  rw [register_by_path_eq] at h
  cases hpw : path_walk fuel s fuel root_object p with
  | none => simp [hpw] at h
  | some st =>
    simp only [hpw, Option.some_bind] at h
    have hw := walk_of_path_walk w fuel root_object p st (Or.inl rfl) hpw
    have hP := walk_desc hw
    have hPc : ChildList s st.parent (ch st.parent) := by
      apply w.childList
      rcases hP.attached with e | e
      · exact Or.inl e
      · exact Or.inr e
    refine ⟨st, rfl, hw, ?_⟩
    cases hf : object_find_from_parent fuel s st.parent st.rest with
    | none =>
      rw [register_to_parent_unfold, hf] at h
      simp at h
    | some x =>
      have hr := find_from_parent_some hPc hf
      cases x with
      | some b =>
        rw [register_to_parent_unfold, hf] at h
        simp only [Option.some.injEq, Prod.mk.injEq] at h
        exact Or.inl ⟨h.1.symm, h.2.symm, b, hr.symm⟩
      | none =>
        have hun := w.unlinked_of_magic hn0 hm
        obtain ⟨h1, h2, h3⟩ := registered_wf w hn0 hun hP hr.symm
        obtain ⟨_, _, _, pM, pN, pPar⟩ := prepared_spec w hun
        rw [register_to_parent_eq hf h1 pM pN pPar] at h
        simp only [Option.some.injEq, Prod.mk.injEq] at h
        right
        refine ⟨h.1.symm, hr.symm, h.2.symm, ?_, ?_⟩
        · rw [← h.2]; exact h2
        · rw [← h.2]; exact h3

/-- The outcome of `mr_object_unregister` on a live object of a well-formed registry. -/
theorem unregister_cases {s : Heap} {ch : Addr → List Addr} (w : WF s ch) {n : Addr}
    (hn0 : n ≠ root_object) (hm : s.magic n = OBJECT_MAGIC) :
    ∃ P nx pv, n ∈ ch P ∧ s.parent n = some P ∧
      mr_object_unregister s n = some (0, unregistered s n nx pv) ∧
      WF (unregistered s n nx pv) (Function.update ch P ((ch P).erase n)) ∧
      ∀ o, ChildList s o (ch o) →
        ChildList (unregistered s n nx pv) o (Function.update ch P ((ch P).erase n) o) := by
  obtain ⟨P, hP⟩ := (w.live n hn0).mp hm
  obtain ⟨nx, pv, hnx, hpv, hw, hframe⟩ := unregistered_wf w hP
  exact ⟨P, nx, pv, hP, w.parent P n hP, unregister_eq hnx hpv, hw, hframe⟩

/-- Every reachable registry is well-formed. -/
theorem reachable_wf {s : Heap} (h : Reachable s) : ∃ ch, WF s ch := by
  induction h with
  | init => exact ⟨_, init_wf⟩
  | register _ hn0 hm hreg ih =>
    obtain ⟨ch, w⟩ := ih
    obtain ⟨st, _, _, hc⟩ := register_cases w hn0 hm hreg
    rcases hc with ⟨_, ht, _⟩ | ⟨_, _, _, hw, _⟩
    · rw [ht]; exact ⟨ch, w⟩
    · exact ⟨_, hw⟩
  | unregister _ hn0 hm hun ih =>
    obtain ⟨ch, w⟩ := ih
    obtain ⟨P, nx, pv, _, _, heq, hw, _⟩ := unregister_cases w hn0 hm
    rw [heq] at hun
    simp only [Option.some.injEq, Prod.mk.injEq] at hun
    rw [← hun.2]
    exact ⟨_, hw⟩

theorem reachable_after_register {s : Heap} (hs : Reachable s) {n : Addr} (hn0 : n ≠ root_object)
    (hm : s.magic n ≠ OBJECT_MAGIC) (fuel : Nat) (p : String) :
    Reachable (after_register fuel s n p) := by
  unfold after_register
  cases h : mr_object_register fuel s n p.toList with
  | none => exact hs
  | some x => exact Reachable.register hs hn0 hm h

theorem reachable_after_unregister {s : Heap} (hs : Reachable s) {n : Addr} (hn0 : n ≠ root_object)
    (hm : s.magic n = OBJECT_MAGIC) : Reachable (after_unregister s n) := by
  unfold after_unregister
  cases h : mr_object_unregister s n with
  | none => exact hs
  | some x => exact Reachable.unregister hs hn0 hm h

/-! ## Lookups in changed child lists -/

theorem lookup_congr {s t : Heap} {cs : List Addr} (name : List Char)
    (h : ∀ c ∈ cs, t.name c = s.name c) : lookup t cs name = lookup s cs name := by
  induction cs with
  | nil => rfl
  | cons c cs ih =>
    have hc := h c (by simp)
    have := ih (fun x hx => h x (List.mem_cons_of_mem _ hx))
    simp only [lookup, List.find?_cons, hc] at this ⊢
    rw [this]

theorem lookup_append_some {s : Heap} {cs l : List Addr} {name : List Char} {b : Addr}
    (h : lookup s cs name = some b) : lookup s (cs ++ l) name = some b := by
  simp only [lookup] at h ⊢
  rw [List.find?_append, h]
  rfl

theorem lookup_append_none {s : Heap} {cs l : List Addr} {name : List Char}
    (h : lookup s cs name = none) : lookup s (cs ++ l) name = lookup s l name := by
  simp only [lookup] at h ⊢
  rw [List.find?_append, h]
  rfl

theorem lookup_single {s : Heap} {n : Addr} {name : List Char} :
    lookup s [n] name =
      if strncmp name (s.name n) MR_CFG_OBJECT_NAME_MAX_LEN = 0 then some n else none := by
  simp only [lookup, List.find?_cons, List.find?_nil]
  by_cases h : strncmp name (s.name n) MR_CFG_OBJECT_NAME_MAX_LEN = 0 <;> simp [h]

/-- A lookup that found `b` still finds it when another object is erased from the list. -/
theorem lookup_erase_ne {s : Heap} {name : List Char} {b n : Addr} (hbn : b ≠ n) :
    ∀ {cs : List Addr}, lookup s cs name = some b → lookup s (cs.erase n) name = some b := by
  intro cs
  induction cs with
  | nil => intro h; simp [lookup] at h
  | cons c cs ih =>
    intro h
    by_cases hc : strncmp name (s.name c) MR_CFG_OBJECT_NAME_MAX_LEN = 0
    · have hcb : c = b := by
        simp only [lookup, List.find?_cons, hc, decide_True] at h
        simpa using h
      subst hcb
      rw [List.erase_cons_tail (by simpa using hbn)]
      simp [lookup, List.find?_cons, hc]
    · have h2 : lookup s cs name = some b := by
        simp only [lookup, List.find?_cons, hc, decide_False] at h
        exact h
      by_cases hcn : c = n
      · subst hcn
        rw [List.erase_cons_head]
        exact h2
      · rw [List.erase_cons_tail (by simpa using hcn)]
        simp only [lookup, List.find?_cons, hc, decide_False]
        exact ih h2

theorem lookup_erase_of_none {s : Heap} {name : List Char} {n : Addr} {cs : List Addr}
    (h : lookup s cs name = none) : lookup s (cs.erase n) name = none := by
  rw [lookup_none_iff] at h ⊢
  intro c hc
  exact h c (List.mem_of_mem_erase hc)

/-- Sibling names are distinct, so erasing the child a lookup found leaves no match. -/
theorem lookup_erase_found {s : Heap} {ch : Addr → List Addr} (w : WF s ch) {P n : Addr}
    {name : List Char} (h : lookup s (ch P) name = some n) :
    lookup s ((ch P).erase n) name = none := by
  rw [lookup_none_iff]
  intro c hc hm
  have hcn : c ≠ n := ((w.nodup P).mem_erase_iff.mp hc).1
  have hcP : c ∈ ch P := List.mem_of_mem_erase hc
  have h1 := (strncmp_eq_zero_iff _ _ _).mp hm
  have h2 := (strncmp_eq_zero_iff _ _ _).mp (lookup_match h)
  rw [w.canon] at h1 h2
  exact hcn (w.names P c n hcP (lookup_mem h) (h1.symm.trans h2))

/-! ## Finding by path in terms of the child lists -/

theorem walk_attached {s : Heap} {ch : Addr → List Addr} {p : List Char} {st : Stop}
    (h : Walk s ch root_object p st) : Attached ch st.parent := by
  rcases (walk_desc h).attached with e | e
  · exact Or.inl e
  · exact Or.inr e

/-- With enough fuel `mr_object_find` returns the lookup of the rest of the path among the
children of the object where the descent stops. -/
theorem find_eq_lookup {s : Heap} {ch : Addr → List Addr} (w : WF s ch) {p : List Char}
    {st : Stop} (hw : Walk s ch root_object p st) {fuel : Nat}
    (hB : ∀ o, (ch o).length < fuel) (hp : p.length < fuel) :
    path_walk fuel s fuel root_object p = some st ∧
    mr_object_find fuel s p = some (lookup s (ch st.parent) st.rest) := by
  have hpw := path_walk_of_walk w hB hw (Or.inl rfl) fuel hp
  refine ⟨hpw, ?_⟩
  unfold mr_object_find
  rw [find_by_path_eq, hpw]
  simp only [Option.some_bind]
  exact find_from_parent_eq _ (w.childList (walk_attached hw)) (hB _)

/-- A fuel that suffices for every search in a well-formed registry and for the path. -/
theorem WF.fuel {s : Heap} {ch : Addr → List Addr} (w : WF s ch) (p : List Char) :
    ∃ F, ∀ fuel, F ≤ fuel → (∀ o, (ch o).length < fuel) ∧ p.length < fuel := by
  obtain ⟨B, hB⟩ := w.bound
  refine ⟨B + p.length + 1, fun fuel hf => ⟨fun o => ?_, by omega⟩⟩
  have := hB o
  omega

/-- Whatever the fuel, a result of `mr_object_find` is the lookup at the stop of the descent. -/
theorem find_some_lookup {s : Heap} {ch : Addr → List Addr} (w : WF s ch) {p : List Char}
    {fuel : Nat} {r : Option Addr} (h : mr_object_find fuel s p = some r) :
    ∃ st, path_walk fuel s fuel root_object p = some st ∧ Walk s ch root_object p st ∧
      r = lookup s (ch st.parent) st.rest := by
  unfold mr_object_find at h
  rw [find_by_path_eq] at h
  cases hpw : path_walk fuel s fuel root_object p with
  | none => simp [hpw] at h
  | some st =>
    simp only [hpw, Option.some_bind] at h
    have hw := walk_of_path_walk w fuel root_object p st (Or.inl rfl) hpw
    exact ⟨st, rfl, hw, find_from_parent_some (w.childList (walk_attached hw)) h⟩

/-! ## Register then find -/

theorem walk_registered {s t : Heap} {ch : Addr → List Addr} {n P : Addr}
    (hun : ∀ o, n ∉ ch o) (hname : ∀ c, c ≠ n → t.name c = s.name c)
    {a : Addr} {p : List Char} {st : Stop} (h : Walk s ch a p st) :
    st.parent = P →
    (∀ seg, st.missing = some seg →
      strncmp seg (t.name n) MR_CFG_OBJECT_NAME_MAX_LEN ≠ 0) →
    Walk t (Function.update ch P (ch P ++ [n])) a p st := by
  have hcongr : ∀ o name, lookup t (ch o) name = lookup s (ch o) name := by
    intro o name
    apply lookup_congr
    intro c hc
    exact hname c (fun e => hun o (e ▸ hc))
  induction h with
  | last hs => intro _ _; exact Walk.last hs
  | @miss a p seg rest hs hl =>
    intro hP hmiss
    simp only at hP
    subst hP
    apply Walk.miss hs
    rw [Function.update_same, lookup_append_none (by rw [hcongr]; exact hl), lookup_single,
      if_neg (hmiss seg rfl)]
  | @down a b p seg rest st hs hl _ ih =>
    intro hP hmiss
    refine Walk.down hs ?_ (ih hP hmiss)
    by_cases haP : a = P
    · subst haP
      rw [Function.update_same]
      exact lookup_append_some (by rw [hcongr]; exact hl)
    · rw [Function.update_noteq haP, hcongr]
      exact hl

/-- Round trip: after a successful register, finding the same path returns the object,
unless the descent stopped on a missing directory component that the new name matches. -/
theorem roundtrip_core {s : Heap} {ch : Addr → List Addr} (w : WF s ch) {n : Addr}
    {p : List Char} {fuel : Nat} {t : Heap} (hn0 : n ≠ root_object)
    (hm : s.magic n ≠ OBJECT_MAGIC) (hreg : mr_object_register fuel s n p = some (0, t)) :
    ∃ st, path_walk fuel s fuel root_object p = some st ∧
      ((∀ seg, st.missing = some seg →
          strncmp seg (strncpy st.rest MR_CFG_OBJECT_NAME_MAX_LEN) MR_CFG_OBJECT_NAME_MAX_LEN ≠ 0) →
        ∃ F, ∀ fuel', F ≤ fuel' → mr_object_find fuel' t p = some (some n)) := by
  obtain ⟨st, hpw, hw, hc⟩ := register_cases w hn0 hm hreg
  rcases hc with ⟨hr, _⟩ | ⟨_, hl, ht, hwt, _⟩
  · exact absurd hr (by decide)
  refine ⟨st, hpw, fun hmiss => ?_⟩
  have hun := w.unlinked_of_magic hn0 hm
  have hname : ∀ c, c ≠ n → t.name c = s.name c := by
    intro c hc
    rw [ht]
    simp [registered, Function.update_noteq hc]
  have hnn : t.name n = strncpy st.rest MR_CFG_OBJECT_NAME_MAX_LEN := by
    rw [ht]; simp [registered]
  have hw' := walk_registered hun hname hw rfl (by rw [hnn]; exact hmiss)
  obtain ⟨F, hF⟩ := hwt.fuel p
  refine ⟨F, fun fuel' hf => ?_⟩
  obtain ⟨hB, hp⟩ := hF fuel' hf
  rw [(find_eq_lookup hwt hw' hB hp).2, Function.update_same]
  have hold : lookup t (ch st.parent) st.rest = none := by
    rw [lookup_congr _ (fun c hc => hname c (fun e => hun _ (e ▸ hc)))]
    exact hl
  rw [lookup_append_none hold, lookup_single, if_pos]
  rw [hnn, strncmp_eq_zero_iff, strncpy_idem]

/-! ## More fuel never changes a result -/

theorem find_loop_mono {s : Heap} {parent : Addr} {name : List Char} :
    ∀ {f f' : Nat} {x : Option Link} {r : Option Addr},
      object_find_from_parent_loop s parent name f x = some r → f ≤ f' →
      object_find_from_parent_loop s parent name f' x = some r := by
  intro f
  induction f with
  | zero => intro f' x r h; simp [object_find_from_parent_loop] at h
  | succ f ih =>
    intro f' x r h hf
    cases f' with
    | zero => omega
    | succ f' =>
      cases x with
      | none => simp [object_find_from_parent_loop] at h
      | some l =>
        simp only [object_find_from_parent_loop] at h ⊢
        by_cases hl : l = Link.clist parent
        · simpa [hl] using h
        · simp only [if_neg hl] at h ⊢
          cases l with
          | clist o => simp at h
          | list o =>
            simp only at h ⊢
            by_cases hm : strncmp name (s.name o) MR_CFG_OBJECT_NAME_MAX_LEN = 0
            · simpa [hm] using h
            · simp only [if_neg hm] at h ⊢
              exact ih h (by omega)

theorem find_from_parent_mono {s : Heap} {parent : Addr} {name : List Char} {f f' : Nat}
    {r : Option Addr} (h : object_find_from_parent f s parent name = some r) (hf : f ≤ f') :
    object_find_from_parent f' s parent name = some r :=
  find_loop_mono h hf

theorem path_walk_mono {s : Heap} {f f' : Nat} (hf : f ≤ f') :
    ∀ (d d' : Nat) (a : Addr) (p : List Char) (st : Stop),
      path_walk f s d a p = some st → d ≤ d' → path_walk f' s d' a p = some st := by
  intro d
  induction d with
  | zero => intro d' a p st h; simp [path_walk] at h
  | succ d ih =>
    intro d' a p st h hd
    cases d' with
    | zero => omega
    | succ d' =>
      simp only [path_walk, next_parent_eq] at h ⊢
      cases hs : path_split p with
      | none => simpa [hs] using h
      | some x =>
        obtain ⟨seg, rest⟩ := x
        simp only [hs] at h ⊢
        cases hfp : object_find_from_parent f s a seg with
        | none => simp [hfp] at h
        | some r =>
          rw [find_from_parent_mono hfp hf]
          simp only [hfp] at h
          cases r with
          | none => simpa using h
          | some b => exact ih d' b rest st h (by omega)

/-- A result of `mr_object_find` is the result for every larger fuel. -/
theorem find_mono {s : Heap} {p : List Char} {f f' : Nat} {r : Option Addr}
    (h : mr_object_find f s p = some r) (hf : f ≤ f') : mr_object_find f' s p = some r := by
  unfold mr_object_find at h ⊢
  rw [find_by_path_eq] at h ⊢
  cases hpw : path_walk f s f root_object p with
  | none => simp [hpw] at h
  | some st =>
    rw [path_walk_mono hf f f' root_object p st hpw hf]
    simp only [hpw, Option.some_bind] at h ⊢
    exact find_from_parent_mono h hf

/-- A result of `mr_object_register` is the result for every larger fuel. -/
theorem register_mono {s : Heap} {n : Addr} {p : List Char} {f f' : Nat} {r : Int × Heap}
    (h : mr_object_register f s n p = some r) (hf : f ≤ f') :
    mr_object_register f' s n p = some r := by
  unfold mr_object_register at h ⊢
  rw [register_by_path_eq] at h ⊢
  cases hpw : path_walk f s f root_object p with
  | none => simp [hpw] at h
  | some st =>
    rw [path_walk_mono hf f f' root_object p st hpw hf]
    simp only [hpw, Option.some_bind] at h ⊢
    rw [register_to_parent_unfold] at h ⊢
    cases hfp : object_find_from_parent f s st.parent st.rest with
    | none => simp [hfp] at h
    | some x =>
      rw [find_from_parent_mono hfp hf]
      simpa [hfp] using h

/-! ## Results of register and find on a well-formed registry -/

theorem directory_of_eq (fuel : Nat) (s : Heap) :
    ∀ (d : Nat) (a : Addr) (p : List Char),
      directory_of fuel s d a p =
        (path_walk fuel s d a p).map fun st => if st.missing = none then some st.parent else none := by
  intro d
  induction d with
  | zero => intro a p; rfl
  | succ d ih =>
    intro a p
    simp only [directory_of, path_walk, next_parent_eq]
    cases hs : path_split p with
    | none => simp
    | some x =>
      obtain ⟨seg, rest⟩ := x
      simp only
      cases hf : object_find_from_parent fuel s a seg with
      | none => rfl
      | some r =>
        cases r with
        | none => simp
        | some b => simp only; exact ih b rest

/-- The return value and memory of `mr_object_register`, read off the child lists. -/
theorem register_result {s : Heap} {ch : Addr → List Addr} (w : WF s ch) {n : Addr}
    {p : List Char} {st : Stop} (hw : Walk s ch root_object p st) {fuel : Nat}
    (hB : ∀ o, (ch o).length < fuel) (hp : p.length < fuel) :
    (∀ b, lookup s (ch st.parent) st.rest = some b →
      mr_object_register fuel s n p = some (-1, s)) ∧
    (n ≠ root_object → s.magic n ≠ OBJECT_MAGIC → lookup s (ch st.parent) st.rest = none →
      mr_object_register fuel s n p = some (0, registered s n st.rest st.parent
        (lastOf (Link.clist st.parent) ((ch st.parent).map Link.list)))) := by
  have hpw := path_walk_of_walk w hB hw (Or.inl rfl) fuel hp
  have hf := find_from_parent_eq st.rest (w.childList (walk_attached hw)) (hB st.parent)
  constructor
  · intro b hb
    unfold mr_object_register
    rw [register_by_path_eq, hpw]
    simp only [Option.some_bind]
    rw [register_to_parent_unfold, hf, hb]
  · intro hn0 hm hl
    have hun := w.unlinked_of_magic hn0 hm
    obtain ⟨h1, _, _⟩ := registered_wf w hn0 hun (walk_desc hw) hl
    obtain ⟨_, _, _, pM, pN, pPar⟩ := prepared_spec w hun
    unfold mr_object_register
    rw [register_by_path_eq, hpw]
    simp only [Option.some_bind]
    rw [hl] at hf
    exact register_to_parent_eq hf h1 pM pN pPar

theorem WF.childList_eq {s : Heap} {ch : Addr → List Addr} (w : WF s ch) {o : Addr}
    {cs : List Addr} (h : ChildList s o cs) : cs = ch o ∧ ChildList s o (ch o) := by
  rcases w.clist o with h1 | ⟨h1, _, _⟩
  · exact ⟨childList_unique h h1, h1⟩
  · obtain ⟨⟨x, hx⟩, _⟩ := childList_inited h
    rw [h1] at hx
    simp at hx

theorem lookup_names_eq {s t : Heap} (h : t.name = s.name) (cs : List Addr) (name : List Char) :
    lookup t cs name = lookup s cs name :=
  lookup_congr name (fun c _ => by rw [h])

/-- Unregister then find: the descent in the registry without `n`. -/
theorem walk_unregistered {s t : Heap} {ch : Addr → List Addr} (w : WF s ch) {n P : Addr}
    (hn : n ∈ ch P) (hname : t.name = s.name) {a : Addr} {p : List Char} {st : Stop}
    (h : Walk s ch a p st) :
    lookup s (ch st.parent) st.rest = some n →
    ∃ st', Walk t (Function.update ch P ((ch P).erase n)) a p st' ∧
      lookup t (Function.update ch P ((ch P).erase n) st'.parent) st'.rest = none := by
  have hfinal : ∀ (a : Addr) (rest : List Char), lookup s (ch a) rest = some n →
      lookup t (Function.update ch P ((ch P).erase n) a) rest = none := by
    intro a rest hl
    have haP : a = P := w.parent_unique (lookup_mem hl) hn
    subst haP
    rw [Function.update_same, lookup_names_eq hname]
    exact lookup_erase_found w hl
  induction h with
  | @last a p hs =>
    intro hl
    exact ⟨_, Walk.last hs, hfinal a _ hl⟩
  | @miss a p seg rest hs hl0 =>
    intro hl
    have haP : a = P := w.parent_unique (lookup_mem hl) hn
    refine ⟨⟨a, rest, some seg⟩, Walk.miss hs ?_, hfinal a rest hl⟩
    subst haP
    rw [Function.update_same, lookup_names_eq hname]
    exact lookup_erase_of_none hl0
  | @down a b p seg rest st hs hl0 hwalk ih =>
    intro hl
    have hbn : b ≠ n := by
      intro e
      obtain ⟨rk, hrk⟩ := w.rank
      have h1 := Desc.rank_le hrk (walk_desc hwalk)
      have h2 := hrk _ _ (lookup_mem hl)
      rw [e] at h1
      omega
    obtain ⟨st', hw', hl'⟩ := ih hl
    refine ⟨st', Walk.down hs ?_ hw', hl'⟩
    rw [lookup_names_eq hname]
    by_cases haP : a = P
    · subst haP
      rw [Function.update_same]
      exact lookup_erase_ne hbn hl0
    · rw [Function.update_noteq haP]
      exact hl0

theorem strchr_none_of_not_mem {c : Char} :
    ∀ (l : List Char), c ∉ l → c ≠ '\x00' → strchr l c = none := by
  intro l
  induction l with
  | nil => intro _ hc; simp [strchr, hc]
  | cons x xs ih =>
    intro hm hc
    simp at hm
    have hxc : x ≠ c := fun e => hm.1 e.symm
    simp only [strchr, if_neg hxc]
    by_cases hx : x = '\x00'
    · simp [hx]
    · simp [hx, ih hm.2 hc]

theorem path_split_none_of_not_mem {seg : List Char} (h : '/' ∉ seg) :
    path_split seg = none ∧ skip_slash seg = seg := by
  have hskip : skip_slash seg = seg := by
    unfold skip_slash
    cases seg with
    | nil => simp
    | cons c cs =>
      simp at h
      have : c ≠ '/' := fun e => h.1 e.symm
      simp [this]
  refine ⟨?_, hskip⟩
  unfold path_split
  rw [hskip, strchr_none_of_not_mem seg h (by decide)]

theorem strncpy_take_eq (n : Nat) : ∀ a : List Char, strncpy (a.take n) n = strncpy a n := by
  induction n with
  | zero => intro a; simp [strncpy]
  | succ n ih =>
    intro a
    cases a with
    | nil => simp
    | cons c cs =>
      simp only [List.take_succ_cons, strncpy]
      by_cases hc : c = '\x00'
      · simp [hc]
      · simp [hc, ih cs]

theorem strncpy_eq_take_pad (n : Nat) : ∀ a : List Char, '\x00' ∉ a →
    strncpy a n = a.take n ++ List.replicate (n - a.length) '\x00' := by
  induction n with
  | zero => intro a _; simp [strncpy]
  | succ n ih =>
    intro a h0
    cases a with
    | nil =>
      have := ih [] (by simp)
      simp only [strncpy, this]
      simp [List.replicate_succ]
    | cons c cs =>
      simp at h0
      have hc : c ≠ '\x00' := fun h => h0.1 h.symm
      simp [strncpy, hc, ih cs h0.2]

theorem lookup_strncpy_eq {s : Heap} {a b : List Char}
    (h : strncpy a MR_CFG_OBJECT_NAME_MAX_LEN = strncpy b MR_CFG_OBJECT_NAME_MAX_LEN)
    (cs : List Addr) : lookup s cs a = lookup s cs b := by
  induction cs with
  | nil => rfl
  | cons c cs ih =>
    have hiff : strncmp a (s.name c) MR_CFG_OBJECT_NAME_MAX_LEN = 0 ↔
        strncmp b (s.name c) MR_CFG_OBJECT_NAME_MAX_LEN = 0 := by
      rw [strncmp_eq_zero_iff, strncmp_eq_zero_iff, h]
    simp only [lookup, List.find?_cons] at ih ⊢
    by_cases hm : strncmp a (s.name c) MR_CFG_OBJECT_NAME_MAX_LEN = 0
    · simp [hm, hiff.mp hm]
    · have hm2 : ¬ strncmp b (s.name c) MR_CFG_OBJECT_NAME_MAX_LEN = 0 := fun e => hm (hiff.mpr e)
      simp [hm, hm2, ih]

/-! ## The tree dump of a well-formed subtree -/

theorem pad_left_space (n : Nat) (h : 0 < n) : pad_left n " ".toList = List.replicate n ' ' := by
  cases n with
  | zero => omega
  | succ n =>
    have : " ".toList = [' '] := rfl
    rw [this]
    simp only [pad_left, List.length_singleton, Nat.add_sub_cancel]
    exact (List.replicate_succ' n ' ').symm

theorem tree_print_children_chain {s : Heap} {r : Addr} {level : Nat} (g : Addr → List Char) :
    ∀ (cs : List Addr) (cur : Link), Chain s (Link.clist r) cur (cs.map Link.list) →
      (∀ c ∈ cs, ∃ F, ∀ fuel, F ≤ fuel →
        object_tree_print s fuel c (level + 5) = some (Printed.text (g c))) →
      ∃ F, ∀ fuel, F ≤ fuel →
        object_tree_print_children s fuel r level (s.next cur) =
          some (Printed.text (dump_children g cs)) := by
  intro cs
  induction cs with
  | nil =>
    intro cur hc _
    refine ⟨1, fun fuel hf => ?_⟩
    cases fuel with
    | zero => omega
    | succ f =>
      have : s.next cur = some (Link.clist r) := hc.1
      simp [this, object_tree_print_children, dump_children]
  | cons c cs ih =>
    intro cur hc hall
    obtain ⟨F1, h1⟩ := hall c (by simp)
    obtain ⟨F2, h2⟩ := ih (Link.list c) hc.2.2 (fun x hx => hall x (List.mem_cons_of_mem _ hx))
    refine ⟨max F1 F2 + 1, fun fuel hf => ?_⟩
    cases fuel with
    | zero => omega
    | succ f =>
      have hn : s.next cur = some (Link.list c) := hc.1
      rw [hn]
      simp only [object_tree_print_children]
      rw [if_neg (by simp), h1 f (by omega), h2 f (by omega)]
      rfl

/-- On a subtree whose child lists are well-formed and whose names are NUL-terminated
within their 16 bytes, `object_tree_print` emits exactly the specified dump. -/
theorem tree_print_dump {s : Heap} {ch : Addr → List Addr} :
    ∀ (h : Nat) (r : Addr) (d : Nat),
      (∀ o, Desc ch r o → ChildList s o (ch o)) →
      (∀ o, Desc ch r o → '\x00' ∈ s.name o) → HeightLE ch h r →
      ∃ F, ∀ fuel, F ≤ fuel →
        object_tree_print s fuel r (5 * d) = some (Printed.text (dump s ch h r d)) := by
  have hstep : ∀ (r : Addr) (d : Nat) (out : List Char), '\x00' ∈ s.name r →
      (∃ F, ∀ fuel, F ≤ fuel →
        object_tree_print_children s fuel r (5 * d) (s.next (Link.clist r)) =
          some (Printed.text out)) →
      ∃ F, ∀ fuel, F ≤ fuel →
        object_tree_print s fuel r (5 * d) = some (Printed.text (dump_line s d r ++ out)) := by
    intro r d out hnul ⟨F, hF⟩
    refine ⟨F + 1, fun fuel hf => ?_⟩
    cases fuel with
    | zero => omega
    | succ f =>
      simp only [object_tree_print, name_string, if_pos hnul]
      rw [hF f (by omega)]
      simp only [dump_line]
      cases d with
      | zero => simp
      | succ d =>
        rw [if_neg (by omega), pad_left_space _ (by omega)]
  intro h
  induction h with
  | zero =>
    intro r d hcl hnm hh
    have hc := hcl r (Desc.refl r)
    simp only [HeightLE] at hh
    rw [hh] at hc
    have := hstep r d [] (hnm r (Desc.refl r))
      (tree_print_children_chain (fun _ => []) [] (Link.clist r) hc (by simp))
    simpa [dump] using this
  | succ h ih =>
    intro r d hcl hnm hh
    have hc := hcl r (Desc.refl r)
    have hkids : ∀ c ∈ ch r, ∃ F, ∀ fuel, F ≤ fuel →
        object_tree_print s fuel c (5 * d + 5) = some (Printed.text (dump s ch h c (d + 1))) := by
      intro c hcm
      have hd : Desc ch r c := Desc.step (Desc.refl r) hcm
      exact ih c (d + 1) (fun o ho => hcl o (Desc.trans hd ho))
        (fun o ho => hnm o (Desc.trans hd ho)) (hh c hcm)
    exact hstep r d _ (hnm r (Desc.refl r))
      (tree_print_children_chain (fun c => dump s ch h c (d + 1)) (ch r) (Link.clist r) hc hkids)

/-! ## The claims -/

/-- C1 (as amended): round trip of register and find.  In every reachable registry, if
`mr_object_register(n, p)` returns 0 for an unregistered caller-owned object `n`, and the
descent did not stop on a missing directory component whose first 16 bytes equal those of
the rest of the path (so in particular when every directory component of `p` names an
existing child), then afterwards `mr_object_find(p)` returns `n`. -/
theorem register_find_roundtrip (s : Heap) (hs : Reachable s) (n : Addr)
    (hn0 : n ≠ root_object) (hm : s.magic n ≠ OBJECT_MAGIC) (p : List Char) (fuel : Nat)
    (t : Heap) (st : Stop) (hreg : mr_object_register fuel s n p = some (0, t))
    (hst : path_walk fuel s fuel root_object p = some st)
    (hmiss : ∀ seg, st.missing = some seg →
      strncmp seg (strncpy st.rest MR_CFG_OBJECT_NAME_MAX_LEN) MR_CFG_OBJECT_NAME_MAX_LEN ≠ 0) :
    ∃ F, ∀ fuel', F ≤ fuel' → mr_object_find fuel' t p = some (some n) := by
  obtain ⟨ch, w⟩ := reachable_wf hs
  obtain ⟨st', hst', h⟩ := roundtrip_core w hn0 hm hreg
  rw [hst] at hst'
  simp only [Option.some.injEq] at hst'
  subst hst'
  exact h hmiss

/-- C1, witness: in the initial registry `x` is registered at `"x/y"`; the component `x`
is missing, the object is stored under the root as `"y"`, and `find("x/y")` returns it. -/
theorem register_find_roundtrip_witness :
    Reachable init ∧ init.magic 1 ≠ OBJECT_MAGIC ∧
    mr_object_register 4 init 1 "x/y".toList = some (0, after_register 4 init 1 "x/y") ∧
    ∃ F, ∀ fuel', F ≤ fuel' →
      mr_object_find fuel' (after_register 4 init 1 "x/y") "x/y".toList = some (some 1) :=
  ⟨Reachable.init, by decide, rfl,
    register_find_roundtrip init Reachable.init 1 (by decide) (by decide) "x/y".toList 4
      (after_register 4 init 1 "x/y") ⟨0, "y".toList, some "x".toList⟩ rfl (by decide)
      (by intro seg h; cases h; decide)⟩

/-- C1, counterexample to the claim as stated: in the initial registry
`mr_object_register(n, "a/a")` returns 0 (the component `a` is missing, so `n` is stored
under the root as `"a"`), and afterwards `mr_object_find("a/a")` descends into `n` and
returns `NULL`. -/
theorem register_find_roundtrip_counterexample :
    Reachable init ∧ init.magic 1 ≠ OBJECT_MAGIC ∧
    mr_object_register 4 init 1 "a/a".toList = some (0, after_register 4 init 1 "a/a") ∧
    (∀ fuel, 4 ≤ fuel →
      mr_object_find fuel (after_register 4 init 1 "a/a") "a/a".toList = some none) :=
  ⟨Reachable.init, by decide, rfl, fun _ hf => find_mono (by decide) hf⟩

/-- C2 (as amended): a missing directory component does not make register fail.  In every
reachable registry, when some directory component of `p` names no child at its level, the
descent stops at the object reached so far and `mr_object_register(n, p)` registers `n`
there, named by the first 16 bytes of the rest of the path after the missing component:
it returns 0 with `n` live and its parent set to that object, unless that object already
has a child whose stored name matches the rest, in which case it returns -1 and leaves the
whole memory unchanged. -/
theorem register_missing_directory (s : Heap) (hs : Reachable s) (n : Addr)
    (hn0 : n ≠ root_object) (hm : s.magic n ≠ OBJECT_MAGIC) (p : List Char) :
    ∃ F, ∀ fuel, F ≤ fuel → directory_of fuel s fuel root_object p = some none →
      ∃ st seg, path_walk fuel s fuel root_object p = some st ∧ st.missing = some seg ∧
        ((object_find_from_parent fuel s st.parent st.rest = some none ∧
          ∃ t, mr_object_register fuel s n p = some (0, t) ∧ t.parent n = some st.parent ∧
            t.magic n = OBJECT_MAGIC ∧
            t.name n = strncpy st.rest MR_CFG_OBJECT_NAME_MAX_LEN) ∨
         ((∃ b, object_find_from_parent fuel s st.parent st.rest = some (some b)) ∧
          mr_object_register fuel s n p = some (-1, s))) := by
  obtain ⟨ch, w⟩ := reachable_wf hs
  obtain ⟨F, hF⟩ := w.fuel p
  refine ⟨F, fun fuel hf hdir => ?_⟩
  obtain ⟨hB, hp⟩ := hF fuel hf
  obtain ⟨st, hw⟩ := walk_total s ch (p.length + 1) root_object p (by omega)
  have hpw := (find_eq_lookup w hw hB hp).1
  rw [directory_of_eq, hpw] at hdir
  simp only [Option.map_some', Option.some.injEq, ite_eq_right_iff] at hdir
  cases hmiss : st.missing with
  | none => simp [hmiss] at hdir
  | some seg =>
    refine ⟨st, seg, hpw, hmiss, ?_⟩
    have hfp := find_from_parent_eq st.rest (w.childList (walk_attached hw)) (hB st.parent)
    obtain ⟨h1, h2⟩ := register_result (n := n) w hw hB hp
    cases hl : lookup s (ch st.parent) st.rest with
    | some b =>
      right
      rw [hl] at hfp
      exact ⟨⟨b, hfp⟩, h1 b hl⟩
    | none =>
      left
      rw [hl] at hfp
      refine ⟨hfp, _, h2 hn0 hm hl, ?_, ?_, ?_⟩ <;> simp [registered]

theorem state_x_reachable : Reachable state_x :=
  reachable_after_register Reachable.init (by decide) (by decide) 4 "x"

/-- C2, witness: with only `x` registered under the root, registering `w` at
`"x/missing/w"`. -/
theorem register_missing_directory_witness :
    Reachable state_x ∧ state_x.magic 2 ≠ OBJECT_MAGIC ∧
    ∃ F, ∀ fuel, F ≤ fuel →
      directory_of fuel state_x fuel root_object "x/missing/w".toList = some none →
      ∃ st seg, path_walk fuel state_x fuel root_object "x/missing/w".toList = some st ∧
        st.missing = some seg ∧
        ((object_find_from_parent fuel state_x st.parent st.rest = some none ∧
          ∃ t, mr_object_register fuel state_x 2 "x/missing/w".toList = some (0, t) ∧
            t.parent 2 = some st.parent ∧ t.magic 2 = OBJECT_MAGIC ∧
            t.name 2 = strncpy st.rest MR_CFG_OBJECT_NAME_MAX_LEN) ∨
         ((∃ b, object_find_from_parent fuel state_x st.parent st.rest = some (some b)) ∧
          mr_object_register fuel state_x 2 "x/missing/w".toList = some (-1, state_x))) :=
  ⟨state_x_reachable, by decide,
    register_missing_directory state_x state_x_reachable 2 (by decide) (by decide)
      "x/missing/w".toList⟩

/-- C2, counterexample to the claim as stated: with only `x` registered under the root,
the component `missing` of `"x/missing/w"` names no child of `x`, yet
`mr_object_register(w, "x/missing/w")` returns 0, sets `w.magic` to `0xdeadbeef` and
links `w` under `x`. -/
theorem register_missing_directory_counterexample :
    Reachable state_x ∧ state_x.magic 2 = 0 ∧
    directory_of 4 state_x 4 root_object "x/missing/w".toList = some none ∧
    (∀ fuel, 4 ≤ fuel → mr_object_register fuel state_x 2 "x/missing/w".toList =
      some (0, after_register 4 state_x 2 "x/missing/w")) ∧
    (after_register 4 state_x 2 "x/missing/w").magic 2 = OBJECT_MAGIC ∧
    (after_register 4 state_x 2 "x/missing/w").parent 2 = some 1 ∧
    mr_object_find 4 (after_register 4 state_x 2 "x/missing/w") "x/w".toList = some (some 2) :=
  ⟨state_x_reachable, by decide, by decide,
    fun _ hf => register_mono (f := 4) rfl hf, by decide, by decide, by decide⟩

theorem state_xy_reachable : Reachable state_xy :=
  reachable_after_register state_x_reachable (by decide) (by decide) 4 "x/y"

theorem state_xyz_reachable : Reachable state_xyz :=
  reachable_after_register state_xy_reachable (by decide) (by decide) 4 "x/y/z"

/-- C3: duplicate rejection is atomic.  In every reachable registry, for every object `n`
and path `p`, the descent stops (with enough fuel) at an object `st.parent` with the rest
`st.rest` of the path as final segment; if `st.parent` already has a child whose stored
name equals that segment on the first 16 bytes (`strncmp` on 16 bytes returns 0, which is
to say the stored name is what `strncpy` stores for the segment),
`mr_object_register(n, p)` returns -1 and
the memory afterwards is the memory before, so every field of `n` and every list is as it
was. -/
theorem register_duplicate_rejected (s : Heap) (hs : Reachable s) (n : Addr) (p : List Char) :
    ∃ F, ∀ fuel, F ≤ fuel → ∃ st, path_walk fuel s fuel root_object p = some st ∧
      ∀ cs, ChildList s st.parent cs →
        (∃ c ∈ cs, strncmp st.rest (s.name c) MR_CFG_OBJECT_NAME_MAX_LEN = 0 ∨
          s.name c = strncpy st.rest MR_CFG_OBJECT_NAME_MAX_LEN) →
        mr_object_register fuel s n p = some (-1, s) := by
  obtain ⟨ch, w⟩ := reachable_wf hs
  obtain ⟨F, hF⟩ := w.fuel p
  refine ⟨F, fun fuel hf => ?_⟩
  obtain ⟨hB, hp⟩ := hF fuel hf
  obtain ⟨st, hw⟩ := walk_total s ch (p.length + 1) root_object p (by omega)
  refine ⟨st, (find_eq_lookup w hw hB hp).1, ?_⟩
  intro cs hcs ⟨c, hc, hmatch0⟩
  have hcs' := childList_unique hcs (w.childList (walk_attached hw))
  subst hcs'
  have hmatch : strncmp st.rest (s.name c) MR_CFG_OBJECT_NAME_MAX_LEN = 0 := by
    rcases hmatch0 with h | h
    · exact h
    · rw [strncmp_eq_zero_iff, h, strncpy_idem]
  cases hl : lookup s (ch st.parent) st.rest with
  | none => exact absurd hmatch (lookup_none_iff.mp hl c hc)
  | some b => exact (register_result w hw hB hp).1 b hl

/-- C3, witness: after `x`, `x/y`, `x/y/z` are registered, registering `q` at `"x/y"`
returns -1. -/
theorem register_duplicate_rejected_witness :
    Reachable state_xyz ∧
    (mr_object_register 4 state_xyz 4 "x/y".toList).map Prod.fst = some (-1) ∧
    ∃ F, ∀ fuel, F ≤ fuel → ∃ st,
      path_walk fuel state_xyz fuel root_object "x/y".toList = some st ∧
      ∀ cs, ChildList state_xyz st.parent cs →
        (∃ c ∈ cs, strncmp st.rest (state_xyz.name c) MR_CFG_OBJECT_NAME_MAX_LEN = 0 ∨
          state_xyz.name c = strncpy st.rest MR_CFG_OBJECT_NAME_MAX_LEN) →
        mr_object_register fuel state_xyz 4 "x/y".toList = some (-1, state_xyz) :=
  ⟨state_xyz_reachable, by decide,
    register_duplicate_rejected state_xyz state_xyz_reachable 4 "x/y".toList⟩

/-- C4 (as amended): `mr_object_find` is strict on the final segment only.  In every
reachable registry the descent follows the directory segments of `p` while they match a
child and stops at the first one that matches no child, or when no `/` is left;
`mr_object_find(p)` then returns the first child of the object reached whose stored name
matches the whole rest of the path on 16 bytes, and `NULL` when there is none.  When every
directory segment matches, the object reached is the one the directory part denotes. -/
theorem find_strict_on_final_segment (s : Heap) (hs : Reachable s) (p : List Char) :
    ∃ F, ∀ fuel, F ≤ fuel → ∃ st cs,
      path_walk fuel s fuel root_object p = some st ∧ ChildList s st.parent cs ∧
      mr_object_find fuel s p = some (lookup s cs st.rest) ∧
      (∀ c, mr_object_find fuel s p = some (some c) →
        c ∈ cs ∧ strncmp st.rest (s.name c) MR_CFG_OBJECT_NAME_MAX_LEN = 0) ∧
      ((∀ c ∈ cs, strncmp st.rest (s.name c) MR_CFG_OBJECT_NAME_MAX_LEN ≠ 0) →
        mr_object_find fuel s p = some none) ∧
      (∀ d, directory_of fuel s fuel root_object p = some (some d) →
        st.parent = d ∧ st.missing = none) := by
  obtain ⟨ch, w⟩ := reachable_wf hs
  obtain ⟨F, hF⟩ := w.fuel p
  refine ⟨F, fun fuel hf => ?_⟩
  obtain ⟨hB, hp⟩ := hF fuel hf
  obtain ⟨st, hw⟩ := walk_total s ch (p.length + 1) root_object p (by omega)
  obtain ⟨hpw, hfind⟩ := find_eq_lookup w hw hB hp
  refine ⟨st, ch st.parent, hpw, w.childList (walk_attached hw), hfind, ?_, ?_, ?_⟩
  · intro c hc
    rw [hfind] at hc
    simp only [Option.some.injEq] at hc
    exact ⟨lookup_mem hc, lookup_match hc⟩
  · intro h
    rw [hfind, lookup_none_iff.mpr h]
  · intro d hd
    rw [directory_of_eq, hpw] at hd
    simp only [Option.map_some', Option.some.injEq] at hd
    by_cases hmiss : st.missing = none
    · simp only [hmiss, if_true, Option.some.injEq] at hd
      exact ⟨hd, hmiss⟩
    · simp [hmiss] at hd

/-- C4, witness: the registry with `x` and `x/y`, and the path `"x/missing/y"`. -/
theorem find_strict_on_final_segment_witness :
    Reachable state_xy ∧
    ∃ F, ∀ fuel, F ≤ fuel → ∃ st cs,
      path_walk fuel state_xy fuel root_object "x/missing/y".toList = some st ∧
      ChildList state_xy st.parent cs ∧
      mr_object_find fuel state_xy "x/missing/y".toList = some (lookup state_xy cs st.rest) ∧
      (∀ c, mr_object_find fuel state_xy "x/missing/y".toList = some (some c) →
        c ∈ cs ∧ strncmp st.rest (state_xy.name c) MR_CFG_OBJECT_NAME_MAX_LEN = 0) ∧
      ((∀ c ∈ cs, strncmp st.rest (state_xy.name c) MR_CFG_OBJECT_NAME_MAX_LEN ≠ 0) →
        mr_object_find fuel state_xy "x/missing/y".toList = some none) ∧
      (∀ d, directory_of fuel state_xy fuel root_object "x/missing/y".toList = some (some d) →
        st.parent = d ∧ st.missing = none) :=
  ⟨state_xy_reachable,
    find_strict_on_final_segment state_xy state_xy_reachable "x/missing/y".toList⟩

/-- C4, counterexample to the claim as stated: with `x` and `x/y` registered, the
segment `missing` of `"x/missing/y"` matches no child of `x`, yet
`mr_object_find("x/missing/y")` returns `y`. -/
theorem find_strict_counterexample :
    Reachable state_xy ∧
    object_find_from_parent 4 state_xy 1 "missing".toList = some none ∧
    directory_of 4 state_xy 4 root_object "x/missing/y".toList = some none ∧
    (∀ fuel, 4 ≤ fuel → mr_object_find fuel state_xy "x/missing/y".toList = some (some 2)) :=
  ⟨state_xy_reachable, by decide, by decide, fun _ hf => find_mono (by decide) hf⟩

/-- C5: unregister postcondition and frame.  In every reachable registry, for every live
caller-owned object `n`, `n` is a child of its parent `P` and `mr_object_unregister(n)`
returns 0; afterwards the child list of `P` is the old one with `n` removed and the other
children in their old order, `n.list` is self-looped, `n.magic` is 0 and `n.parent` is
null.  Nothing cascades: the child list of `n` itself and of every object other than `P`
is unchanged, each child of `n` keeps its magic, its name and its parent `n`, every object
other than `n` keeps magic, name and parent, and the only links written besides `n.list`
are the `next` of the predecessor and the `prev` of the successor of `n`. -/
theorem unregister_postcondition (s : Heap) (hs : Reachable s) (n : Addr)
    (hn0 : n ≠ root_object) (hm : s.magic n = OBJECT_MAGIC) :
    ∃ P t, s.parent n = some P ∧ mr_object_unregister s n = some (0, t) ∧
      (∃ cs, ChildList s P cs ∧ n ∈ cs ∧ cs.Nodup) ∧
      (∀ cs, ChildList s P cs → ChildList t P (cs.erase n)) ∧
      t.next (Link.list n) = some (Link.list n) ∧ t.prev (Link.list n) = some (Link.list n) ∧
      t.magic n = 0 ∧ t.parent n = none ∧
      (∀ o, o ≠ P → ∀ cs, ChildList s o cs → ChildList t o cs) ∧
      (∀ cs, ChildList s n cs → ChildList t n cs ∧
        ∀ c ∈ cs, t.parent c = some n ∧ t.magic c = s.magic c ∧ t.name c = s.name c) ∧
      (∀ c, c ≠ n → t.magic c = s.magic c ∧ t.parent c = s.parent c) ∧
      t.name = s.name ∧
      (∀ l, l ≠ Link.list n → s.prev (Link.list n) ≠ some l → t.next l = s.next l) ∧
      (∀ l, l ≠ Link.list n → s.next (Link.list n) ≠ some l → t.prev l = s.prev l) := by
  obtain ⟨ch, w⟩ := reachable_wf hs
  obtain ⟨P, hP⟩ := (w.live n hn0).mp hm
  obtain ⟨nx, pv, hnx, hpv, _, hframe⟩ := unregistered_wf w hP
  have hnP : n ≠ P := by
    obtain ⟨rk, hrk⟩ := w.rank
    have := hrk P n hP
    intro e
    rw [e] at this
    omega
  have hPc : ChildList s P (ch P) := by
    rcases w.clist P with h | ⟨_, _, h⟩
    · exact h
    · rw [h] at hP; simp at hP
  have hother : ∀ o, o ≠ P → ∀ cs, ChildList s o cs →
      ChildList (unregistered s n nx pv) o cs := by
    intro o hoP cs hcs
    obtain ⟨e, hc⟩ := w.childList_eq hcs
    have := hframe o hc
    rw [Function.update_noteq hoP] at this
    rw [e]; exact this
  refine ⟨P, unregistered s n nx pv, w.parent P n hP, unregister_eq hnx hpv,
    ⟨ch P, hPc, hP, w.nodup P⟩, ?_, ?_, ?_, ?_, ?_, hother, ?_, ?_, rfl, ?_, ?_⟩
  · intro cs hcs
    obtain ⟨e, hc⟩ := w.childList_eq hcs
    have := hframe P hc
    rw [Function.update_same] at this
    rw [e]; exact this
  · simp [unregistered]
  · simp [unregistered]
  · simp [unregistered]
  · simp [unregistered]
  · intro cs hcs
    refine ⟨hother n hnP cs hcs, ?_⟩
    intro c hc
    obtain ⟨e, _⟩ := w.childList_eq hcs
    rw [e] at hc
    have hcn : c ≠ n := by
      obtain ⟨rk, hrk⟩ := w.rank
      have := hrk n c hc
      intro e2
      rw [e2] at this
      omega
    refine ⟨?_, ?_, rfl⟩
    · simp only [unregistered, Function.update_noteq hcn]
      exact w.parent n c hc
    · simp only [unregistered, Function.update_noteq hcn]
  · intro c hc
    simp [unregistered, Function.update_noteq hc]
  · intro l h1 h2
    have h3 : l ≠ pv := by
      intro e
      rw [hpv, e] at h2
      exact h2 rfl
    simp [unregistered, Function.update_noteq h1, Function.update_noteq h3]
  · intro l h1 h2
    have h3 : l ≠ nx := by
      intro e
      rw [hnx, e] at h2
      exact h2 rfl
    simp [unregistered, Function.update_noteq h1, Function.update_noteq h3]

/-- C5, witness: unregistering `y` after `x`, `x/y`, `x/y/z` were registered. -/
theorem unregister_postcondition_witness :
    Reachable state_xyz ∧ state_xyz.magic 2 = OBJECT_MAGIC ∧
    (after_unregister state_xyz 2).parent 3 = some 2 ∧
    (after_unregister state_xyz 2).magic 2 = 0 ∧
    ∃ P t, state_xyz.parent 2 = some P ∧ mr_object_unregister state_xyz 2 = some (0, t) ∧
      (∃ cs, ChildList state_xyz P cs ∧ 2 ∈ cs ∧ cs.Nodup) ∧
      (∀ cs, ChildList state_xyz P cs → ChildList t P (cs.erase 2)) ∧
      t.next (Link.list 2) = some (Link.list 2) ∧ t.prev (Link.list 2) = some (Link.list 2) ∧
      t.magic 2 = 0 ∧ t.parent 2 = none ∧
      (∀ o, o ≠ P → ∀ cs, ChildList state_xyz o cs → ChildList t o cs) ∧
      (∀ cs, ChildList state_xyz 2 cs → ChildList t 2 cs ∧
        ∀ c ∈ cs, t.parent c = some 2 ∧ t.magic c = state_xyz.magic c ∧
          t.name c = state_xyz.name c) ∧
      (∀ c, c ≠ 2 → t.magic c = state_xyz.magic c ∧ t.parent c = state_xyz.parent c) ∧
      t.name = state_xyz.name ∧
      (∀ l, l ≠ Link.list 2 → state_xyz.prev (Link.list 2) ≠ some l →
        t.next l = state_xyz.next l) ∧
      (∀ l, l ≠ Link.list 2 → state_xyz.next (Link.list 2) ≠ some l →
        t.prev l = state_xyz.prev l) :=
  ⟨state_xyz_reachable, by decide, by decide, by decide,
    unregister_postcondition state_xyz state_xyz_reachable 2 (by decide) (by decide)⟩

/-- C6: a node can no longer be found after unregister.  In every reachable registry, if
`mr_object_find(p)` returns `n`, then `mr_object_unregister(n)` returns 0 and afterwards
`mr_object_find(p)` returns `NULL`. -/
theorem find_after_unregister (s : Heap) (hs : Reachable s) (p : List Char) (fuel : Nat)
    (n : Addr) (hfind : mr_object_find fuel s p = some (some n)) :
    ∃ t, mr_object_unregister s n = some (0, t) ∧
      ∃ F, ∀ fuel', F ≤ fuel' → mr_object_find fuel' t p = some none := by
  obtain ⟨ch, w⟩ := reachable_wf hs
  obtain ⟨st, _, hw, hl⟩ := find_some_lookup w hfind
  have hmem : n ∈ ch st.parent := lookup_mem hl.symm
  have hn0 : n ≠ root_object := fun e => w.root_free _ (e ▸ hmem)
  have hm : s.magic n = OBJECT_MAGIC := (w.live n hn0).mpr ⟨_, hmem⟩
  obtain ⟨P, nx, pv, hnP, _, heq, hwt, _⟩ := unregister_cases w hn0 hm
  refine ⟨_, heq, ?_⟩
  obtain ⟨st', hw', hl'⟩ :=
    walk_unregistered (t := unregistered s n nx pv) w hnP rfl hw hl.symm
  obtain ⟨F, hF⟩ := hwt.fuel p
  refine ⟨F, fun fuel' hf => ?_⟩
  obtain ⟨hB, hp⟩ := hF fuel' hf
  rw [(find_eq_lookup hwt hw' hB hp).2, hl']

/-- C6, witness: after registering `x`, `x/y`, `x/y/z` and unregistering `y`,
`find("x/y")` returns nothing. -/
theorem find_after_unregister_witness :
    Reachable state_xyz ∧ mr_object_find 4 state_xyz "x/y".toList = some (some 2) ∧
    mr_object_find 4 (after_unregister state_xyz 2) "x/y".toList = some none ∧
    ∃ t, mr_object_unregister state_xyz 2 = some (0, t) ∧
      ∃ F, ∀ fuel', F ≤ fuel' → mr_object_find fuel' t "x/y".toList = some none :=
  ⟨state_xyz_reachable, by decide, by decide,
    find_after_unregister state_xyz state_xyz_reachable "x/y".toList 4 2 (by decide)⟩

/-- C7: parent_get after a nested register.  In every reachable registry, if every
directory component of `p` names an existing child, so that the directory part of `p`
denotes the object `d` (the root when `p` has no directory part), and
`mr_object_register(n, p)` returns 0 for an unregistered caller-owned object `n`, then
afterwards `mr_object_parent_get(n)` returns `d`. -/
theorem parent_get_after_register (s : Heap) (hs : Reachable s) (n : Addr)
    (hn0 : n ≠ root_object) (hm : s.magic n ≠ OBJECT_MAGIC) (p : List Char) (fuel : Nat)
    (t : Heap) (d : Addr)
    (hdir : directory_of fuel s fuel root_object p = some (some d))
    (hreg : mr_object_register fuel s n p = some (0, t)) :
    mr_object_parent_get t n = some d ∧ (path_split p = none → d = root_object) := by
  obtain ⟨ch, w⟩ := reachable_wf hs
  obtain ⟨st, hpw, hw, hc⟩ := register_cases w hn0 hm hreg
  rw [directory_of_eq, hpw] at hdir
  simp only [Option.map_some', Option.some.injEq] at hdir
  have hd : st.parent = d := by
    by_cases hmiss : st.missing = none
    · simpa [hmiss] using hdir
    · simp [hmiss] at hdir
  rcases hc with ⟨hr, _⟩ | ⟨_, _, ht, _, _⟩
  · exact absurd hr (by decide)
  constructor
  · rw [ht, ← hd]
    simp [mr_object_parent_get, registered]
  · intro hsplit
    rw [← hd]
    cases hw with
    | last _ => rfl
    | miss hs2 _ => exact absurd (hsplit.symm.trans hs2) (by simp)
    | down hs2 _ _ => exact absurd (hsplit.symm.trans hs2) (by simp)

/-- C7, witness: after registering `x` at `"x"`, `y` at `"x/y"`, `z` at `"x/y/z"`:
`parent_get(z) = y`, `parent_get(y) = x`, `parent_get(x) = root`. -/
theorem parent_get_after_register_witness :
    Reachable state_xy ∧ state_xy.magic 3 ≠ OBJECT_MAGIC ∧
    directory_of 4 state_xy 4 root_object "x/y/z".toList = some (some 2) ∧
    mr_object_register 4 state_xy 3 "x/y/z".toList = some (0, state_xyz) ∧
    mr_object_parent_get state_xyz 2 = some 1 ∧
    mr_object_parent_get state_xyz 1 = some root_object ∧
    (mr_object_parent_get state_xyz 3 = some 2 ∧
      (path_split "x/y/z".toList = none → 2 = root_object)) :=
  ⟨state_xy_reachable, by decide, by decide, rfl, by decide, by decide,
    parent_get_after_register state_xy state_xy_reachable 3 (by decide) (by decide)
      "x/y/z".toList 4 state_xyz 2 (by decide) rfl⟩

/-- C8: name truncation and prefix match.  In every reachable registry, when a slash-free
C string `seg` of at least 16 bytes is registered successfully for an unregistered
caller-owned object `n`, `n` is stored under the root, its stored name is exactly the
first 16 bytes of `seg`, and `mr_object_find` of every slash-free string that agrees with
`seg` on its first 16 bytes returns `n`. -/
theorem name_truncation (s : Heap) (hs : Reachable s) (n : Addr) (hn0 : n ≠ root_object)
    (hm : s.magic n ≠ OBJECT_MAGIC) (seg : List Char) (hslash : '/' ∉ seg)
    (hnul : '\x00' ∉ seg) (hlen : MR_CFG_OBJECT_NAME_MAX_LEN ≤ seg.length) (fuel : Nat)
    (t : Heap) (hreg : mr_object_register fuel s n seg = some (0, t)) :
    t.name n = seg.take MR_CFG_OBJECT_NAME_MAX_LEN ∧ t.parent n = some root_object ∧
    ∀ seg' : List Char, '/' ∉ seg' →
      seg'.take MR_CFG_OBJECT_NAME_MAX_LEN = seg.take MR_CFG_OBJECT_NAME_MAX_LEN →
      ∃ F, ∀ fuel', F ≤ fuel' → mr_object_find fuel' t seg' = some (some n) := by
  obtain ⟨ch, w⟩ := reachable_wf hs
  obtain ⟨st, _, hw, hc⟩ := register_cases w hn0 hm hreg
  rcases hc with ⟨hr, _⟩ | ⟨_, hl, ht, hwt, _⟩
  · exact absurd hr (by decide)
  obtain ⟨hsplit, hskip⟩ := path_split_none_of_not_mem hslash
  have hst : st = ⟨root_object, seg, none⟩ := by
    have := walk_unique hw (@Walk.last s ch root_object seg hsplit)
    rw [hskip] at this
    exact this
  subst hst
  simp only at hl ht hwt
  have hun := w.unlinked_of_magic hn0 hm
  have hnn : t.name n = strncpy seg MR_CFG_OBJECT_NAME_MAX_LEN := by
    rw [ht]; simp [registered]
  have hname : ∀ c, c ≠ n → t.name c = s.name c := by
    intro c hc
    rw [ht]
    simp [registered, Function.update_noteq hc]
  refine ⟨?_, ?_, ?_⟩
  · rw [hnn, strncpy_take _ _ hnul hlen]
  · rw [ht]; simp [registered]
  · intro seg' hslash' htake
    obtain ⟨hsplit', hskip'⟩ := path_split_none_of_not_mem hslash'
    have hw' : Walk t (Function.update ch root_object (ch root_object ++ [n])) root_object seg'
        ⟨root_object, seg', none⟩ := by
      have := @Walk.last t (Function.update ch root_object (ch root_object ++ [n]))
        root_object seg' hsplit'
      rw [hskip'] at this
      exact this
    have hcpy : strncpy seg' MR_CFG_OBJECT_NAME_MAX_LEN = strncpy seg MR_CFG_OBJECT_NAME_MAX_LEN := by
      rw [← strncpy_take_eq _ seg', ← strncpy_take_eq _ seg, htake]
    obtain ⟨F, hF⟩ := hwt.fuel seg'
    refine ⟨F, fun fuel' hf => ?_⟩
    obtain ⟨hB, hp⟩ := hF fuel' hf
    rw [(find_eq_lookup hwt hw' hB hp).2]
    simp only [Function.update_same]
    have hold : lookup t (ch root_object) seg' = none := by
      rw [lookup_strncpy_eq hcpy, lookup_congr _ (fun c hc => hname c (fun e => hun _ (e ▸ hc)))]
      exact hl
    rw [lookup_append_none hold, lookup_single, if_pos]
    rw [hnn, strncmp_eq_zero_iff, strncpy_idem, hcpy]

/-- C8, witness: registering `"abcdefghijklmnopqrstuv"` stores `"abcdefghijklmnop"` and
`find("abcdefghijklmnopWXYZ")` returns the node. -/
theorem name_truncation_witness :
    (after_register 4 init 1 "abcdefghijklmnopqrstuv").name 1 = "abcdefghijklmnop".toList ∧
    mr_object_find 4 (after_register 4 init 1 "abcdefghijklmnopqrstuv")
      "abcdefghijklmnopWXYZ".toList = some (some 1) ∧
    ((after_register 4 init 1 "abcdefghijklmnopqrstuv").name 1 =
        "abcdefghijklmnopqrstuv".toList.take MR_CFG_OBJECT_NAME_MAX_LEN ∧
      (after_register 4 init 1 "abcdefghijklmnopqrstuv").parent 1 = some root_object ∧
      ∀ seg' : List Char, '/' ∉ seg' →
        seg'.take MR_CFG_OBJECT_NAME_MAX_LEN =
          "abcdefghijklmnopqrstuv".toList.take MR_CFG_OBJECT_NAME_MAX_LEN →
        ∃ F, ∀ fuel', F ≤ fuel' →
          mr_object_find fuel' (after_register 4 init 1 "abcdefghijklmnopqrstuv") seg' =
            some (some 1)) :=
  ⟨by decide, by decide,
    name_truncation init Reachable.init 1 (by decide) (by decide)
      "abcdefghijklmnopqrstuv".toList (by decide) (by decide) (by decide) 4
      (after_register 4 init 1 "abcdefghijklmnopqrstuv") rfl⟩

/-- C9: register appends at the tail and touches nothing else.  In every reachable
registry, for every successful `mr_object_register(n, p)` of an unregistered caller-owned
object `n` whose descent stops at the object `st.parent` with the final segment `st.rest`:
the child list of `st.parent` afterwards is the old child list followed by `n`, without
repetition; `n.parent` is `st.parent`, `n.magic` is `0xdeadbeef`, `n.name` holds the first
min(16, length) bytes of the final segment, NUL-padded; the child list of every other
object, and the name, magic and parent of every object other than `n`, are unchanged. -/
theorem register_appends_at_tail (s : Heap) (hs : Reachable s) (n : Addr)
    (hn0 : n ≠ root_object) (hm : s.magic n ≠ OBJECT_MAGIC) (p : List Char) (fuel : Nat)
    (t : Heap) (st : Stop) (hreg : mr_object_register fuel s n p = some (0, t))
    (hst : path_walk fuel s fuel root_object p = some st) :
    (∃ cs, ChildList s st.parent cs ∧ n ∉ cs) ∧
    (∀ cs, ChildList s st.parent cs → ChildList t st.parent (cs ++ [n]) ∧ (cs ++ [n]).Nodup) ∧
    t.parent n = some st.parent ∧ t.magic n = OBJECT_MAGIC ∧
    t.name n = strncpy st.rest MR_CFG_OBJECT_NAME_MAX_LEN ∧
    ('\x00' ∉ st.rest → t.name n = st.rest.take MR_CFG_OBJECT_NAME_MAX_LEN ++
      List.replicate (MR_CFG_OBJECT_NAME_MAX_LEN - st.rest.length) '\x00') ∧
    (∀ o, o ≠ st.parent → ∀ cs, ChildList s o cs → ChildList t o cs) ∧
    (∀ c, c ≠ n → t.magic c = s.magic c ∧ t.name c = s.name c ∧ t.parent c = s.parent c) := by
  obtain ⟨ch, w⟩ := reachable_wf hs
  obtain ⟨st', hpw, hw, hc⟩ := register_cases w hn0 hm hreg
  rw [hst] at hpw
  simp only [Option.some.injEq] at hpw
  subst hpw
  rcases hc with ⟨hr, _⟩ | ⟨_, _, ht, _, hframe⟩
  · exact absurd hr (by decide)
  have hun := w.unlinked_of_magic hn0 hm
  have hPc := w.childList (walk_attached hw)
  have hnn : t.name n = strncpy st.rest MR_CFG_OBJECT_NAME_MAX_LEN := by
    rw [ht]; simp [registered]
  refine ⟨⟨_, hPc, hun _⟩, ?_, ?_, ?_, hnn, ?_, ?_, ?_⟩
  · intro cs hcs
    obtain ⟨e, hc⟩ := w.childList_eq hcs
    have := hframe _ hc
    rw [Function.update_same] at this
    rw [e]
    exact ⟨this, childList_nodup this⟩
  · rw [ht]; simp [registered]
  · rw [ht]; simp [registered]
  · intro h0
    rw [hnn, strncpy_eq_take_pad _ _ h0]
  · intro o ho cs hcs
    obtain ⟨e, hc⟩ := w.childList_eq hcs
    have := hframe _ hc
    rw [Function.update_noteq ho] at this
    rw [e]
    exact this
  · intro c hc
    rw [ht]
    simp [registered, Function.update_noteq hc]

/-- C9, witness: registering `z` at `"x/y/z"` when `x` and `x/y` are registered. -/
theorem register_appends_at_tail_witness :
    Reachable state_xy ∧ state_xy.magic 3 ≠ OBJECT_MAGIC ∧
    ((∃ cs, ChildList state_xy 2 cs ∧ 3 ∉ cs) ∧
    (∀ cs, ChildList state_xy 2 cs → ChildList state_xyz 2 (cs ++ [3]) ∧ (cs ++ [3]).Nodup) ∧
    state_xyz.parent 3 = some 2 ∧ state_xyz.magic 3 = OBJECT_MAGIC ∧
    state_xyz.name 3 = strncpy "z".toList MR_CFG_OBJECT_NAME_MAX_LEN ∧
    ('\x00' ∉ "z".toList → state_xyz.name 3 = "z".toList.take MR_CFG_OBJECT_NAME_MAX_LEN ++
      List.replicate (MR_CFG_OBJECT_NAME_MAX_LEN - "z".toList.length) '\x00') ∧
    (∀ o, o ≠ 2 → ∀ cs, ChildList state_xy o cs → ChildList state_xyz o cs) ∧
    (∀ c, c ≠ 3 → state_xyz.magic c = state_xy.magic c ∧ state_xyz.name c = state_xy.name c ∧
      state_xyz.parent c = state_xy.parent c)) :=
  ⟨state_xy_reachable, by decide,
    register_appends_at_tail state_xy state_xy_reachable 3 (by decide) (by decide)
      "x/y/z".toList 4 state_xyz ⟨2, "z".toList, none⟩ rfl (by decide)⟩

/-- Scenario "root listing": with `a`, `b`, `c` registered under the root in that order,
`mr_object_tree_print(NULL)` emits four lines: the root at indent 0, then `a`, `b`, `c`
each indented 5 spaces, names padded to 16 characters. -/
theorem tree_print_root_listing :
    mr_object_tree_print 6 state_abc none = some (Printed.text
      ("|--- root            \r\n" ++
       "     |--- a               \r\n" ++
       "     |--- b               \r\n" ++
       "     |--- c               \r\n").toList) := by
  decide

/-- C10, the code at the failing input: with an object registered as `"abcdefghijklmnop"`
the stored name fills the 16-byte array and has no terminating NUL, and the `%-*s`
conversion of `object_tree_print` reads past the end of the array instead of printing the
16 bytes of the name. -/
theorem tree_print_overreads_full_name :
    Reachable state_long ∧
    state_long.name 1 = "abcdefghijklmnop".toList ∧
    name_string (state_long.name 1) = none ∧
    mr_object_tree_print 4 state_long none = some Printed.overread ∧
    mr_object_tree_print 4 state_long (some 1) = some Printed.overread :=
  ⟨reachable_after_register Reachable.init (by decide) (by decide) 4 "abcdefghijklmnop",
    by decide, by decide, by decide, by decide⟩

/-- The tree dump where the code meets its specification: for a subtree of finite height
whose child lists are well-formed and whose names are shorter than 16 bytes (so terminated
inside the array), `mr_object_tree_print` emits one line per object, in depth-first
pre-order with the children in list order, indented by 5 spaces per level; `NULL` stands
for the root. -/
theorem tree_print_terminated_names (s : Heap) (ch : Addr → List Addr) (h : Nat)
    (object : Option Addr)
    (hcl : ∀ o, Desc ch (object.getD root_object) o → ChildList s o (ch o))
    (hnm : ∀ o, Desc ch (object.getD root_object) o → '\x00' ∈ s.name o)
    (hh : HeightLE ch h (object.getD root_object)) :
    ∃ F, ∀ fuel, F ≤ fuel →
      mr_object_tree_print fuel s object =
        some (Printed.text (dump s ch h (object.getD root_object) 0)) := by
  obtain ⟨F, hF⟩ := tree_print_dump h (object.getD root_object) 0 hcl hnm hh
  refine ⟨F, fun fuel hf => ?_⟩
  have := hF fuel hf
  cases object with
  | none => exact this
  | some o => exact this

/-! ## Return value of register for any object -/

/-- The two `list_init` steps of register leave every initialised link as it is. -/
theorem prepared_inited_eq (s : Heap) (n : Addr) (l : Link) (h1 : s.next l ≠ none)
    (h2 : s.prev l ≠ none) :
    (prepared s n).next l = s.next l ∧ (prepared s n).prev l = s.prev l := by
  have key : ∀ (u : Heap) (k : Link), u.next l ≠ none → u.prev l ≠ none →
      ((if !list_is_inited u k then list_init u k else u).next l = u.next l ∧
       (if !list_is_inited u k then list_init u k else u).prev l = u.prev l) := by
    intro u k hn hp
    by_cases hi : list_is_inited u k = true
    · simp [hi]
    · have hlk : l ≠ k := by
        intro e
        subst e
        apply hi
        simp [list_is_inited, hn, hp]
      simp [hi, list_init, Function.update_noteq hlk]
  obtain ⟨a1, a2⟩ := key s (Link.list n) h1 h2
  obtain ⟨b1, b2⟩ := key (if !list_is_inited s (Link.list n) then list_init s (Link.list n) else s)
    (Link.clist n) (by rw [a1]; exact h1) (by rw [a2]; exact h2)
  exact ⟨b1.trans a1, b2.trans a2⟩

/-- Without a matching child at the stop of the descent, `mr_object_register` returns 0,
whatever object it is given. -/
theorem register_zero_any {s : Heap} {ch : Addr → List Addr} (w : WF s ch) (n : Addr)
    {p : List Char} {st : Stop} (hw : Walk s ch root_object p st) {fuel : Nat}
    (hB : ∀ o, (ch o).length < fuel) (hp : p.length < fuel)
    (hl : lookup s (ch st.parent) st.rest = none) :
    ∃ t, mr_object_register fuel s n p = some (0, t) := by
  have hpw := path_walk_of_walk w hB hw (Or.inl rfl) fuel hp
  have hPc := w.childList (walk_attached hw)
  have hf := find_from_parent_eq st.rest hPc (hB st.parent)
  rw [hl] at hf
  obtain ⟨⟨x, hx⟩, ⟨y, hy⟩⟩ := childList_inited hPc
  have hprev : (prepared s n).prev (Link.clist st.parent) = some y := by
    rw [(prepared_inited_eq s n _ (by rw [hx]; simp) (by rw [hy]; simp)).2, hy]
  unfold mr_object_register
  rw [register_by_path_eq, hpw]
  simp only [Option.some_bind]
  rw [register_to_parent_unfold, hf]
  simp only
  have h := list_insert_before_eq { prepared s n with
      name := Function.update (prepared s n).name n (strncpy st.rest MR_CFG_OBJECT_NAME_MAX_LEN) }
      (Link.clist st.parent) (Link.list n) y hprev
  simp only at h
  rw [h]
  exact ⟨_, rfl⟩

/-- C19: round trip under the register contract.  In every reachable registry, if every
directory component of `p` names an existing child (the directory part denotes an object
`d`) and `mr_object_register(n, p)` returns 0 for an unregistered caller-owned object `n`,
then afterwards `mr_object_find(p)` returns `n`, whatever the length of the final segment. -/
theorem roundtrip_under_contract (s : Heap) (hs : Reachable s) (n : Addr)
    (hn0 : n ≠ root_object) (hm : s.magic n ≠ OBJECT_MAGIC) (p : List Char) (fuel : Nat)
    (t : Heap) (d : Addr)
    (hdir : directory_of fuel s fuel root_object p = some (some d))
    (hreg : mr_object_register fuel s n p = some (0, t)) :
    ∃ F, ∀ fuel', F ≤ fuel' → mr_object_find fuel' t p = some (some n) := by
  obtain ⟨ch, w⟩ := reachable_wf hs
  obtain ⟨st, hpw, h⟩ := roundtrip_core w hn0 hm hreg
  rw [directory_of_eq, hpw] at hdir
  simp only [Option.map_some', Option.some.injEq] at hdir
  have hmiss : st.missing = none := by
    by_cases hmiss : st.missing = none
    · exact hmiss
    · simp [hmiss] at hdir
  apply h
  intro seg hseg
  rw [hmiss] at hseg
  exact absurd hseg (by simp)

/-- C19, witness: with `x` registered, an object registered at
`"x/abcdefghijklmnopqrstuv"` (a final segment of 22 bytes) is found by that path. -/
theorem roundtrip_under_contract_witness :
    Reachable state_x ∧ state_x.magic 2 ≠ OBJECT_MAGIC ∧
    directory_of 4 state_x 4 root_object "x/abcdefghijklmnopqrstuv".toList = some (some 1) ∧
    mr_object_register 4 state_x 2 "x/abcdefghijklmnopqrstuv".toList =
      some (0, after_register 4 state_x 2 "x/abcdefghijklmnopqrstuv") ∧
    ∃ F, ∀ fuel', F ≤ fuel' →
      mr_object_find fuel' (after_register 4 state_x 2 "x/abcdefghijklmnopqrstuv")
        "x/abcdefghijklmnopqrstuv".toList = some (some 2) :=
  ⟨state_x_reachable, by decide, by decide, rfl,
    roundtrip_under_contract state_x state_x_reachable 2 (by decide) (by decide)
      "x/abcdefghijklmnopqrstuv".toList 4
      (after_register 4 state_x 2 "x/abcdefghijklmnopqrstuv") 1 (by decide) rfl⟩

/-- C20: exact failure condition of register.  In every reachable registry, for every
object `n` and path `p`, the descent stops at an object `st.parent` with the rest
`st.rest` of the path, and `mr_object_register(n, p)` returns -1 or 0: it returns -1
exactly when `st.parent` already has a child whose stored name matches `st.rest` on 16
bytes.  In every other case, an empty rest included, it returns 0, and for an unregistered
caller-owned `n` it links `n` as the last child of `st.parent`. -/
theorem register_fails_iff_duplicate (s : Heap) (hs : Reachable s) (n : Addr) (p : List Char) :
    ∃ F, ∀ fuel, F ≤ fuel → ∃ st cs,
      path_walk fuel s fuel root_object p = some st ∧ ChildList s st.parent cs ∧
      (∃ r t, mr_object_register fuel s n p = some (r, t) ∧ (r = -1 ∨ r = 0) ∧
        (r = -1 ↔ ∃ c ∈ cs, strncmp st.rest (s.name c) MR_CFG_OBJECT_NAME_MAX_LEN = 0)) ∧
      (n ≠ root_object → s.magic n ≠ OBJECT_MAGIC →
        (∀ c ∈ cs, strncmp st.rest (s.name c) MR_CFG_OBJECT_NAME_MAX_LEN ≠ 0) →
        ∃ t, mr_object_register fuel s n p = some (0, t) ∧
          ChildList t st.parent (cs ++ [n]) ∧ t.magic n = OBJECT_MAGIC ∧
          t.parent n = some st.parent ∧
          t.name n = strncpy st.rest MR_CFG_OBJECT_NAME_MAX_LEN) := by
  obtain ⟨ch, w⟩ := reachable_wf hs
  obtain ⟨F, hF⟩ := w.fuel p
  refine ⟨F, fun fuel hf => ?_⟩
  obtain ⟨hB, hp⟩ := hF fuel hf
  obtain ⟨st, hw⟩ := walk_total s ch (p.length + 1) root_object p (by omega)
  have hpw := (find_eq_lookup w hw hB hp).1
  have hPc := w.childList (walk_attached hw)
  refine ⟨st, ch st.parent, hpw, hPc, ?_, ?_⟩
  · cases hl : lookup s (ch st.parent) st.rest with
    | some b =>
      refine ⟨-1, s, (register_result w hw hB hp).1 b hl, Or.inl rfl, ?_⟩
      simp only [true_iff]
      exact ⟨b, lookup_mem hl, lookup_match hl⟩
    | none =>
      obtain ⟨t, ht⟩ := register_zero_any w n hw hB hp hl
      refine ⟨0, t, ht, Or.inr rfl, ?_⟩
      constructor
      · intro h; exact absurd h (by decide)
      · rintro ⟨c, hc, hm⟩
        exact absurd hm (lookup_none_iff.mp hl c hc)
  · intro hn0 hm hno
    have hl : lookup s (ch st.parent) st.rest = none := lookup_none_iff.mpr hno
    have hun := w.unlinked_of_magic hn0 hm
    obtain ⟨_, _, hframe⟩ := registered_wf (n := n) w hn0 hun (walk_desc hw) hl
    refine ⟨_, (register_result w hw hB hp).2 hn0 hm hl, ?_, ?_, ?_, ?_⟩
    · have := hframe _ hPc
      rw [Function.update_same] at this
      exact this
    · simp [registered]
    · simp [registered]
    · simp [registered]

/-- C20, witness: on the initial registry the paths `""`, `"/"` and, once `x` is
registered, `"x/"` have an empty final segment and register returns 0; registering a
second object at `""` returns -1. -/
theorem register_fails_iff_duplicate_witness :
    (mr_object_register 4 init 1 "".toList).map Prod.fst = some 0 ∧
    (mr_object_register 4 init 1 "/".toList).map Prod.fst = some 0 ∧
    (mr_object_register 4 state_x 2 "x/".toList).map Prod.fst = some 0 ∧
    (mr_object_register 4 (after_register 4 init 1 "") 2 "".toList).map Prod.fst = some (-1) ∧
    ∃ F, ∀ fuel, F ≤ fuel → ∃ st cs,
      path_walk fuel init fuel root_object "".toList = some st ∧ ChildList init st.parent cs ∧
      (∃ r t, mr_object_register fuel init 1 "".toList = some (r, t) ∧ (r = -1 ∨ r = 0) ∧
        (r = -1 ↔ ∃ c ∈ cs, strncmp st.rest (init.name c) MR_CFG_OBJECT_NAME_MAX_LEN = 0)) ∧
      (1 ≠ root_object → init.magic 1 ≠ OBJECT_MAGIC →
        (∀ c ∈ cs, strncmp st.rest (init.name c) MR_CFG_OBJECT_NAME_MAX_LEN ≠ 0) →
        ∃ t, mr_object_register fuel init 1 "".toList = some (0, t) ∧
          ChildList t st.parent (cs ++ [1]) ∧ t.magic 1 = OBJECT_MAGIC ∧
          t.parent 1 = some st.parent ∧
          t.name 1 = strncpy st.rest MR_CFG_OBJECT_NAME_MAX_LEN) :=
  ⟨by decide, by decide, by decide, by decide,
    register_fails_iff_duplicate init Reachable.init 1 "".toList⟩

/-! ## Unlinking a self-looped link, the leading slash, names and magic -/

theorem heap_eq_of_fields {s t : Heap} (h1 : t.magic = s.magic) (h2 : t.name = s.name)
    (h3 : t.next = s.next) (h4 : t.prev = s.prev) (h5 : t.parent = s.parent) : t = s := by
  cases s
  cases t
  simp only at h1 h2 h3 h4 h5
  subst h1 h2 h3 h4 h5
  rfl

theorem WF.childList_of_mem {s : Heap} {ch : Addr → List Addr} (w : WF s ch) {P n : Addr}
    (h : n ∈ ch P) : ChildList s P (ch P) := by
  rcases w.clist P with h1 | ⟨_, _, h1⟩
  · exact h1
  · rw [h1] at h; simp at h

/-- The function `list_remove` on a self-looped link writes back what is there. -/
theorem list_remove_self_loop (s : Heap) (l : Link) (hnext : s.next l = some l)
    (hprev : s.prev l = some l) : list_remove s l = some s := by
  rw [list_remove_eq s l l l hnext hprev]
  congr 1
  refine heap_eq_of_fields ?_ ?_ ?_ ?_ ?_
  · rfl
  · rfl
  · simp only [Function.update_idem]
    exact Function.update_eq_self_iff.mpr hnext.symm
  · simp only [Function.update_idem]
    exact Function.update_eq_self_iff.mpr hprev.symm
  · rfl

theorem next_parent_leading_slash (fuel : Nat) (s : Heap) (a : Addr) (p : List Char)
    (hp : p.head? ≠ some '/') :
    next_parent_find_from_path fuel s a ('/' :: p) = next_parent_find_from_path fuel s a p := by
  simp [next_parent_find_from_path, hp]

theorem state_abc_reachable : Reachable state_abc :=
  reachable_after_register
    (reachable_after_register
      (reachable_after_register Reachable.init (by decide) (by decide) 4 "a")
      (by decide) (by decide) 4 "b")
    (by decide) (by decide) 4 "c"

theorem state_xz_reachable : Reachable state_xz :=
  reachable_after_unregister state_xyz_reachable (by decide) (by decide)

/-- C12: unregister is idempotent when the assertions are compiled out.  For every memory
and every object `n` that is already unregistered (`n.list` self-looped, `n.magic` 0,
`n.parent` null), `mr_object_unregister(n)` returns 0 and the memory afterwards is the
memory before, every link included; `list_remove` on the self-looped link changes nothing. -/
theorem unregister_idempotent (s : Heap) (n : Addr)
    (hnext : s.next (Link.list n) = some (Link.list n))
    (hprev : s.prev (Link.list n) = some (Link.list n))
    (hmagic : s.magic n = 0) (hparent : s.parent n = none) :
    mr_object_unregister s n = some (0, s) ∧ list_remove s (Link.list n) = some s := by
  have h := list_remove_self_loop s (Link.list n) hnext hprev
  refine ⟨?_, h⟩
  simp only [mr_object_unregister, h]
  congr 2
  refine heap_eq_of_fields ?_ ?_ ?_ ?_ ?_
  · exact Function.update_eq_self_iff.mpr hmagic.symm
  · rfl
  · rfl
  · rfl
  · exact Function.update_eq_self_iff.mpr hparent.symm

/-- C12, witness: `y`, unregistered after `x`, `x/y`, `x/y/z` were registered, is
unregistered a second time. -/
theorem unregister_idempotent_witness :
    Reachable state_xz ∧ state_xz.magic 2 = 0 ∧
    (mr_object_unregister state_xz 2 = some (0, state_xz) ∧
      list_remove state_xz (Link.list 2) = some state_xz) :=
  ⟨state_xz_reachable, by decide,
    unregister_idempotent state_xz 2 (by decide) (by decide) (by decide) (by decide)⟩

/-- C13 (as amended): one initial slash is optional and ignored.  For every memory, object
`n` and path `p` that does not itself begin with `/`, `mr_object_find("/" ++ p)` returns
what `mr_object_find(p)` returns, and `mr_object_register(n, "/" ++ p)` returns the same
code and memory as `mr_object_register(n, p)`. -/
theorem leading_slash_ignored (fuel : Nat) (s : Heap) (n : Addr) (p : List Char)
    (hp : p.head? ≠ some '/') :
    mr_object_find fuel s ('/' :: p) = mr_object_find fuel s p ∧
    mr_object_register fuel s n ('/' :: p) = mr_object_register fuel s n p := by
  cases fuel with
  | zero => exact ⟨rfl, rfl⟩
  | succ f =>
    constructor
    · simp only [mr_object_find, object_find_by_path, next_parent_leading_slash _ _ _ _ hp]
    · simp only [mr_object_register, object_register_by_path,
        next_parent_leading_slash _ _ _ _ hp]

/-- C13, witness: the paths `"/x/y"` and `"x/y"` with `x` and `x/y` registered. -/
theorem leading_slash_ignored_witness :
    mr_object_find 4 state_xy "/x/y".toList = some (some 2) ∧
    (mr_object_find 4 state_xy ('/' :: "x/y".toList) = mr_object_find 4 state_xy "x/y".toList ∧
      mr_object_register 4 state_xy 3 ('/' :: "x/y".toList) =
        mr_object_register 4 state_xy 3 "x/y".toList) :=
  ⟨by decide, leading_slash_ignored 4 state_xy 3 "x/y".toList (by decide)⟩

/-- C13, counterexample to the claim as stated: with `x` and `x/y` registered and
`p = "/x/y"`, `mr_object_find(p)` returns `y` but `mr_object_find("/" ++ p)` returns
`NULL`; and `mr_object_register(z, "/" ++ "/x/y/z")` links `z` under the root while
`mr_object_register(z, "/x/y/z")` links it under `y`. -/
theorem leading_slash_counterexample :
    Reachable state_xy ∧
    (∀ fuel, 4 ≤ fuel → mr_object_find fuel state_xy "/x/y".toList = some (some 2)) ∧
    (∀ fuel, 4 ≤ fuel → mr_object_find fuel state_xy ('/' :: "/x/y".toList) = some none) ∧
    (after_register 4 state_xy 3 "/x/y/z").parent 3 = some 2 ∧
    (after_register 4 state_xy 3 "//x/y/z").parent 3 = some root_object :=
  ⟨state_xy_reachable, fun _ hf => find_mono (by decide) hf,
    fun _ hf => find_mono (by decide) hf, by decide, by decide⟩

/-- C16: sibling names are unique.  In every reachable registry, any two distinct children
of one parent have stored names that differ when compared by `strncmp` on 16 bytes, and no
path segment matches both of them. -/
theorem sibling_names_unique (s : Heap) (hs : Reachable s) (P : Addr) (cs : List Addr)
    (hcs : ChildList s P cs) (c1 c2 : Addr) (h1 : c1 ∈ cs) (h2 : c2 ∈ cs) (hne : c1 ≠ c2) :
    strncmp (s.name c1) (s.name c2) MR_CFG_OBJECT_NAME_MAX_LEN ≠ 0 ∧
    ∀ seg, strncmp seg (s.name c1) MR_CFG_OBJECT_NAME_MAX_LEN = 0 →
      strncmp seg (s.name c2) MR_CFG_OBJECT_NAME_MAX_LEN ≠ 0 := by
  obtain ⟨ch, w⟩ := reachable_wf hs
  obtain ⟨e, _⟩ := w.childList_eq hcs
  subst e
  constructor
  · intro h
    rw [strncmp_eq_zero_iff, w.canon, w.canon] at h
    exact hne (w.names P c1 c2 h1 h2 h)
  · intro seg ha hb
    rw [strncmp_eq_zero_iff, w.canon] at ha hb
    exact hne (w.names P c1 c2 h1 h2 (ha.symm.trans hb))

/-- C16, witness: the children `a` and `b` of the root. -/
theorem sibling_names_unique_witness :
    Reachable state_abc ∧ ChildList state_abc root_object [1, 2, 3] ∧
    (strncmp (state_abc.name 1) (state_abc.name 2) MR_CFG_OBJECT_NAME_MAX_LEN ≠ 0 ∧
      ∀ seg, strncmp seg (state_abc.name 1) MR_CFG_OBJECT_NAME_MAX_LEN = 0 →
        strncmp seg (state_abc.name 2) MR_CFG_OBJECT_NAME_MAX_LEN ≠ 0) :=
  ⟨state_abc_reachable, by simp only [ChildList, List.map, Chain]; decide,
    sibling_names_unique state_abc state_abc_reachable root_object [1, 2, 3]
      (by simp only [ChildList, List.map, Chain]; decide) 1 2 (by decide) (by decide)
      (by decide)⟩

/-- C18: magic tracks liveness exactly.  In every reachable registry an object is an
element of some child list if and only if its magic is `0xdeadbeef` (the root, never in a
list, keeps magic 0); every object returned by `mr_object_find` has magic `0xdeadbeef`;
and an object whose magic is not `0xdeadbeef` is in no child list, its own link being
null or self-looped. -/
theorem magic_tracks_liveness (s : Heap) (hs : Reachable s) :
    (∀ n, (∃ P cs, ChildList s P cs ∧ n ∈ cs) ↔ s.magic n = OBJECT_MAGIC) ∧
    (∀ fuel p n, mr_object_find fuel s p = some (some n) → s.magic n = OBJECT_MAGIC) ∧
    (∀ n, s.magic n ≠ OBJECT_MAGIC →
      (∀ P cs, ChildList s P cs → n ∉ cs) ∧
      ((s.next (Link.list n) = none ∧ s.prev (Link.list n) = none) ∨
       (s.next (Link.list n) = some (Link.list n) ∧
        s.prev (Link.list n) = some (Link.list n)))) := by
  obtain ⟨ch, w⟩ := reachable_wf hs
  have hiff : ∀ n, (∃ P cs, ChildList s P cs ∧ n ∈ cs) ↔ s.magic n = OBJECT_MAGIC := by
    intro n
    constructor
    · rintro ⟨P, cs, hcs, hn⟩
      obtain ⟨e, _⟩ := w.childList_eq hcs
      subst e
      have hn0 : n ≠ root_object := fun e => w.root_free P (e ▸ hn)
      exact (w.live n hn0).mpr ⟨P, hn⟩
    · intro hm
      have hn0 : n ≠ root_object := by
        intro e
        rw [e, w.root_magic] at hm
        exact absurd hm (by decide)
      obtain ⟨P, hP⟩ := (w.live n hn0).mp hm
      exact ⟨P, ch P, w.childList_of_mem hP, hP⟩
  refine ⟨hiff, ?_, ?_⟩
  · intro fuel p n hf
    obtain ⟨st, _, _, hl⟩ := find_some_lookup w hf
    exact (hiff n).mp ⟨st.parent, ch st.parent, w.childList_of_mem (lookup_mem hl.symm),
      lookup_mem hl.symm⟩
  · intro n hm
    have hno : ∀ o, n ∉ ch o := by
      intro o ho
      apply hm
      apply (hiff n).mp
      exact ⟨o, ch o, w.childList_of_mem ho, ho⟩
    refine ⟨?_, w.unlinked n hno⟩
    intro P cs hcs hn
    obtain ⟨e, _⟩ := w.childList_eq hcs
    subst e
    exact hno P hn

/-- C18, witness: the registry in which `y` was unregistered while its child `z` stayed
linked to it. -/
theorem magic_tracks_liveness_witness :
    state_xz.magic 2 = 0 ∧ state_xz.magic 3 = OBJECT_MAGIC ∧
    ((∀ n, (∃ P cs, ChildList state_xz P cs ∧ n ∈ cs) ↔ state_xz.magic n = OBJECT_MAGIC) ∧
    (∀ fuel p n, mr_object_find fuel state_xz p = some (some n) →
      state_xz.magic n = OBJECT_MAGIC) ∧
    (∀ n, state_xz.magic n ≠ OBJECT_MAGIC →
      (∀ P cs, ChildList state_xz P cs → n ∉ cs) ∧
      ((state_xz.next (Link.list n) = none ∧ state_xz.prev (Link.list n) = none) ∨
       (state_xz.next (Link.list n) = some (Link.list n) ∧
        state_xz.prev (Link.list n) = some (Link.list n))))) :=
  ⟨by decide, by decide, magic_tracks_liveness state_xz state_xz_reachable⟩

/-! ## Register, unregister, register again -/

theorem walk_congr {s t : Heap} {ch : Addr → List Addr}
    (h : ∀ o name, lookup t (ch o) name = lookup s (ch o) name)
    {a : Addr} {p : List Char} {st : Stop} (hw : Walk s ch a p st) : Walk t ch a p st := by
  induction hw with
  | last hs => exact Walk.last hs
  | miss hs hl => exact Walk.miss hs (by rw [h]; exact hl)
  | down hs hl _ ih => exact Walk.down hs (by rw [h]; exact hl) ih

theorem update_append_erase {ch : Addr → List Addr} {P n : Addr} (hn : n ∉ ch P) :
    Function.update (Function.update ch P (ch P ++ [n])) P
      ((Function.update ch P (ch P ++ [n]) P).erase n) = ch := by
  funext o
  by_cases ho : o = P
  · subst ho
    simp only [Function.update_same]
    rw [List.erase_append_right _ hn]
    simp
  · simp [Function.update_noteq ho]

/-- C11: re-registration after unregistration.  In every reachable registry, if
`mr_object_register(n, p)` returns 0 for an unregistered caller-owned object `n`, the
descent having stopped at `st.parent`, then `mr_object_unregister(n)` returns 0 and every
child list is again what it was before the register; a further
`mr_object_register(n, p)` returns 0 again, its descent stops at the same `st.parent`, and
it attaches `n` as the last child of `st.parent`. -/
theorem reregister_after_unregister (s : Heap) (hs : Reachable s) (n : Addr)
    (hn0 : n ≠ root_object) (hm : s.magic n ≠ OBJECT_MAGIC) (p : List Char) (fuel : Nat)
    (t : Heap) (st : Stop) (hreg : mr_object_register fuel s n p = some (0, t))
    (hst : path_walk fuel s fuel root_object p = some st) :
    ∃ u, mr_object_unregister t n = some (0, u) ∧
      (∀ o cs, ChildList s o cs → ChildList u o cs) ∧
      ∃ F, ∀ fuel', F ≤ fuel' → ∃ v,
        mr_object_register fuel' u n p = some (0, v) ∧
        path_walk fuel' u fuel' root_object p = some st ∧
        v.parent n = some st.parent ∧ v.magic n = OBJECT_MAGIC ∧
        ∀ cs, ChildList u st.parent cs → ChildList v st.parent (cs ++ [n]) := by
  obtain ⟨ch, w⟩ := reachable_wf hs
  obtain ⟨st', hpw, hw, hc⟩ := register_cases w hn0 hm hreg
  rw [hst] at hpw
  simp only [Option.some.injEq] at hpw
  subst hpw
  rcases hc with ⟨hr, _⟩ | ⟨_, hl, ht, hwt, hframe⟩
  · exact absurd hr (by decide)
  have hun := w.unlinked_of_magic hn0 hm
  have htm : t.magic n = OBJECT_MAGIC := by rw [ht]; simp [registered]
  obtain ⟨P, nx, pv, hnP, _, heq, hwu, hframe2⟩ := unregister_cases hwt hn0 htm
  have hP : P = st.parent := by
    rcases mem_update_append.mp hnP with h | ⟨h, _⟩
    · exact absurd h (hun P)
    · exact h
  subst hP
  rw [update_append_erase (hun _)] at hwu
  have hback : ∀ o, ChildList s o (ch o) → ChildList (unregistered t n nx pv) o (ch o) := by
    intro o ho
    have := hframe2 o (hframe o ho)
    rw [update_append_erase (hun _)] at this
    exact this
  have hname : ∀ c, c ≠ n → (unregistered t n nx pv).name c = s.name c := by
    intro c hc
    show t.name c = s.name c
    rw [ht]
    simp [registered, Function.update_noteq hc]
  have hlook : ∀ o name, lookup (unregistered t n nx pv) (ch o) name = lookup s (ch o) name :=
    fun o name => lookup_congr name (fun c hc => hname c (fun e => hun o (e ▸ hc)))
  have hw' := walk_congr hlook hw
  have hum : (unregistered t n nx pv).magic n ≠ OBJECT_MAGIC := by
    simp [unregistered, OBJECT_MAGIC]
  have hl' : lookup (unregistered t n nx pv) (ch st.parent) st.rest = none := by
    rw [hlook]; exact hl
  refine ⟨_, heq, ?_, ?_⟩
  · intro o cs hcs
    obtain ⟨e, hc⟩ := w.childList_eq hcs
    rw [e]
    exact hback o hc
  · obtain ⟨F, hF⟩ := hwu.fuel p
    refine ⟨F, fun fuel' hf => ?_⟩
    obtain ⟨hB, hp⟩ := hF fuel' hf
    have hun' := hwu.unlinked_of_magic hn0 hum
    obtain ⟨_, _, hframe3⟩ := registered_wf (n := n) hwu hn0 hun' (walk_desc hw') hl'
    refine ⟨_, (register_result hwu hw' hB hp).2 hn0 hum hl', (find_eq_lookup hwu hw' hB hp).1,
      ?_, ?_, ?_⟩
    · simp [registered]
    · simp [registered]
    · intro cs hcs
      obtain ⟨e, hc⟩ := hwu.childList_eq hcs
      have := hframe3 _ hc
      rw [Function.update_same] at this
      rw [e]
      exact this

/-- C11, witness: `y` is registered at `"x/y"`, unregistered and registered again. -/
theorem reregister_after_unregister_witness :
    Reachable state_x ∧ state_x.magic 2 ≠ OBJECT_MAGIC ∧
    (mr_object_register 4 (after_unregister state_xy 2) 2 "x/y".toList).map Prod.fst = some 0 ∧
    ∃ u, mr_object_unregister state_xy 2 = some (0, u) ∧
      (∀ o cs, ChildList state_x o cs → ChildList u o cs) ∧
      ∃ F, ∀ fuel', F ≤ fuel' → ∃ v,
        mr_object_register fuel' u 2 "x/y".toList = some (0, v) ∧
        path_walk fuel' u fuel' root_object "x/y".toList = some ⟨1, "y".toList, none⟩ ∧
        v.parent 2 = some 1 ∧ v.magic 2 = OBJECT_MAGIC ∧
        ∀ cs, ChildList u 1 cs → ChildList v 1 (cs ++ [2]) :=
  ⟨state_x_reachable, by decide, by decide,
    reregister_after_unregister state_x state_x_reachable 2 (by decide) (by decide)
      "x/y".toList 4 state_xy ⟨1, "y".toList, none⟩ rfl (by decide)⟩

/-! ## Doubled slashes -/

theorem strchr_append_slash (r : List Char) :
    ∀ seg : List Char, '/' ∉ seg → '\x00' ∉ seg →
      strchr (seg ++ '/' :: r) '/' = some seg.length := by
  intro seg
  induction seg with
  | nil => intro _ _; simp [strchr]
  | cons c cs ih =>
    intro h1 h2
    simp at h1 h2
    have hc1 : c ≠ '/' := fun e => h1.1 e.symm
    have hc2 : c ≠ '\x00' := fun e => h2.1 e.symm
    simp [strchr, hc1, hc2, ih h1.2 h2.2]

theorem strncpy_append_le (b : List Char) (n : Nat) :
    ∀ a : List Char, n ≤ a.length → strncpy (a ++ b) n = strncpy a n := by
  induction n with
  | zero => intro a _; simp [strncpy]
  | succ n ih =>
    intro a h
    cases a with
    | nil => simp at h
    | cons c cs =>
      simp at h
      by_cases hc : c = '\x00'
      · simp [strncpy, hc]
      · simp [strncpy, hc, ih cs h]

theorem bound_toNat (k : Nat) :
    (BOUND (k : Int) 0 (MR_CFG_OBJECT_NAME_MAX_LEN : Nat)).toNat = min k MR_CFG_OBJECT_NAME_MAX_LEN := by
  unfold BOUND MR_CFG_OBJECT_NAME_MAX_LEN
  have h0 : ¬ ((k : Int) < 0) := by omega
  rw [if_neg h0]
  by_cases h : (k : Int) > ((16 : Nat) : Int)
  · rw [if_pos h]
    have : 16 ≤ k := by omega
    simp [Nat.min_eq_right this]
  · rw [if_neg h]
    have : k ≤ 16 := by omega
    simp [Nat.min_eq_left this]

/-- The split of a path that starts with a non-empty slash-free segment followed by `/`. -/
theorem path_split_segment (seg r : List Char) (hne : seg ≠ []) (hslash : '/' ∉ seg)
    (hnul : '\x00' ∉ seg) :
    path_split (seg ++ '/' :: r) = some (seg.take MR_CFG_OBJECT_NAME_MAX_LEN, r) := by
  have hskip : skip_slash (seg ++ '/' :: r) = seg ++ '/' :: r := by
    unfold skip_slash
    cases seg with
    | nil => exact absurd rfl hne
    | cons c cs =>
      simp at hslash
      have : c ≠ '/' := fun e => hslash.1 e.symm
      simp [this]
  unfold path_split
  rw [hskip, strchr_append_slash r seg hslash hnul]
  simp only [Option.some.injEq, Prod.mk.injEq]
  constructor
  · rw [bound_toNat, strncpy_append_le _ _ _ (Nat.min_le_left _ _),
      strncpy_take _ _ hnul (Nat.min_le_left _ _)]
    by_cases h : seg.length ≤ MR_CFG_OBJECT_NAME_MAX_LEN
    · rw [Nat.min_eq_left h, List.take_of_length_le h, List.take_of_length_le (le_refl _)]
    · rw [Nat.min_eq_right (by omega)]
  · simp

/-- C14 (as amended): a doubled slash does not block resolution.  For every memory, at
every object `a` of the walk.  First, the `/` that starts the remaining path is skipped at
each level: whenever a non-empty directory segment `seg` (a C string segment, without `/`
and without NUL) names a child of `a` and `q` does not begin with `/`, the paths
`seg ++ "//" ++ q` and `seg ++ "/" ++ q` give the same result, whatever the names of the
children are, so no empty segment arises.  Second, where an empty segment does arise (the
remaining path starts with `//`) and the empty name matches no child of `a`, the walk
stops at `a` and the rest of the path after the empty segment is looked up among the
children of `a` as the final segment. -/
theorem double_slash_skipped (fuel : Nat) (s : Heap) (a : Addr) :
    (∀ (seg q : List Char) (b : Addr), seg ≠ [] → '/' ∉ seg → '\x00' ∉ seg →
      q.head? ≠ some '/' →
      object_find_from_parent fuel s a (seg.take MR_CFG_OBJECT_NAME_MAX_LEN) = some (some b) →
      (∀ d, object_find_by_path fuel s d a (seg ++ '/' :: '/' :: q) =
        object_find_by_path fuel s d a (seg ++ '/' :: q)) ∧
      (a = root_object → mr_object_find fuel s (seg ++ '/' :: '/' :: q) =
        mr_object_find fuel s (seg ++ '/' :: q))) ∧
    (object_find_from_parent fuel s a [] = some none →
      ∀ d r, object_find_by_path fuel s (d + 1) a ('/' :: '/' :: r) =
        object_find_from_parent fuel s a r) := by
  constructor
  · intro seg q b hne hslash hnul hq hb
    have h1 : ∀ d, object_find_by_path fuel s d a (seg ++ '/' :: '/' :: q) =
        object_find_by_path fuel s d a (seg ++ '/' :: q) := by
      intro d
      cases d with
      | zero => rfl
      | succ d =>
        simp only [object_find_by_path, next_parent_eq,
          path_split_segment seg _ hne hslash hnul, hb]
        cases d with
        | zero => rfl
        | succ d =>
          simp only [object_find_by_path, next_parent_leading_slash _ _ _ _ hq]
    refine ⟨h1, ?_⟩
    intro ha
    subst ha
    exact h1 fuel
  · intro he d r
    have hsplit : path_split ('/' :: '/' :: r) = some ([], r) := by
      simp [path_split, skip_slash, strchr, BOUND, strncpy]
    simp only [object_find_by_path, next_parent_eq, hsplit, he]

/-- C14, witness: the paths `"x//y"` and `"x/y"` with `x` and `x/y` registered, and the
registry in which an object was registered at `""`, where the empty name does match a
child of the root and `"x//y"` and `"x/y"` still give the same result. -/
theorem double_slash_skipped_witness :
    mr_object_find 4 state_xy "x//y".toList = some (some 2) ∧
    ((∀ d, object_find_by_path 4 state_xy d root_object ("x".toList ++ '/' :: '/' :: "y".toList) =
        object_find_by_path 4 state_xy d root_object ("x".toList ++ '/' :: "y".toList)) ∧
      (root_object = root_object →
        mr_object_find 4 state_xy ("x".toList ++ '/' :: '/' :: "y".toList) =
          mr_object_find 4 state_xy ("x".toList ++ '/' :: "y".toList))) ∧
    (∀ d r, object_find_by_path 4 state_xy (d + 1) root_object ('/' :: '/' :: r) =
      object_find_from_parent 4 state_xy root_object r) ∧
    object_find_from_parent 4 (after_register 4 state_xy 3 "") root_object [] =
      some (some 3) ∧
    (∀ d, object_find_by_path 4 (after_register 4 state_xy 3 "") d root_object
        ("x".toList ++ '/' :: '/' :: "y".toList) =
      object_find_by_path 4 (after_register 4 state_xy 3 "") d root_object
        ("x".toList ++ '/' :: "y".toList)) :=
  ⟨by decide,
    (double_slash_skipped 4 state_xy root_object).1 "x".toList "y".toList 1 (by decide)
      (by decide) (by decide) (by decide) (by decide),
    (double_slash_skipped 4 state_xy root_object).2 (by decide),
    by decide,
    ((double_slash_skipped 4 (after_register 4 state_xy 3 "") root_object).1 "x".toList
      "y".toList 1 (by decide) (by decide) (by decide) (by decide) (by decide)).1⟩

/-- C14, counterexample to the claim as stated: with `x` and `x/y` registered no registered
node has an empty name (the empty name matches no child of the root, of `x` or of `y`),
yet `mr_object_find("x//y")` returns `y`, the node `"x/y"` denotes; so does
`mr_object_find("x///y")`, whose empty segment matches no child. -/
theorem double_slash_counterexample :
    Reachable state_xy ∧
    object_find_from_parent 4 state_xy root_object [] = some none ∧
    object_find_from_parent 4 state_xy 1 [] = some none ∧
    object_find_from_parent 4 state_xy 2 [] = some none ∧
    (∀ fuel, 4 ≤ fuel → mr_object_find fuel state_xy "x/y".toList = some (some 2)) ∧
    (∀ fuel, 4 ≤ fuel → mr_object_find fuel state_xy "x//y".toList = some (some 2)) ∧
    (∀ fuel, 4 ≤ fuel → mr_object_find fuel state_xy "x///y".toList = some (some 2)) :=
  ⟨state_xy_reachable, by decide, by decide, by decide,
    fun _ hf => find_mono (by decide) hf, fun _ hf => find_mono (by decide) hf,
    fun _ hf => find_mono (by decide) hf⟩

/-! ## Symmetry of the links -/

theorem chain_sym_next {s : Heap} {head : Link} {ls : List Link} :
    ∀ {cur : Link}, Chain s head cur ls →
      ∀ x ∈ cur :: ls, ∀ y, s.next x = some y → s.prev y = some x := by
  induction ls with
  | nil =>
    intro cur h x hx y hy
    simp at hx
    subst hx
    have : y = head := by
      have := h.1.symm.trans hy
      simpa using this.symm
    rw [this]
    exact h.2
  | cons l ls ih =>
    intro cur h x hx y hy
    rcases List.mem_cons.mp hx with e | hx'
    · subst e
      have : y = l := by
        have := h.1.symm.trans hy
        simpa using this.symm
      rw [this]
      exact h.2.1
    · exact ih h.2.2 x hx' y hy

theorem chain_sym_prev {s : Heap} {head : Link} {ls : List Link} :
    ∀ {cur : Link}, Chain s head cur ls →
      ∀ x ∈ ls ++ [head], ∀ z, s.prev x = some z → s.next z = some x := by
  induction ls with
  | nil =>
    intro cur h x hx z hz
    simp at hx
    subst hx
    have : z = cur := by
      have := h.2.symm.trans hz
      simpa using this.symm
    rw [this]
    exact h.1
  | cons l ls ih =>
    intro cur h x hx z hz
    simp only [List.cons_append, List.mem_cons] at hx
    rcases hx with e | hx'
    · subst e
      have : z = cur := by
        have := h.2.1.symm.trans hz
        simpa using this.symm
      rw [this]
      exact h.1
    · exact ih h.2.2 x (by simpa using hx') z hz

/-- Every link of a circular list is symmetric. -/
theorem childList_symmetric {s : Heap} {o : Addr} {cs : List Addr} (h : ChildList s o cs)
    (x : Link) (hx : x = Link.clist o ∨ ∃ c ∈ cs, x = Link.list c) :
    (∀ y, s.next x = some y → s.prev y = some x) ∧
    (∀ z, s.prev x = some z → s.next z = some x) := by
  constructor
  · apply chain_sym_next h
    rcases hx with e | ⟨c, hc, e⟩
    · simp [e]
    · rw [e]
      exact List.mem_cons_of_mem _ (List.mem_map_of_mem _ hc)
  · apply chain_sym_prev h
    rcases hx with e | ⟨c, hc, e⟩
    · simp [e]
    · rw [e]
      exact List.mem_append_left _ (List.mem_map_of_mem _ hc)

/-- A well-formed registry has symmetric links. -/
theorem WF.symmetric {s : Heap} {ch : Addr → List Addr} (w : WF s ch) : Symmetric s := by
  have key : ∀ x, (∀ y, s.next x = some y → s.prev y = some x) ∧
      (∀ z, s.prev x = some z → s.next z = some x) := by
    intro x
    cases x with
    | clist o =>
      rcases w.clist o with h | ⟨h1, h2, _⟩
      · exact childList_symmetric h _ (Or.inl rfl)
      · constructor
        · intro y hy; rw [h1] at hy; exact absurd hy (by simp)
        · intro z hz; rw [h2] at hz; exact absurd hz (by simp)
    | list c =>
      by_cases hc : ∃ P, c ∈ ch P
      · obtain ⟨P, hP⟩ := hc
        exact childList_symmetric (w.childList_of_mem hP) _ (Or.inr ⟨c, hP, rfl⟩)
      · have hno : ∀ o, c ∉ ch o := fun o ho => hc ⟨o, ho⟩
        rcases w.unlinked c hno with ⟨h1, h2⟩ | ⟨h1, h2⟩
        · constructor
          · intro y hy; rw [h1] at hy; exact absurd hy (by simp)
          · intro z hz; rw [h2] at hz; exact absurd hz (by simp)
        · constructor
          · intro y hy
            rw [h1] at hy
            simp only [Option.some.injEq] at hy
            rw [← hy]; exact h2
          · intro z hz
            rw [h2] at hz
            simp only [Option.some.injEq] at hz
            rw [← hz]; exact h1
  exact ⟨fun x => (key x).1, fun x => (key x).2⟩

/-- Splicing a self-looped link in before another link keeps the links symmetric. -/
theorem list_insert_before_symmetric {s t : Heap} {head node : Link} (hs : Symmetric s)
    (hnext : s.next node = some node) (hprev : s.prev node = some node) (hne : head ≠ node)
    (h : list_insert_before s head node = some t) : Symmetric t := by
  cases hp : s.prev head with
  | none => simp [list_insert_before, hp] at h
  | some p =>
    rw [list_insert_before_eq s head node p hp] at h
    simp only [Option.some.injEq] at h
    subst h
    have hpn : p ≠ node := by
      intro e
      rw [e] at hp
      have := hs.2 head node hp
      rw [hnext] at this
      simp only [Option.some.injEq] at this
      exact hne this.symm
    have hnp : s.next p = some head := hs.2 head p hp
    constructor
    · intro x y hxy
      simp only at hxy ⊢
      by_cases hx1 : x = node
      · subst hx1
        simp only [Function.update_same, Option.some.injEq] at hxy
        subst hxy
        simp
      · rw [Function.update_noteq hx1] at hxy
        by_cases hx2 : x = p
        · subst hx2
          simp only [Function.update_same, Option.some.injEq] at hxy
          subst hxy
          simp [Function.update_noteq (Ne.symm hne)]
        · rw [Function.update_noteq hx2] at hxy
          have hy1 : y ≠ node := by
            intro e
            rw [e] at hxy
            have := hs.1 x node hxy
            rw [hprev] at this
            simp only [Option.some.injEq] at this
            exact hx1 this.symm
          have hy2 : y ≠ head := by
            intro e
            rw [e] at hxy
            have := hs.1 x head hxy
            rw [hp] at this
            simp only [Option.some.injEq] at this
            exact hx2 this.symm
          rw [Function.update_noteq hy2, Function.update_noteq hy1]
          exact hs.1 x y hxy
    · intro x z hxz
      simp only at hxz ⊢
      by_cases hx1 : x = head
      · subst hx1
        simp only [Function.update_same, Option.some.injEq] at hxz
        subst hxz
        simp
      · rw [Function.update_noteq hx1] at hxz
        by_cases hx2 : x = node
        · subst hx2
          simp only [Function.update_same, Option.some.injEq] at hxz
          subst hxz
          simp [Function.update_noteq hpn]
        · rw [Function.update_noteq hx2] at hxz
          have hz1 : z ≠ node := by
            intro e
            rw [e] at hxz
            have := hs.2 x node hxz
            rw [hnext] at this
            simp only [Option.some.injEq] at this
            exact hx2 this.symm
          have hz2 : z ≠ p := by
            intro e
            rw [e] at hxz
            have := hs.2 x p hxz
            rw [hnp] at this
            simp only [Option.some.injEq] at this
            exact hx1 this.symm
          rw [Function.update_noteq hz1, Function.update_noteq hz2]
          exact hs.2 x z hxz

/-- Unlinking a link keeps the links symmetric. -/
theorem list_remove_symmetric {s t : Heap} {node : Link} (hs : Symmetric s)
    (h : list_remove s node = some t) : Symmetric t := by
  cases hn : s.next node with
  | none => simp [list_remove, hn] at h
  | some nx =>
    cases hp : s.prev node with
    | none =>
      have := hs.1 node nx hn
      simp only [list_remove, hn] at h
      by_cases e : node = nx
      · rw [← e, hp] at this; exact absurd this (by simp)
      · simp [Function.update_noteq e, hp] at h
    | some pv =>
      rw [list_remove_eq s node nx pv hn hp] at h
      simp only [Option.some.injEq] at h
      subst h
      have hnxp : s.prev nx = some node := hs.1 node nx hn
      have hpvn : s.next pv = some node := hs.2 node pv hp
      constructor
      · intro x y hxy
        simp only at hxy ⊢
        by_cases hx1 : x = node
        · subst hx1
          simp only [Function.update_same, Option.some.injEq] at hxy
          subst hxy
          simp
        · rw [Function.update_noteq hx1] at hxy
          by_cases hx2 : x = pv
          · subst hx2
            simp only [Function.update_same, Option.some.injEq] at hxy
            subst hxy
            have hne : nx ≠ node := by
              intro e
              rw [e] at hn
              have := hs.1 node node hn
              rw [hp] at this
              simp only [Option.some.injEq] at this
              exact hx1 this
            simp [Function.update_noteq hne]
          · rw [Function.update_noteq hx2] at hxy
            have hy1 : y ≠ node := by
              intro e
              rw [e] at hxy
              have := hs.1 x node hxy
              rw [hp] at this
              simp only [Option.some.injEq] at this
              exact hx2 this.symm
            have hy2 : y ≠ nx := by
              intro e
              rw [e] at hxy
              have := hs.1 x nx hxy
              rw [hnxp] at this
              simp only [Option.some.injEq] at this
              exact hx1 this.symm
            rw [Function.update_noteq hy1, Function.update_noteq hy2]
            exact hs.1 x y hxy
      · intro x z hxz
        simp only at hxz ⊢
        by_cases hx1 : x = node
        · subst hx1
          simp only [Function.update_same, Option.some.injEq] at hxz
          subst hxz
          simp
        · rw [Function.update_noteq hx1] at hxz
          by_cases hx2 : x = nx
          · subst hx2
            simp only [Function.update_same, Option.some.injEq] at hxz
            subst hxz
            have hne : pv ≠ node := by
              intro e
              rw [e] at hp
              have := hs.2 node node hp
              rw [hn] at this
              simp only [Option.some.injEq] at this
              exact hx1 this
            simp [Function.update_noteq hne]
          · rw [Function.update_noteq hx2] at hxz
            have hz1 : z ≠ node := by
              intro e
              rw [e] at hxz
              have := hs.2 x node hxz
              rw [hn] at this
              simp only [Option.some.injEq] at this
              exact hx2 this.symm
            have hz2 : z ≠ pv := by
              intro e
              rw [e] at hxz
              have := hs.2 x pv hxz
              rw [hpvn] at this
              simp only [Option.some.injEq] at this
              exact hx1 this.symm
            rw [Function.update_noteq hz1, Function.update_noteq hz2]
            exact hs.2 x z hxz

/-- C15: list symmetry is an invariant.  In every reachable registry every link `x`
satisfies `x.next.prev == x` and `x.prev.next == x` wherever the pointer is set, and the
links `list` and `clist` of the root and of every live object are set; on such a
registry `list_insert_before` of a self-looped link and `list_remove` each give a memory
whose links are symmetric again. -/
theorem list_symmetry (s : Heap) (hs : Reachable s) :
    Symmetric s ∧
    (∀ n, (n = root_object ∨ s.magic n = OBJECT_MAGIC) →
      s.next (Link.list n) ≠ none ∧ s.prev (Link.list n) ≠ none ∧
      s.next (Link.clist n) ≠ none ∧ s.prev (Link.clist n) ≠ none) ∧
    (∀ head node t, s.next node = some node → s.prev node = some node → head ≠ node →
      list_insert_before s head node = some t → Symmetric t) ∧
    (∀ node t, list_remove s node = some t → Symmetric t) := by
  obtain ⟨ch, w⟩ := reachable_wf hs
  have hsym := w.symmetric
  refine ⟨hsym, ?_, ?_, ?_⟩
  · intro n hn
    have hatt : n = root_object ∨ ∃ p, n ∈ ch p := by
      rcases hn with h | h
      · exact Or.inl h
      · by_cases h0 : n = root_object
        · exact Or.inl h0
        · exact Or.inr ((w.live n h0).mp h)
    obtain ⟨⟨x, hx⟩, ⟨y, hy⟩⟩ := childList_inited (w.childList hatt)
    have hlist : s.next (Link.list n) ≠ none ∧ s.prev (Link.list n) ≠ none := by
      rcases hatt with h | ⟨P, hP⟩
      · rw [h, w.root_list.1, w.root_list.2]; simp
      · obtain ⟨A, B, hAB⟩ := List.append_of_mem hP
        have hc := w.childList_of_mem hP
        unfold ChildList at hc
        rw [hAB] at hc
        simp only [List.map_append, List.map_cons] at hc
        obtain ⟨h1, h2⟩ := chain_mid hc
        rw [h1, h2]; simp
    refine ⟨hlist.1, hlist.2, ?_, ?_⟩
    · rw [hx]; simp
    · rw [hy]; simp
  · intro head node t h1 h2 h3 h4
    exact list_insert_before_symmetric hsym h1 h2 h3 h4
  · intro node t h
    exact list_remove_symmetric hsym h

/-- C15, witness: the registry with `x`, `x/y`, `x/y/z`. -/
theorem list_symmetry_witness :
    Reachable state_xyz ∧
    (Symmetric state_xyz ∧
    (∀ n, (n = root_object ∨ state_xyz.magic n = OBJECT_MAGIC) →
      state_xyz.next (Link.list n) ≠ none ∧ state_xyz.prev (Link.list n) ≠ none ∧
      state_xyz.next (Link.clist n) ≠ none ∧ state_xyz.prev (Link.clist n) ≠ none) ∧
    (∀ head node t, state_xyz.next node = some node → state_xyz.prev node = some node →
      head ≠ node → list_insert_before state_xyz head node = some t → Symmetric t) ∧
    (∀ node t, list_remove state_xyz node = some t → Symmetric t)) :=
  ⟨state_xyz_reachable, list_symmetry state_xyz state_xyz_reachable⟩

/-! ## The parent edges -/

theorem WF.climb_step {s : Heap} {ch : Addr → List Addr} (w : WF s ch) {P c : Addr}
    (h : c ∈ ch P) (k : Nat) : climb s (k + 1) c = climb s k P := by
  have hc0 : c ≠ root_object := fun e => w.root_free P (e ▸ h)
  have hm : s.magic c = OBJECT_MAGIC := (w.live c hc0).mpr ⟨P, h⟩
  have hcond : ¬ (c = root_object ∨ s.magic c ≠ OBJECT_MAGIC) := by
    rintro (e | e)
    · exact hc0 e
    · exact e hm
  simp only [climb, if_neg hcond, w.parent P c h]

/-- Climbing from any object ends, at the root or at an object that is not live. -/
theorem WF.climb_end {s : Heap} {ch : Addr → List Addr} (w : WF s ch) (n : Addr) :
    ∃ k, ∀ k', k ≤ k' →
      (climb s k' n = root_object ∨ s.magic (climb s k' n) ≠ OBJECT_MAGIC) := by
  obtain ⟨rk, hrk⟩ := w.rank
  have key : ∀ m n, rk n ≤ m → ∀ k', m + 1 ≤ k' →
      (climb s k' n = root_object ∨ s.magic (climb s k' n) ≠ OBJECT_MAGIC) := by
    intro m
    induction m with
    | zero =>
      intro n hn k' hk
      cases k' with
      | zero => omega
      | succ j =>
        by_cases hcond : n = root_object ∨ s.magic n ≠ OBJECT_MAGIC
        · simp only [climb, if_pos hcond]
          exact hcond
        · have hn0 : n ≠ root_object := fun e => hcond (Or.inl e)
          have hm : s.magic n = OBJECT_MAGIC := by
            by_contra e
            exact hcond (Or.inr e)
          obtain ⟨P, hP⟩ := (w.live n hn0).mp hm
          have := hrk P n hP
          omega
    | succ m ih =>
      intro n hn k' hk
      cases k' with
      | zero => omega
      | succ j =>
        by_cases hcond : n = root_object ∨ s.magic n ≠ OBJECT_MAGIC
        · simp only [climb, if_pos hcond]
          exact hcond
        · have hn0 : n ≠ root_object := fun e => hcond (Or.inl e)
          have hm : s.magic n = OBJECT_MAGIC := by
            by_contra e
            exact hcond (Or.inr e)
          obtain ⟨P, hP⟩ := (w.live n hn0).mp hm
          have := hrk P n hP
          rw [w.climb_step hP]
          exact ih P (by omega) j (by omega)
  exact ⟨rk n + 1, fun k' hk => key (rk n) n (le_refl _) k' hk⟩

/-- An object whose climb reaches the root is reachable from the root through child lists. -/
theorem WF.climb_below {s : Heap} {ch : Addr → List Addr} (w : WF s ch) :
    ∀ (k : Nat) (n : Addr), climb s k n = root_object → Below s root_object n := by
  intro k
  induction k with
  | zero =>
    intro n h
    simp only [climb] at h
    rw [h]
    exact Below.refl _
  | succ k ih =>
    intro n h
    by_cases hcond : n = root_object ∨ s.magic n ≠ OBJECT_MAGIC
    · simp only [climb, if_pos hcond] at h
      rw [h]
      exact Below.refl _
    · have hn0 : n ≠ root_object := fun e => hcond (Or.inl e)
      have hm : s.magic n = OBJECT_MAGIC := by
        by_contra e
        exact hcond (Or.inr e)
      obtain ⟨P, hP⟩ := (w.live n hn0).mp hm
      rw [w.climb_step hP] at h
      exact Below.step (ih P h) (w.childList_of_mem hP) hP

/-- An object reachable from the root through child lists climbs to the root. -/
theorem WF.below_climb {s : Heap} {ch : Addr → List Addr} (w : WF s ch) {n : Addr}
    (h : Below s root_object n) : ∃ k, climb s k n = root_object := by
  induction h with
  | refl => exact ⟨0, rfl⟩
  | step _ hcs hc ih =>
    obtain ⟨k, hk⟩ := ih
    obtain ⟨e, _⟩ := w.childList_eq hcs
    rw [e] at hc
    exact ⟨k + 1, by rw [w.climb_step hc]; exact hk⟩

/-- C17 (as amended): the parent edges form a forest.  In every registry reachable from
program start by calls of `mr_object_register` / `mr_object_unregister` on caller-owned
objects that respect the asserted preconditions (register only a zero-initialised or
previously unregistered object, whose magic is not `0xdeadbeef`; unregister only a live
object), the root has no parent; every live
caller-owned object is an element of the child list of its parent, which is another
object; following the parent references from any object through live objects ends after
finitely many steps, at the root or at an object that is not live (an unregistered object
whose children were left linked to it), so there is no cycle; and the objects from which
the climb ends at the root are exactly those reachable from the root through child lists. -/
theorem parent_edges_forest (s : Heap) (hs : Reachable s) :
    s.parent root_object = none ∧
    (∀ n, n ≠ root_object → s.magic n = OBJECT_MAGIC →
      ∃ P cs, s.parent n = some P ∧ ChildList s P cs ∧ n ∈ cs ∧ P ≠ n) ∧
    (∀ n, ∃ k, ∀ k', k ≤ k' →
      (climb s k' n = root_object ∨ s.magic (climb s k' n) ≠ OBJECT_MAGIC)) ∧
    (∀ n, (∃ k, climb s k n = root_object) ↔ Below s root_object n) := by
  obtain ⟨ch, w⟩ := reachable_wf hs
  refine ⟨w.root_parent, ?_, w.climb_end, ?_⟩
  · intro n hn0 hm
    obtain ⟨P, hP⟩ := (w.live n hn0).mp hm
    refine ⟨P, ch P, w.parent P n hP, w.childList_of_mem hP, hP, ?_⟩
    obtain ⟨rk, hrk⟩ := w.rank
    have := hrk P n hP
    intro e
    rw [e] at this
    omega
  · intro n
    constructor
    · rintro ⟨k, hk⟩
      exact w.climb_below k n hk
    · exact w.below_climb

/-- C17, witness: the registry with `x`, `x/y`, `x/y/z`, where `z` climbs to the root. -/
theorem parent_edges_forest_witness :
    Reachable state_xyz ∧ climb state_xyz 3 3 = root_object ∧
    (state_xyz.parent root_object = none ∧
    (∀ n, n ≠ root_object → state_xyz.magic n = OBJECT_MAGIC →
      ∃ P cs, state_xyz.parent n = some P ∧ ChildList state_xyz P cs ∧ n ∈ cs ∧ P ≠ n) ∧
    (∀ n, ∃ k, ∀ k', k ≤ k' →
      (climb state_xyz k' n = root_object ∨
        state_xyz.magic (climb state_xyz k' n) ≠ OBJECT_MAGIC)) ∧
    (∀ n, (∃ k, climb state_xyz k n = root_object) ↔ Below state_xyz root_object n)) :=
  ⟨state_xyz_reachable, by decide, parent_edges_forest state_xyz state_xyz_reachable⟩

theorem state_xz_climb_y (k : Nat) : climb state_xz k 2 = 2 := by
  cases k with
  | zero => rfl
  | succ k => rw [climb, if_pos (Or.inr (by decide))]

theorem state_xz_climb_z (k : Nat) : climb state_xz k 3 ≠ root_object := by
  cases k with
  | zero => decide
  | succ k =>
    have hp : state_xz.parent 3 = some 2 := by decide
    rw [climb, if_neg (by decide), hp]
    simp only
    rw [state_xz_climb_y]
    decide

/-- C17, counterexample to the claim as stated: after `x`, `x/y`, `x/y/z` are registered
and `y` is unregistered (all calls return 0), `z` has magic `0xdeadbeef` but its parent
reference leads to `y`, which is not live and has no parent: `z` does not reach the root
through parent references, is not reachable from the root through child lists, and
`mr_object_find("x/y/z")` returns `NULL`.  And a call that returns success without its
asserted precondition makes a cycle: with `x` and `x/y` registered, registering the live
`x` again at `"x/y/z"` returns 0 and leaves `x.parent = y` and `y.parent = x`, both live. -/
theorem parent_edges_tree_counterexample :
    Reachable state_xz ∧
    (mr_object_unregister state_xyz 2).map Prod.fst = some 0 ∧
    state_xz.magic 3 = OBJECT_MAGIC ∧ state_xz.parent 3 = some 2 ∧
    state_xz.magic 2 = 0 ∧ state_xz.parent 2 = none ∧
    ¬ (∃ k, climb state_xz k 3 = root_object) ∧
    ¬ Below state_xz root_object 3 ∧
    (∀ fuel, 4 ≤ fuel → mr_object_find fuel state_xz "x/y/z".toList = some none) ∧
    state_xy.magic 1 = OBJECT_MAGIC ∧
    (mr_object_register 4 state_xy 1 "x/y/z".toList).map Prod.fst = some 0 ∧
    (after_register 4 state_xy 1 "x/y/z").parent 1 = some 2 ∧
    (after_register 4 state_xy 1 "x/y/z").parent 2 = some 1 ∧
    (after_register 4 state_xy 1 "x/y/z").magic 1 = OBJECT_MAGIC ∧
    (after_register 4 state_xy 1 "x/y/z").magic 2 = OBJECT_MAGIC := by
  have hno : ¬ (∃ k, climb state_xz k 3 = root_object) := fun ⟨k, hk⟩ => state_xz_climb_z k hk
  obtain ⟨ch, w⟩ := reachable_wf state_xz_reachable
  exact ⟨state_xz_reachable, by decide, by decide, by decide, by decide, by decide, hno,
    fun hb => hno (w.below_climb hb), fun _ hf => find_mono (by decide) hf,
    by decide, by decide, by decide, by decide, by decide, by decide⟩

end MrObject
